import Mathlib

/-!
# EzCodec: blocks, container format, quantizer and pipeline

A shallow embedding of the block type (`src/include/ezcodec/Block.h`), the container
codec (`src/src/EzcFormat.cpp`), the quantizer (`src/src/Quantization.cpp`,
`src/include/ezcodec/Quantization.h`), the raster splitter
(`src/include/ezcodec/Picture.h`, `src/src/Picture.cpp`) and the pipeline
(`src/src/Codec.cpp`, the encode branch of `src/src/main.cpp`), followed by the
properties proved about them.

Conventions of the embedding:

* `uint8_t` is `Fin 256`, `uint16_t` is `Fin 65536`, `int16_t` is the subtype of `Int`
  in `[-32768, 32767]`; `int` and `size_t` values are `Int` and `Nat`.  The `int`
  computations of the container codec and of the quantizer stay far inside 32 bits; the
  `int` products of image dimensions, which need not, go through `checkedInt`.
* A conversion that can wrap is written with an explicit `%`.
* A file is the list of its bytes.  Opening a file and the operating system's write
  calls are assumed to succeed; `writeEzc` is the content it leaves in the file and
  `readEzc` takes the content of the file it opened.
* Memory allocation is assumed to succeed, except for the block vector of `readEzc`,
  whose size is announced by the file: `readEzcAlloc` and `decodeAlloc` have the amount
  of memory as a parameter and throw `std::bad_alloc` beyond it; `readEzc` and `decode`
  are the calls that return.
* Undefined behaviour is the result `none`, or `Fault.undefined` where a call can also
  throw.
* Storage that the program reads without having initialised it (a read buffer after a
  short read) has an arbitrary content, given by the parameter `junk`.
* The transform of `DCT.h` computes in `double`; its numerical part is a parameter of
  the functions that call it.  For the property in exact arithmetic the sums of
  `forwardDCT` and `inverseDCT` are embedded on a number type `K`, with `std::cos`,
  `std::sqrt` and `PI` as parameters, and instantiated at the real numbers.
* The task pool (`ThreadPool.h`) is not among the sources: it is modelled from the
  specification, as a state with one atomic event per pull and per completion, and a
  run of `testThreadPool` (`src/tests/test_main.cpp`) is driven by a schedule.
-/

namespace EzCodec

/-! ## Machine integers -/

/-- The type `uint8_t`. -/
abbrev U8 := Fin 256

/-- The type `uint16_t`. -/
abbrev U16 := Fin 65536

/-- The type `int16_t`. -/
abbrev I16 := { v : Int // -32768 ≤ v ∧ v ≤ 32767 }

/-- Conversion of a non-negative integer to `uint8_t` (reduction modulo 2^8). -/
def toU8 (n : Nat) : U8 := ⟨n % 256, Nat.mod_lt n (by decide)⟩

/-- Conversion of an `int` to `uint8_t`, as in `static_cast<uint8_t>(in.get())`. -/
def intToU8 (x : Int) : U8 := ⟨(x % 256).toNat, by omega⟩

/-- Conversion of a non-negative integer to `uint16_t` (reduction modulo 2^16). -/
def toU16 (n : Nat) : U16 := ⟨n % 65536, Nat.mod_lt n (by decide)⟩

/-- Conversion of an `int` to `uint16_t` (reduction modulo 2^16). -/
def intToU16 (x : Int) : U16 := ⟨(x % 65536).toNat, by omega⟩

/-- Conversion of an `int` to `int16_t` (two's complement wrap-around). -/
def toI16 (x : Int) : I16 := ⟨(x + 32768) % 65536 - 32768, by omega⟩

/-- The integer element types of a block that are narrower than `int`: arithmetic on
them is carried out in `int` after integer promotion. -/
class IntElem (T : Type) where
  /-- Integer promotion of an element. -/
  toInt : T → Int
  /-- The conversion `static_cast<T>` of an `int`. -/
  ofInt : Int → T
  /-- The value-initialised element `T{}`. -/
  zero : T

instance : IntElem I16 where
  toInt v := v.val
  ofInt := toI16
  zero := ⟨0, by decide⟩

instance : IntElem U16 where
  toInt v := (v.val : Int)
  ofInt := intToU16
  zero := 0

instance : IntElem U8 where
  toInt v := (v.val : Int)
  ofInt := intToU8
  zero := 0

/-! ## Block.h -/

/-- The enumeration `TxSize`. -/
inductive TxSize where
  | TX_4x4
  | TX_8x8
  | TX_16x16
  | TX_32x32
  deriving DecidableEq, Repr

/-- Side length of a block of the given size. -/
def getTxDimension : TxSize → Nat
  | .TX_4x4 => 4
  | .TX_8x8 => 8
  | .TX_16x16 => 16
  | .TX_32x32 => 32

/-- Number of elements of a block of the given size (the enumerator's value). -/
def getTxElementCount : TxSize → Nat
  | .TX_4x4 => 16
  | .TX_8x8 => 64
  | .TX_16x16 => 256
  | .TX_32x32 => 1024

/-- The class template `Block<T, Size>`: grid coordinates and an owned buffer of exactly
`getTxElementCount Size` elements. -/
structure Block (T : Type) (Size : TxSize) where
  blockX : Int
  blockY : Int
  data : Fin (getTxElementCount Size) → T

/-- The constructor `Block(int x, int y)`: a zero-filled block. -/
def Block.new {T : Type} [IntElem T] {Size : TxSize} (x y : Int) : Block T Size :=
  { blockX := x, blockY := y, data := fun _ => IntElem.zero }

/-- A freshly constructed block followed by the assignments `block[i] = vals[i]` for
every `i < vals.length`. -/
def Block.filled {T : Type} [IntElem T] {Size : TxSize} (x y : Int) (vals : List T) :
    Block T Size :=
  { blockX := x, blockY := y, data := fun i => vals.getD i.val IntElem.zero }

/-- The alias `Block8x8i16`. -/
abbrev Block8x8i16 := Block I16 TxSize.TX_8x8

/-- The alias `Block8x8ui16`. -/
abbrev Block8x8ui16 := Block U16 TxSize.TX_8x8

/-- Ways in which a call does not return normally. -/
inductive Fault where
  /-- The exception `std::out_of_range` was thrown. -/
  | outOfRange
  /-- The call has undefined behaviour (access outside a buffer, signed overflow,
  division by zero). -/
  | undefined
  /-- The iteration bound given to a loop of the embedding was reached before the loop
  condition became false; no loop of the program does this. -/
  | fuel
  /-- The exception `std::bad_alloc` was thrown. -/
  | badAlloc
  deriving DecidableEq, Repr

/-- The accessor `getBlockX()`. -/
def Block.getBlockX {T : Type} {Size : TxSize} (b : Block T Size) : Int := b.blockX

/-- The accessor `getBlockY()`. -/
def Block.getBlockY {T : Type} {Size : TxSize} (b : Block T Size) : Int := b.blockY

/-- The member `size()`: the constant `block_element_count`. -/
def Block.size {T : Type} {Size : TxSize} (_b : Block T Size) : Nat := getTxElementCount Size

/-- The member `dimension()`: the constant `block_dimension`. -/
def Block.dimension {T : Type} {Size : TxSize} (_b : Block T Size) : Nat := getTxDimension Size

/-- The value of `SIZE_MAX + 1`: arithmetic on `size_t` is modulo this number. -/
def SIZE_MODULUS : Nat := 2 ^ 64

/-- Reading through `operator[](index)`: no check, an index outside the buffer is
undefined behaviour. -/
def Block.subscript {T : Type} {Size : TxSize} (b : Block T Size) (index : Nat) :
    Except Fault T :=
  if h : index < getTxElementCount Size then .ok (b.data ⟨index, h⟩)
  else .error Fault.undefined

/-- Reading through `at(index)`. -/
def Block.atIndex {T : Type} {Size : TxSize} (b : Block T Size) (index : Nat) :
    Except Fault T :=
  if h : index ≥ getTxElementCount Size then .error Fault.outOfRange
  else .ok (b.data ⟨index, Nat.lt_of_not_ge h⟩)

/-- Reading through `at(row, col)`; the index is computed in `size_t`. -/
def Block.atRowCol {T : Type} {Size : TxSize} (b : Block T Size) (row col : Nat) :
    Except Fault T :=
  let index := (row * getTxDimension Size + col) % SIZE_MODULUS
  if h : index ≥ getTxElementCount Size ∨ row ≥ getTxDimension Size
      ∨ col ≥ getTxDimension Size then .error Fault.outOfRange
  else .ok (b.data ⟨index, Nat.lt_of_not_ge (fun hge => h (Or.inl hge))⟩)

/-- The assignment `block.at(row, col) = value`: the block after it. -/
def Block.assignAtRowCol {T : Type} {Size : TxSize} (b : Block T Size) (row col : Nat)
    (value : T) : Except Fault (Block T Size) :=
  let index := (row * getTxDimension Size + col) % SIZE_MODULUS
  if h : index ≥ getTxElementCount Size ∨ row ≥ getTxDimension Size
      ∨ col ≥ getTxDimension Size then .error Fault.outOfRange
  else .ok ⟨b.blockX, b.blockY,
    Function.update b.data ⟨index, Nat.lt_of_not_ge (fun hge => h (Or.inl hge))⟩ value⟩

/-! ## EzcFormat.h / EzcFormat.cpp -/

/-- The structure `EzcHeader` with its default member initialisers. -/
structure EzcHeader where
  version : U8 := 1
  width : U16 := 0
  height : U16 := 0
  quality : U8 := 50
  blockDim : U8 := 8
  blockCountX : U16 := 0
  blockCountY : U16 := 0
  deriving DecidableEq, Repr

/-- The magic number: the bytes 'E', 'Z', 'C', 0. -/
def EZC_MAGIC : List U8 := [69, 90, 67, 0]

/-- The only container version. -/
def EZC_VERSION : U8 := 1

/-- The helper `writeU16`: the two bytes it appends, low byte first. -/
def writeU16 (val : U16) : List U8 :=
  [toU8 (val.val &&& 0xFF), toU8 ((val.val >>> 8) &&& 0xFF)]

/-- The helper `writeI16`: `writeU16` of the value converted to `uint16_t`. -/
def writeI16 (val : I16) : List U8 :=
  writeU16 (intToU16 val.val)

/-- The inner loop of `writeEzc`, `for (i = 0; i < 64; i++) writeI16(out, block[i])`:
the 128 bytes written for one block. -/
def writeBlockData (block : Block8x8i16) : List U8 :=
  (List.finRange 64).flatMap (fun i => writeI16 (block.data i))

/-- The function `writeEzc`: the bytes written to the (successfully opened) file. -/
def writeEzc (header : EzcHeader) (quantizedBlocks : List Block8x8i16) : List U8 :=
  EZC_MAGIC
    ++ [header.version]
    ++ writeU16 header.width
    ++ writeU16 header.height
    ++ [header.quality]
    ++ [header.blockDim]
    ++ writeU16 header.blockCountX
    ++ writeU16 header.blockCountY
    ++ [0]
    ++ quantizedBlocks.flatMap writeBlockData

/-- State of a `std::ifstream` opened on a file: the bytes not yet extracted and the
fail bit. -/
structure IStream where
  rest : List U8
  fail : Bool

/-- The call `in.read(buf, n)` on a buffer with previous content `buf` (of length `n`):
returns the buffer's new content.  A stream that has already failed extracts nothing;
a stream with fewer than `n` bytes left stores what is left and sets the fail bit. -/
def IStream.read (s : IStream) (n : Nat) (buf : List U8) : List U8 × IStream :=
  if s.fail then (buf, s)
  else if n ≤ s.rest.length then (s.rest.take n, { rest := s.rest.drop n, fail := false })
  else (s.rest ++ buf.drop s.rest.length, { rest := [], fail := true })

/-- The call `in.get()`: the next byte, or `EOF` (which is -1) when the stream has failed
or is exhausted, in which case the fail bit is set. -/
def IStream.get (s : IStream) : Int × IStream :=
  if s.fail then (-1, s)
  else
    match s.rest with
    | [] => (-1, { rest := [], fail := true })
    | c :: cs => ((c.val : Int), { rest := cs, fail := false })

/-- The helper `readU16`; `u0` and `u1` are the initial content of its local buffer. -/
def readU16 (s : IStream) (u0 u1 : U8) : U16 × IStream :=
  let r := s.read 2 [u0, u1]
  (toU16 ((r.1.getD 0 0).val ||| ((r.1.getD 1 0).val <<< 8)), r.2)

/-- The helper `readI16`: `readU16` converted to `int16_t`. -/
def readI16 (s : IStream) (u0 u1 : U8) : I16 × IStream :=
  let r := readU16 s u0 u1
  (toI16 (r.1.val : Int), r.2)

/-- The loop `for (i = 0; i < n; i++) block[i] = readI16(in)`, as the list of the values
assigned; `off` is the file offset of the first value. -/
def readElements (junk : Nat → U8) : Nat → Nat → IStream → List I16 × IStream
  | 0, _, s => ([], s)
  | n + 1, off, s =>
    let r := readI16 s (junk off) (junk (off + 1))
    let rs := readElements junk n (off + 2) r.2
    (r.1 :: rs.1, rs.2)

/-- The remainder `a % b` of unsigned integers; a zero divisor is undefined behaviour. -/
def checkedMod (a b : Nat) : Option Nat :=
  if b = 0 then none else some (a % b)

/-- The quotient `a / b` of unsigned integers; a zero divisor is undefined behaviour. -/
def checkedDiv (a b : Nat) : Option Nat :=
  if b = 0 then none else some (a / b)

/-- The block loop of `readEzc`: `n` further iterations starting at block index `b`;
returns the blocks appended to `quantizedBlocks` and the final stream state. -/
def readBlocks (junk : Nat → U8) (blockCountX : Nat) :
    Nat → Nat → IStream → Option (List Block8x8i16 × IStream)
  | 0, _, s => some ([], s)
  | n + 1, b, s =>
    match checkedMod b blockCountX, checkedDiv b blockCountX with
    | some blockX, some blockY =>
      let r := readElements junk 64 (16 + 128 * b) s
      match readBlocks junk blockCountX n (b + 1) r.2 with
      | some rs => some (Block.filled (blockX : Int) (blockY : Int) r.1 :: rs.1, rs.2)
      | none => none
    | _, _ => none

/-- The function `readEzc` on the content `file` of the (successfully opened) file, in a
call that returns: `header` and `quantizedBlocks` are the caller's objects before the
call; the result is the returned `bool` together with the two objects after the call.
The allocations of the block vector are taken to succeed here; `readEzcAlloc` is the
function with these allocations made explicit. -/
def readEzc (junk : Nat → U8) (file : List U8) (header : EzcHeader)
    (quantizedBlocks : List Block8x8i16) : Option (Bool × EzcHeader × List Block8x8i16) :=
  let s0 : IStream := { rest := file, fail := false }
  let m := s0.read 4 [junk 0, junk 1, junk 2, junk 3]
  if m.1 ≠ EZC_MAGIC then some (false, header, quantizedBlocks)
  else
    let v := m.2.get
    let header1 := { header with version := intToU8 v.1 }
    if header1.version ≠ EZC_VERSION then some (false, header1, quantizedBlocks)
    else
      let w := readU16 v.2 (junk 5) (junk 6)
      let h := readU16 w.2 (junk 7) (junk 8)
      let q := h.2.get
      let d := q.2.get
      let cx := readU16 d.2 (junk 11) (junk 12)
      let cy := readU16 cx.2 (junk 13) (junk 14)
      let r := cy.2.get
      let header2 : EzcHeader :=
        { version := header1.version, width := w.1, height := h.1,
          quality := intToU8 q.1, blockDim := intToU8 d.1,
          blockCountX := cx.1, blockCountY := cy.1 }
      if r.2.fail then some (false, header2, quantizedBlocks)
      else
        let totalBlocks := cx.1.val * cy.1.val
        match readBlocks junk cx.1.val totalBlocks 0 r.2 with
        | none => none
        | some bs => some (!bs.2.fail, header2, bs.1)

/-- The function `readEzc` with the allocations of its block vector made explicit, in a
process whose allocator has memory for `capacity` blocks.  After the header has been
read and the stream checked, `quantizedBlocks.reserve(totalBlocks)` and the
`emplace_back` of every iteration of the block loop (which allocates the 64 values of
the block) succeed when `totalBlocks ≤ capacity`; otherwise one of them throws
`std::bad_alloc`, before the stream is checked again.  The result is the exception, or
the returned `bool` together with the caller's two objects after the call. -/
def readEzcAlloc (capacity : Nat) (junk : Nat → U8) (file : List U8) (header : EzcHeader)
    (quantizedBlocks : List Block8x8i16) :
    Except Fault (Bool × EzcHeader × List Block8x8i16) :=
  let s0 : IStream := { rest := file, fail := false }
  let m := s0.read 4 [junk 0, junk 1, junk 2, junk 3]
  if m.1 ≠ EZC_MAGIC then .ok (false, header, quantizedBlocks)
  else
    let v := m.2.get
    let header1 := { header with version := intToU8 v.1 }
    if header1.version ≠ EZC_VERSION then .ok (false, header1, quantizedBlocks)
    else
      let w := readU16 v.2 (junk 5) (junk 6)
      let h := readU16 w.2 (junk 7) (junk 8)
      let q := h.2.get
      let d := q.2.get
      let cx := readU16 d.2 (junk 11) (junk 12)
      let cy := readU16 cx.2 (junk 13) (junk 14)
      let r := cy.2.get
      let header2 : EzcHeader :=
        { version := header1.version, width := w.1, height := h.1,
          quality := intToU8 q.1, blockDim := intToU8 d.1,
          blockCountX := cx.1, blockCountY := cy.1 }
      if r.2.fail then .ok (false, header2, quantizedBlocks)
      else
        let totalBlocks := cx.1.val * cy.1.val
        if capacity < totalBlocks then .error Fault.badAlloc
        else
          match readBlocks junk cx.1.val totalBlocks 0 r.2 with
          | none => .error Fault.undefined
          | some bs => .ok (!bs.2.fail, header2, bs.1)

/-! ## Quantization.h / Quantization.cpp -/

/-- The table `Quantization::JPEG_LUMINANCE_QUANTIZATION_TABLE`. -/
def JPEG_LUMINANCE_QUANTIZATION_TABLE : List Int :=
  [16, 11, 10, 16,  24,  40,  51,  61,
   12, 12, 14, 19,  26,  58,  60,  55,
   14, 13, 16, 24,  40,  57,  69,  56,
   14, 17, 22, 29,  51,  87,  80,  62,
   18, 22, 37, 56,  68, 109, 103,  77,
   24, 35, 55, 64,  81, 104, 113,  92,
   49, 64, 78, 87, 103, 121, 120, 101,
   72, 92, 95, 98, 112, 100, 103,  99]

/-- The function `std::clamp(v, lo, hi)`. -/
def clamp (v lo hi : Int) : Int :=
  if v < lo then lo else if hi < v then hi else v

/-- The function `Quantization::getScaleFactor`. -/
def getScaleFactor (quality : Int) : Int :=
  let quality := clamp quality 1 100
  let scale := if quality < 50 then Int.tdiv 5000 quality else 200 - quality * 2
  max scale 1

/-- The function `Quantization::getQuantizationValue`, for an index inside the table. -/
def getQuantizationValue (index : Fin 64) (quality : Int) : Int :=
  let baseValue := JPEG_LUMINANCE_QUANTIZATION_TABLE.getD index.val 0
  let scale := getScaleFactor quality
  let quantValue := Int.tdiv (baseValue * scale + 50) 100
  max quantValue 1

/-- The quotient `a / b` of two `int`s (truncating); a zero divisor is undefined
behaviour. -/
def intDiv (a b : Int) : Option Int :=
  if b = 0 then none else some (Int.tdiv a b)

/-- A loop that computes every element of a destination buffer: the buffer, unless the
computation of some element has undefined behaviour. -/
def forEachElement {n : Nat} {T : Type} (f : Fin n → Option T) : Option (Fin n → T) :=
  if h : ∀ i, (f i).isSome = true then some (fun i => (f i).get (h i)) else none

/-- The function template `Quantization::quantize`: the destination block after the call.
The second alternative is the body of `if constexpr (Size != TxSize::TX_8x8)` (scalar
quantization, then `return`), the first one is the loop that follows it. -/
def quantize {SrcT DstT : Type} [IntElem SrcT] [IntElem DstT] :
    {Size : TxSize} → Block SrcT Size → Block DstT Size → Int → Option (Block DstT Size)
  | .TX_8x8, srcBlock, dstBlock, quality =>
    (forEachElement (fun i : Fin 64 =>
      let quantValue := getQuantizationValue i quality
      (if IntElem.toInt (srcBlock.data i) ≥ 0
        then intDiv (IntElem.toInt (srcBlock.data i) + Int.tdiv quantValue 2) quantValue
        else intDiv (IntElem.toInt (srcBlock.data i) - Int.tdiv quantValue 2) quantValue).map
        (IntElem.ofInt : Int → DstT))).map
      (fun data => { dstBlock with data := data })
  | _, srcBlock, dstBlock, quality =>
    let scaleFactor := getScaleFactor quality
    (forEachElement (fun i =>
      (intDiv (IntElem.toInt (srcBlock.data i)) scaleFactor).map
        (IntElem.ofInt : Int → DstT))).map
      (fun data => { dstBlock with data := data })

/-- The function template `Quantization::dequantize`: the destination block after the
call.  The second alternative is the body of `if constexpr (Size != TxSize::TX_8x8)`, the
first one is the loop that follows it. -/
def dequantize {SrcT DstT : Type} [IntElem SrcT] [IntElem DstT] :
    {Size : TxSize} → Block SrcT Size → Block DstT Size → Int → Block DstT Size
  | .TX_8x8, srcBlock, dstBlock, quality =>
    { dstBlock with data := fun i : Fin 64 =>
        IntElem.ofInt (IntElem.toInt (srcBlock.data i) * getQuantizationValue i quality) }
  | _, srcBlock, dstBlock, quality =>
    let scaleFactor := getScaleFactor quality
    { dstBlock with data := fun i =>
        IntElem.ofInt (IntElem.toInt (srcBlock.data i) * scaleFactor) }

/-! ## Loops -/

/-- The loop `for (i = 0; i < n; i++) body`, on the state `s` the body updates. -/
def forRange {σ : Type} (body : Nat → σ → Except Fault σ) : Nat → σ → Except Fault σ
  | 0, s => .ok s
  | n + 1, s =>
    match forRange body n s with
    | .ok s1 => body n s1
    | .error e => .error e

/-- The loop `for (i = start; i < limit; i += stride) body`, given an iteration bound. -/
def forStride {σ : Type} (body : Int → σ → Except Fault σ) (limit stride : Int) :
    Nat → Int → σ → Except Fault σ
  | 0, i, s => if i < limit then .error Fault.fuel else .ok s
  | fuel + 1, i, s =>
    if i < limit then
      match body i s with
      | .ok s1 => forStride body limit stride fuel (i + stride) s1
      | .error e => .error e
    else .ok s

/-- A loop over a sequence that fills the slot of every element, `dst[i] = f(src[i])`. -/
def forEachBlock {α β : Type} (f : α → Except Fault β) : List α → Except Fault (List β)
  | [] => .ok []
  | a :: rest =>
    match f a with
    | .ok b =>
      match forEachBlock f rest with
      | .ok bs => .ok (b :: bs)
      | .error e => .error e
    | .error e => .error e

/-- The value of an `int` expression whose mathematical value is `x`: leaving the range
of `int` is undefined behaviour. -/
def checkedInt (x : Int) : Except Fault Int :=
  if -2147483648 ≤ x ∧ x ≤ 2147483647 then .ok x else .error Fault.undefined

/-! ## DCT.h -/

/-- The function template `DCT::forwardDCT`: the destination block after the call.  The
computation of `temp` in `double` and the conversion `static_cast<DstT>` of its entries
are not embedded; together they are the parameter `coefficients`. -/
def forwardDCT {SrcT DstT : Type} {Size : TxSize}
    (coefficients : (Fin (getTxElementCount Size) → SrcT) → Fin (getTxElementCount Size) → DstT)
    (srcBlock : Block SrcT Size) (dstBlock : Block DstT Size) : Block DstT Size :=
  { dstBlock with data := coefficients srcBlock.data }

/-- The function template `DCT::inverseDCT`: the destination block after the call.  The
computation of `temp` in `double` and the conversion `static_cast<DstT>` of its entries
are not embedded; together they are the parameter `samples`. -/
def inverseDCT {SrcT DstT : Type} {Size : TxSize}
    (samples : (Fin (getTxElementCount Size) → SrcT) → Fin (getTxElementCount Size) → DstT)
    (srcBlock : Block SrcT Size) (dstBlock : Block DstT Size) : Block DstT Size :=
  { dstBlock with data := samples srcBlock.data }

/-! ## Picture.h / Picture.cpp -/

/-- What the image loader `stbi_load(filename, &width, &height, &bitdepth, 1)` hands
back when it succeeds: the dimensions, the number of channels of the file and a buffer
of single-channel samples. -/
structure RawImage where
  width : Int
  height : Int
  channels : Int
  samples : List U8

/-- The contract of the image loader: positive dimensions of at most 2^24, one sample
per pixel, and a number of samples that fits an `int`. -/
def RawImage.WellFormed (r : RawImage) : Prop :=
  0 < r.width ∧ r.width ≤ 16777216 ∧ 0 < r.height ∧ r.height ≤ 16777216 ∧ 0 < r.channels
    ∧ r.width * r.height ≤ 2147483647 ∧ (r.samples.length : Int) = r.width * r.height

instance (r : RawImage) : Decidable r.WellFormed := by
  unfold RawImage.WellFormed
  infer_instance

/-- The class `Picture`; `data` is `none` for the null pointer. -/
structure Picture where
  width : Int := 0
  height : Int := 0
  bitdepth : Int := 0
  data : Option (List U8) := none
  dataBlocks : List Block8x8ui16 := []

/-- The member `Picture::isValid`. -/
def Picture.isValid (p : Picture) : Bool :=
  p.data.isSome && decide (p.width > 0) && decide (p.height > 0) && decide (p.bitdepth > 0)

/-- Reading `data[index]` from the raw buffer; outside the buffer the behaviour is
undefined. -/
def readSample (data : List U8) (index : Int) : Except Fault U8 :=
  if index < 0 then .error Fault.undefined
  else
    match data[index.toNat]? with
    | some v => .ok v
    | none => .error Fault.undefined

/-- The loops over `row` and `col` of `Picture::splitIntoBlocks`, which fill the block
whose top left pixel is `(bx, by_)`. -/
def fillBlock {T : Type} [IntElem T] {Size : TxSize} (width height : Int) (data : List U8)
    (bx by_ : Int) (block : Block T Size) : Except Fault (Block T Size) :=
  forRange (fun row block =>
    forRange (fun col block =>
      let imgX := bx + (col : Int)
      let imgY := by_ + (row : Int)
      if imgX < width ∧ imgY < height then
        match checkedInt (imgY * width + imgX) with
        | .ok index =>
          match readSample data index with
          | .ok v => block.assignAtRowCol row col (IntElem.ofInt (v.val : Int))
          | .error e => .error e
        | .error e => .error e
      else block.assignAtRowCol row col IntElem.zero)
      (getTxDimension Size) block)
    (getTxDimension Size) block

/-- The body of the loop over `bx` of `Picture::splitIntoBlocks`, in the row of blocks
that starts at pixel row `by_` and has block coordinate `blockY`: the state is `blockX`
and the vector `blocks`. -/
def splitColumnStep {T : Type} [IntElem T] {Size : TxSize} (width height : Int)
    (data : List U8) (by_ blockY : Int) (bx : Int) (st : Int × List (Block T Size)) :
    Except Fault (Int × List (Block T Size)) :=
  match fillBlock width height data bx by_ (Block.new st.1 blockY) with
  | .ok block => .ok (st.1 + 1, st.2 ++ [block])
  | .error e => .error e

/-- The body of the loop over `by` of `Picture::splitIntoBlocks`: the state is `blockY`
and the vector `blocks`. -/
def splitRowStep {T : Type} [IntElem T] {Size : TxSize} (width height : Int)
    (data : List U8) (by_ : Int) (st : Int × List (Block T Size)) :
    Except Fault (Int × List (Block T Size)) :=
  match forStride (splitColumnStep width height data by_ st.1) width
      (getTxDimension Size : Int) width.toNat 0 (0, st.2) with
  | .ok st2 => .ok (st.1 + 1, st2.2)
  | .error e => .error e

/-- The member template `Picture::splitIntoBlocks<T, Size>` of a picture with the given
dimensions and buffer. -/
def splitIntoBlocks (T : Type) [IntElem T] (Size : TxSize) (width height : Int)
    (data : List U8) : Except Fault (List (Block T Size)) :=
  let blockDim : Int := (getTxDimension Size : Int)
  let blockCountX := Int.tdiv (width + blockDim - 1) blockDim
  let blockCountY := Int.tdiv (height + blockDim - 1) blockDim
  match checkedInt (blockCountX * blockCountY) with
  | .error e => .error e
  | .ok _ =>
    match forStride (splitRowStep width height data) height blockDim height.toNat 0
        (0, []) with
    | .ok st => .ok st.2
    | .error e => .error e

/-- The constructor `Picture::Picture(filename)`, given what the image loader returns
for the file (`none` for the null pointer). -/
def Picture.load (loaded : Option RawImage) : Except Fault Picture :=
  match loaded with
  | none => .ok {}
  | some r =>
    match splitIntoBlocks U16 TxSize.TX_8x8 r.width r.height r.samples with
    | .ok blocks =>
      .ok { width := r.width, height := r.height, bitdepth := r.channels,
            data := some r.samples, dataBlocks := blocks }
    | .error e => .error e

/-! ## Codec.cpp / main.cpp -/

/-- Outcome of `encode`: the returned status and, when the call of `writeEzc` is
reached, its arguments (the file then holds `writeEzc` of them). -/
structure EncodeResult where
  status : Int
  written : Option (EzcHeader × List Block8x8i16)

/-- The task `Quantization::quantize(dctBlocks[i], quantizedBlocks[i], quality)` of
`encode` for one block, the destination being the block constructed beforehand with the
coordinates of the source: the destination after the task. -/
def quantizeTask (quality : Int) (block : Block8x8i16) : Except Fault Block8x8i16 :=
  match quantize block (Block.new block.getBlockX block.getBlockY : Block8x8i16) quality with
  | some q => .ok q
  | none => .error Fault.undefined

/-- The function `encode`, given what the image loader returns for the input file.  The
tasks handed to the thread pool write disjoint slots and are all awaited, so each of the
two parallel stages is the loop over the blocks. -/
def encode (coefficients : (Fin 64 → U16) → Fin 64 → I16) (loaded : Option RawImage)
    (quality : Int) : Except Fault EncodeResult :=
  match Picture.load loaded with
  | .error e => .error e
  | .ok picture =>
    if !picture.isValid then .ok { status := 1, written := none }
    else
      let dataBlocks := picture.dataBlocks
      let imageWidth := picture.width
      let imageHeight := picture.height
      let dctBlocks : List Block8x8i16 := dataBlocks.map (fun block =>
        forwardDCT coefficients block (Block.new block.getBlockX block.getBlockY))
      match forEachBlock (quantizeTask quality) dctBlocks with
      | .error e => .error e
      | .ok quantizedBlocks =>
        let blockDim : Int := 8
        let header : EzcHeader :=
          { version := 1,
            width := intToU16 imageWidth,
            height := intToU16 imageHeight,
            quality := intToU8 quality,
            blockDim := intToU8 blockDim,
            blockCountX := intToU16 (Int.tdiv (imageWidth + blockDim - 1) blockDim),
            blockCountY := intToU16 (Int.tdiv (imageHeight + blockDim - 1) blockDim) }
        .ok { status := 0, written := some (header, quantizedBlocks) }

/-- The encode branch of `main`: the quality of the command line is clamped, then
`encode` is called. -/
def mainEncode (coefficients : (Fin 64 → U16) → Fin 64 → I16) (loaded : Option RawImage)
    (quality : Int) : Except Fault EncodeResult :=
  encode coefficients loaded (clamp quality 1 100)

/-- Outcome of `decode`: the returned status and, when the call of `stbi_write_png` is
reached, the width, the height and the pixel buffer handed to it. -/
structure DecodeResult where
  status : Int
  image : Option (Int × Int × List U8)

/-- The scatter loops of `decode` for one block: the pixel buffer after them. -/
def scatterBlock (imageWidth imageHeight : Int) (block : Block8x8ui16) (pixels : List U8) :
    Except Fault (List U8) :=
  let bx := block.getBlockX
  let by_ := block.getBlockY
  forRange (fun y pixels =>
    forRange (fun x pixels =>
      let imgX := bx * 8 + (x : Int)
      let imgY := by_ * 8 + (y : Int)
      if imgX < imageWidth ∧ imgY < imageHeight then
        match block.atRowCol y x with
        | .error e => .error e
        | .ok sample =>
          let value := clamp (sample.val : Int) 0 255
          match checkedInt (imgY * imageWidth + imgX) with
          | .error e => .error e
          | .ok index =>
            if 0 ≤ index ∧ index.toNat < pixels.length
            then .ok (pixels.set index.toNat (intToU8 value))
            else .error Fault.undefined
      else .ok pixels) 8 pixels) 8 pixels

/-- The loop `for (const auto& block : reconstructedBlocks)` of `decode`. -/
def scatterBlocks (imageWidth imageHeight : Int) :
    List Block8x8ui16 → List U8 → Except Fault (List U8)
  | [], pixels => .ok pixels
  | block :: rest, pixels =>
    match scatterBlock imageWidth imageHeight block pixels with
    | .ok pixels1 => scatterBlocks imageWidth imageHeight rest pixels1
    | .error e => .error e

/-- The function `decode` on the content `file` of the input file, in a run in which its
call of `readEzc` returns; the image writer is assumed to succeed.  The tasks handed to
the thread pool write disjoint slots and are all awaited, so each of the two parallel
stages is the loop over the blocks.  `decodeAlloc` is the function with the allocations
of `readEzc` made explicit. -/
def decode (junk : Nat → U8) (samples : (Fin 64 → I16) → Fin 64 → U16) (file : List U8) :
    Except Fault DecodeResult :=
  match readEzc junk file {} [] with
  | none => .error Fault.undefined
  | some (false, _, _) => .ok { status := 1, image := none }
  | some (true, header, quantizedBlocks) =>
    let imageWidth : Int := (header.width.val : Int)
    let imageHeight : Int := (header.height.val : Int)
    let quality : Int := (header.quality.val : Int)
    let dequantizedBlocks : List Block8x8i16 := quantizedBlocks.map (fun block =>
      dequantize block (Block.new block.getBlockX block.getBlockY : Block8x8i16) quality)
    let reconstructedBlocks : List Block8x8ui16 := dequantizedBlocks.map (fun block =>
      inverseDCT samples block (Block.new block.getBlockX block.getBlockY))
    match checkedInt (imageWidth * imageHeight) with
    | .error e => .error e
    | .ok count =>
      match scatterBlocks imageWidth imageHeight reconstructedBlocks
          (List.replicate count.toNat 0) with
      | .error e => .error e
      | .ok pixels => .ok { status := 0, image := some (imageWidth, imageHeight, pixels) }

/-- The function `decode` with the allocations of `readEzc` made explicit, in a process
whose allocator has memory for `capacity` blocks when `readEzc` is called: `decode` has
no handler, so an exception thrown by `readEzc` leaves it.  The allocations `decode`
makes itself, for as many blocks as `readEzc` returned and for the pixel buffer, are
taken to succeed. -/
def decodeAlloc (capacity : Nat) (junk : Nat → U8) (samples : (Fin 64 → I16) → Fin 64 → U16)
    (file : List U8) : Except Fault DecodeResult :=
  match readEzcAlloc capacity junk file {} [] with
  | .error e => .error e
  | .ok (false, _, _) => .ok { status := 1, image := none }
  | .ok (true, header, quantizedBlocks) =>
    let imageWidth : Int := (header.width.val : Int)
    let imageHeight : Int := (header.height.val : Int)
    let quality : Int := (header.quality.val : Int)
    let dequantizedBlocks : List Block8x8i16 := quantizedBlocks.map (fun block =>
      dequantize block (Block.new block.getBlockX block.getBlockY : Block8x8i16) quality)
    let reconstructedBlocks : List Block8x8ui16 := dequantizedBlocks.map (fun block =>
      inverseDCT samples block (Block.new block.getBlockX block.getBlockY))
    match checkedInt (imageWidth * imageHeight) with
    | .error e => .error e
    | .ok count =>
      match scatterBlocks imageWidth imageHeight reconstructedBlocks
          (List.replicate count.toNat 0) with
      | .error e => .error e
      | .ok pixels => .ok { status := 0, image := some (imageWidth, imageHeight, pixels) }

/-! ## Definitions used to state the properties -/

/-- The little-endian 16-bit header field stored at offset `k` of a container file
(width at 5, height at 7, blockCountX at 11, blockCountY at 13). -/
def fieldU16 (file : List U8) (k : Nat) : Nat :=
  (file.getD k 0).val + 256 * (file.getD (k + 1) 0).val

/-- The unsigned value of the 16-bit two's-complement representation of `v`. -/
def twosComplement16 (v : Int) : Nat :=
  if 0 ≤ v then v.toNat else (v + 65536).toNat

/-- Low byte of a 16-bit unsigned value. -/
def lowByte (n : Nat) : U8 := toU8 (n % 256)

/-- High byte of a 16-bit unsigned value. -/
def highByte (n : Nat) : U8 := toU8 (n / 256)

/-- The integer `r` is the integer nearest to the rational `x`, a tie (`x` half-way
between two integers) being resolved away from zero. -/
def IsNearestTiesAway (r : Int) (x : ℚ) : Prop :=
  |(r : ℚ) - x| < 1 / 2 ∨ (|(r : ℚ) - x| = 1 / 2 ∧ |x| < |(r : ℚ)|)

/-- The block of `testQuantizationRoundTrip`: `original[i] = 50 - i`. -/
def testQuantBlock : Block8x8i16 :=
  { blockX := 0, blockY := 0, data := fun i => toI16 (50 - (i.val : Int)) }

/-- The header of `testEzcFormatRoundTrip`. -/
def testHeader : EzcHeader :=
  { version := 1, width := 16, height := 16, quality := 75, blockDim := 8,
    blockCountX := 2, blockCountY := 2 }

/-- The blocks of `testEzcFormatRoundTrip`: block `b` sits at `(b % 2, b / 2)` and holds
the values `b * 64 + i - 128`. -/
def testBlocks : List Block8x8i16 :=
  (List.range 4).map fun b =>
    { blockX := ((b % 2 : Nat) : Int), blockY := ((b / 2 : Nat) : Int),
      data := fun i => toI16 ((b : Int) * 64 + (i.val : Int) - 128) }

/-- A file whose magic number has its last byte altered. -/
def badMagicFile : List U8 := [69, 90, 67, 1, 1, 16, 0, 16, 0, 75, 8, 2, 0, 2, 0, 0]

/-- A file cut off inside the header (valid magic number and version). -/
def truncatedHeaderFile : List U8 := [69, 90, 67, 0, 1, 16, 0, 16, 0]

/-- A file with a complete header announcing 2 x 2 blocks and only three payload
bytes. -/
def truncatedPayloadFile : List U8 :=
  [69, 90, 67, 0, 1, 16, 0, 16, 0, 75, 8, 2, 0, 2, 0, 0, 1, 2, 3]

/-- A block whose only non-zero value, 1, sits at the last position. -/
def lastOneBlock : Block8x8i16 :=
  { blockX := 0, blockY := 0, data := fun i => if i.val = 63 then toI16 1 else toI16 0 }

/-- A file with the version byte 2. -/
def badVersionFile : List U8 := [69, 90, 67, 0, 2, 16, 0, 16, 0, 75, 8, 2, 0, 2, 0, 0]

/-- The block of `testBlockCreation`. -/
def testBlock : Block8x8ui16 := Block.new 0 0

/-- A raster of 10 x 9 samples, the sample at index `n` being `3 * n mod 256`. -/
def testRaster : RawImage :=
  { width := 10, height := 9, channels := 1,
    samples := (List.range 90).map (fun n => toU8 (n * 3)) }

/-- A stand-in for the transform stage that yields zero coefficients. -/
def zeroCoefficients : (Fin 64 → U16) → Fin 64 → I16 :=
  fun _ _ => IntElem.zero

/-- The element a block holds for the raster position `(imgX, imgY)` after splitting:
`T(data[imgY * width + imgX])` inside the raster, the zero element `T{}` outside. -/
def paddedSample (T : Type) [IntElem T] (width height : Int) (data : List U8)
    (imgX imgY : Int) : T :=
  if imgX < width ∧ imgY < height then
    IntElem.ofInt (((data.getD (imgY * width + imgX).toNat 0).val : Nat) : Int)
  else IntElem.zero

/-- The block at position `k` of the raster-scan sequence of the blocks of a raster:
its coordinates are `k mod n` and `k div n`, where `n` is the number of blocks per row,
and its element at `(row, col)` is the padded sample at
`(blockX * dim + col, blockY * dim + row)`. -/
def rasterBlock (T : Type) [IntElem T] (Size : TxSize) (width height : Int) (data : List U8)
    (k : Nat) : Block T Size :=
  { blockX := (k : Int) % ((width + (getTxDimension Size : Int) - 1) / (getTxDimension Size : Int)),
    blockY := (k : Int) / ((width + (getTxDimension Size : Int) - 1) / (getTxDimension Size : Int)),
    data := fun i => paddedSample T width height data
      ((k : Int) % ((width + (getTxDimension Size : Int) - 1) / (getTxDimension Size : Int))
          * (getTxDimension Size : Int) + ((i.val % getTxDimension Size : Nat) : Int))
      ((k : Int) / ((width + (getTxDimension Size : Int) - 1) / (getTxDimension Size : Int))
          * (getTxDimension Size : Int) + ((i.val / getTxDimension Size : Nat) : Int)) }

/-- The byte the scatter loops of `decode` store for the element `(row, col)` of a block:
the element, converted to `int`, clamped to `[0, 255]` and converted to
`unsigned char`. -/
def scatterValue (block : Block8x8ui16) (row col : Nat) : U8 :=
  match block.atRowCol row col with
  | .ok sample => intToU8 (clamp (sample.val : Int) 0 255)
  | .error _ => 0

/-- The index of the pixel buffer that the iteration `(y, x)` of the scatter loops of
`decode` writes for a block: `imgY * imageWidth + imgX` when the guard
`imgX < imageWidth && imgY < imageHeight` holds, `none` when the iteration writes
nothing. -/
def scatterTarget (imageWidth imageHeight : Int) (block : Block8x8ui16) (y x : Nat) :
    Option Int :=
  let imgX := block.getBlockX * 8 + (x : Int)
  let imgY := block.getBlockY * 8 + (y : Int)
  if imgX < imageWidth ∧ imgY < imageHeight then some (imgY * imageWidth + imgX) else none

/-- The vector `reconstructedBlocks` of `decode`: the blocks read from the container,
dequantized and inverse-transformed, each into a block constructed with the coordinates
of its source. -/
def reconstructedBlocks (samples : (Fin 64 → I16) → Fin 64 → U16) (quality : Int)
    (quantizedBlocks : List Block8x8i16) : List Block8x8ui16 :=
  (quantizedBlocks.map (fun block =>
    dequantize block (Block.new block.getBlockX block.getBlockY : Block8x8i16) quality)).map
    (fun block => inverseDCT samples block (Block.new block.getBlockX block.getBlockY))

/-- A header announcing a picture of 65535 x 65535 pixels in a grid of one block. -/
def overflowHeader : EzcHeader :=
  { version := 1, width := 65535, height := 65535, quality := 75, blockDim := 8,
    blockCountX := 1, blockCountY := 1 }

/-- A container file of 144 bytes: the header `overflowHeader` followed by the payload
of one zero block. -/
def overflowFile : List U8 := writeEzc overflowHeader [Block.new 0 0]

/-- A stand-in for the inverse transform stage that yields zero samples. -/
def zeroSamples : (Fin 64 → I16) → Fin 64 → U16 :=
  fun _ _ => IntElem.zero

/-- A container file of 16 bytes: a complete header (16 x 16 pixels, quality 75) that
announces 65535 x 65535 blocks, and no payload. -/
def hugeCountFile : List U8 :=
  [69, 90, 67, 0, 1, 16, 0, 16, 0, 75, 8, 255, 255, 255, 255, 0]

/-- The functions of `<cmath>` that `DCT.h` calls and its constant `PI`, on a number
type `K` that stands for `double`. -/
structure DctMath (K : Type) where
  cos : K → K
  sqrt : K → K
  PI : K

/-- The function `DCT::c`. -/
def DCT.c {K : Type} [Field K] (m : DctMath K) (i : Nat) : K :=
  if i = 0 then 1 / m.sqrt 2 else 1

/-- The index `row * dim + col` of a block element, for `row, col < dim`. -/
def txIndex (Size : TxSize) (row col : Fin (getTxDimension Size)) :
    Fin (getTxElementCount Size) :=
  ⟨row.val * getTxDimension Size + col.val, by
    have h1 := row.isLt
    have h2 := col.isLt
    cases Size <;> simp only [getTxDimension, getTxElementCount] at * <;> omega⟩

/-- The array `temp` of `DCT::forwardDCT`, computed on the number type `K` from the
elements of the source block converted to `K`: the entry at index `i = v * dim + u` is
the one the loops store for the frequencies `u = i mod dim` and `v = i div dim`. -/
def DCT.forwardTemp {K : Type} [Field K] (m : DctMath K) (Size : TxSize)
    (src : Fin (getTxElementCount Size) → K) : Fin (getTxElementCount Size) → K :=
  fun i =>
    (1 / ((getTxDimension Size : K) / 2))
      * DCT.c m (i.val % getTxDimension Size) * DCT.c m (i.val / getTxDimension Size)
      * ∑ x : Fin (getTxDimension Size), ∑ y : Fin (getTxDimension Size),
          src (txIndex Size y x)
            * m.cos ((((2 * x.val + 1) * (i.val % getTxDimension Size) : Nat) : K) * m.PI
                / (2 * (getTxDimension Size : K)))
            * m.cos ((((2 * y.val + 1) * (i.val / getTxDimension Size) : Nat) : K) * m.PI
                / (2 * (getTxDimension Size : K)))

/-- The array `temp` of `DCT::inverseDCT`, computed on the number type `K` from the
elements of the source block converted to `K`: the entry at index `i = y * dim + x` is
the one the loops store for the position `x = i mod dim` and `y = i div dim`. -/
def DCT.inverseTemp {K : Type} [Field K] (m : DctMath K) (Size : TxSize)
    (src : Fin (getTxElementCount Size) → K) : Fin (getTxElementCount Size) → K :=
  fun i =>
    (1 / ((getTxDimension Size : K) / 2))
      * ∑ u : Fin (getTxDimension Size), ∑ v : Fin (getTxDimension Size),
          DCT.c m u.val * DCT.c m v.val * src (txIndex Size v u)
            * m.cos ((((2 * (i.val % getTxDimension Size) + 1) * u.val : Nat) : K) * m.PI
                / (2 * (getTxDimension Size : K)))
            * m.cos ((((2 * (i.val / getTxDimension Size) + 1) * v.val : Nat) : K) * m.PI
                / (2 * (getTxDimension Size : K)))

/-! ## ThreadPool.h and `testThreadPool` -/

/-- Modelled from the spec: the task pool of `ThreadPool.h`, which is not among the
sources.  A bounded set of workers consumes a queue of no-argument units of work; each
submission returns a handle on which the submitter can wait for the result of that unit.
A unit of work is kept with the index of its handle; `running` holds the units a worker
has pulled and not yet completed, and the handle `k` is `none` until its unit
completes. -/
structure TaskPool where
  workers : Nat
  queue : List (Nat × (Unit → Int))
  running : List (Nat × (Unit → Int))
  handles : List (Option Int)

/-- Modelled from the spec: the constructor `ThreadPool(workers)`, a pool with nothing
submitted. -/
def TaskPool.new (workers : Nat) : TaskPool :=
  { workers := workers, queue := [], running := [], handles := [] }

/-- Modelled from the spec: `enqueue(task)`, which appends the unit of work to the queue
and returns a new handle. -/
def TaskPool.enqueue (p : TaskPool) (task : Unit → Int) : TaskPool × Nat :=
  ({ p with queue := p.queue ++ [(p.handles.length, task)], handles := p.handles ++ [none] },
    p.handles.length)

/-- Modelled from the spec: what the workers of the pool do, one event at a time: an idle
worker pulls the unit at the head of the queue (FIFO), or the unit at some position of
the running ones completes (in any order). -/
inductive PoolEvent where
  | pull
  | complete (slot : Nat)
  deriving DecidableEq, Repr

/-- Modelled from the spec: the pool after an event of its workers; `none` when the event
cannot happen in this state (empty queue, no idle worker, no running unit at the
position).  A unit that completes stores its result in its handle. -/
def TaskPool.step (p : TaskPool) : PoolEvent → Option TaskPool
  | .pull =>
    match p.queue with
    | [] => none
    | t :: rest =>
      if p.running.length < p.workers
      then some { p with queue := rest, running := p.running ++ [t] }
      else none
  | .complete slot =>
    match p.running[slot]? with
    | none => none
    | some t =>
      some { p with running := p.running.eraseIdx slot,
                    handles := p.handles.set t.1 (some (t.2 ())) }

/-- Modelled from the spec: `get()` on a handle, which waits for the result of its unit:
the result once the unit has completed, `none` as long as the call would block. -/
def TaskPool.get (p : TaskPool) (handle : Nat) : Option Int :=
  (p.handles[handle]?).join

/-- An event of a run of `testThreadPool`: the test thread submits its next task, or a
worker of the pool does something. -/
inductive TestEvent where
  | submit
  | worker (e : PoolEvent)
  deriving DecidableEq, Repr

/-- One event of a run of `testThreadPool` with `count` tasks (100 in the test): the
state is the pool and the vector `results` of the handles obtained so far; the `i`-th
submission is `pool.enqueue([](int val) { return val * val; }, i)`. -/
def testThreadPoolStep (count : Nat) (s : TaskPool × List Nat) :
    TestEvent → Option (TaskPool × List Nat)
  | .submit =>
    if s.2.length < count then
      let r := s.1.enqueue (fun _ => (s.2.length : Int) * (s.2.length : Int))
      some (r.1, s.2 ++ [r.2])
    else none
  | .worker e => (s.1.step e).map (fun p => (p, s.2))

/-- A run of `testThreadPool` under a schedule, that is an interleaving of the
submissions of the test thread with the events of the workers; `none` when the schedule
asks for an event that cannot happen. -/
def testThreadPoolRun (count : Nat) :
    List TestEvent → TaskPool × List Nat → Option (TaskPool × List Nat)
  | [], s => some s
  | e :: rest, s =>
    match testThreadPoolStep count s e with
    | some s1 => testThreadPoolRun count rest s1
    | none => none

/-- The value `results[i].get()` of the second loop of `testThreadPool`. -/
def testThreadPoolResult (s : TaskPool × List Nat) (i : Nat) : Option Int :=
  (s.2[i]?).bind s.1.get

/-- The invariant of the runs of `testThreadPool`: the handles are numbered in the order
of the submissions, every unit in the queue or running computes the square of the index
of its handle, and every handle either holds that square or is empty with its unit still
in the queue or running. -/
def PoolInvariant (s : TaskPool × List Nat) : Prop :=
  s.2 = List.range s.1.handles.length
    ∧ (∀ e, e ∈ s.1.queue ++ s.1.running →
        e.1 < s.1.handles.length ∧ e.2 () = (e.1 : Int) * (e.1 : Int))
    ∧ ∀ h, h < s.1.handles.length →
        s.1.handles[h]? = some (some ((h : Int) * (h : Int)))
          ∨ (s.1.handles[h]? = some none ∧ ∃ e, e ∈ s.1.queue ++ s.1.running ∧ e.1 = h)

/-- A schedule of `testThreadPool` with three tasks in which the tasks complete in the
order 1, 2, 0. -/
def outOfOrderSchedule : List TestEvent :=
  [.submit, .submit, .worker .pull, .worker .pull, .submit, .worker (.complete 1),
   .worker .pull, .worker (.complete 1), .worker (.complete 0)]

/-! # Properties -/

/-! ## Byte-level lemmas -/

theorem or_shift_eq (a b : Nat) (ha : a < 256) : a ||| (b <<< 8) = a + 256 * b := by
  have h := @Nat.mul_add_lt_is_or 8 a (by simpa using ha) b
  rw [Nat.shiftLeft_eq, Nat.lor_comm, Nat.mul_comm b, ← h]
  omega

theorem and_255 (n : Nat) : n &&& 0xFF = n % 256 :=
  Nat.and_pow_two_sub_one_eq_mod n 8

theorem toI16_intToU16 (v : I16) : toI16 ((intToU16 v.val).val : Int) = v := by
  apply Subtype.ext
  obtain ⟨x, h1, h2⟩ := v
  simp only [toI16, intToU16]
  omega

theorem intToU8_val (c : U8) : intToU8 (c.val : Int) = c := by
  apply Fin.ext
  have := c.isLt
  simp only [intToU8]
  omega

theorem writeU16_eq (v : U16) : writeU16 v = [toU8 (v.val % 256), toU8 (v.val / 256)] := by
  simp only [writeU16, and_255, Nat.shiftRight_eq_div_pow]
  have := v.isLt
  congr 2
  apply Fin.ext
  simp only [toU8]
  omega

theorem writeU16_length (v : U16) : (writeU16 v).length = 2 := by
  simp [writeU16]

theorem writeI16_length (v : I16) : (writeI16 v).length = 2 := by
  simp [writeI16, writeU16]

theorem read_ok (s : IStream) (n : Nat) (buf : List U8) (hf : s.fail = false)
    (hn : n ≤ s.rest.length) :
    s.read n buf = (s.rest.take n, { rest := s.rest.drop n, fail := false }) := by
  simp [IStream.read, hf, hn]

theorem get_cons (c : U8) (tl : List U8) :
    IStream.get { rest := c :: tl, fail := false } = ((c.val : Int), { rest := tl, fail := false }) := by
  simp [IStream.get]

theorem readU16_append (v : U16) (tl : List U8) (u0 u1 : U8) :
    readU16 { rest := writeU16 v ++ tl, fail := false } u0 u1
      = (v, { rest := tl, fail := false }) := by
  have hv := v.isLt
  simp only [readU16, writeU16_eq]
  rw [read_ok _ _ _ rfl (by simp)]
  simp only [List.cons_append, List.nil_append, List.take_succ_cons, List.take_zero,
    List.drop_succ_cons, List.drop_zero, List.getD_cons_zero, List.getD_cons_succ]
  congr 1
  apply Fin.ext
  simp only [toU16, toU8]
  rw [or_shift_eq _ _ (Nat.mod_lt _ (by decide))]
  omega

theorem readI16_append (v : I16) (tl : List U8) (u0 u1 : U8) :
    readI16 { rest := writeI16 v ++ tl, fail := false } u0 u1
      = (v, { rest := tl, fail := false }) := by
  simp only [readI16, writeI16, readU16_append, toI16_intToU16]

theorem readElements_append (junk : Nat → U8) (l : List I16) (off : Nat) (tl : List U8) :
    readElements junk l.length off { rest := l.flatMap writeI16 ++ tl, fail := false }
      = (l, { rest := tl, fail := false }) := by
  induction l generalizing off with
  | nil => simp [readElements]
  | cons v l ih =>
    simp only [List.length_cons, readElements, List.flatMap_cons, List.append_assoc,
      readI16_append, ih]

theorem writeBlockData_eq (block : Block8x8i16) :
    writeBlockData block = (List.ofFn block.data).flatMap writeI16 := by
  simp only [writeBlockData, List.ofFn_eq_map, List.flatMap_map]
  rfl

theorem filled_ofFn_data (x y : Int) (f : Fin (getTxElementCount TxSize.TX_8x8) → I16) :
    (Block.filled x y (List.ofFn f) : Block8x8i16).data = f := by
  funext i
  simp only [Block.filled]
  rw [List.getD_eq_getElem _ _ (by rw [List.length_ofFn]; exact i.isLt), List.getElem_ofFn]

theorem readBlock_append (junk : Nat → U8) (block : Block8x8i16) (off : Nat) (tl : List U8) :
    readElements junk 64 off { rest := writeBlockData block ++ tl, fail := false }
      = (List.ofFn block.data, { rest := tl, fail := false }) := by
  have h := readElements_append junk (List.ofFn block.data) off tl
  rw [List.length_ofFn] at h
  rw [writeBlockData_eq]
  exact h

theorem readBlocks_append (junk : Nat → U8) (bcx : Nat) (blocks : List Block8x8i16)
    (hb : blocks = [] ∨ bcx ≠ 0) (b : Nat) (tl : List U8) :
    ∃ rs, readBlocks junk bcx blocks.length b
        { rest := blocks.flatMap writeBlockData ++ tl, fail := false }
          = some (rs, { rest := tl, fail := false })
      ∧ List.Forall₂ (fun (r w : Block8x8i16) => r.data = w.data) rs blocks := by
  induction blocks generalizing b with
  | nil => exact ⟨[], by simp [readBlocks], List.Forall₂.nil⟩
  | cons blk blocks ih =>
    have hx : bcx ≠ 0 := by
      rcases hb with hb | hb
      · cases hb
      · exact hb
    obtain ⟨rs, hrs, hall⟩ := ih (Or.inr hx) (b + 1)
    refine ⟨Block.filled ((b % bcx : Nat) : Int) ((b / bcx : Nat) : Int) (List.ofFn blk.data) :: rs,
      ?_, List.Forall₂.cons (filled_ofFn_data _ _ _) hall⟩
    simp only [List.length_cons, readBlocks, checkedMod, checkedDiv, hx, if_false,
      List.flatMap_cons, List.append_assoc, readBlock_append, hrs]

theorem readEzc_layout (junk : Nat → U8) (w ht : U16) (q d r : U8) (cx cy : U16)
    (payload : List U8) (header0 : EzcHeader) (blocks0 : List Block8x8i16) :
    readEzc junk (EZC_MAGIC ++ ([EZC_VERSION] ++ (writeU16 w ++ (writeU16 ht ++ ([q] ++ ([d] ++
        (writeU16 cx ++ (writeU16 cy ++ ([r] ++ payload))))))))) header0 blocks0
      = match readBlocks junk cx.val (cx.val * cy.val) 0 { rest := payload, fail := false } with
        | none => none
        | some bs => some (!bs.2.fail,
            { version := EZC_VERSION, width := w, height := ht, quality := q, blockDim := d,
              blockCountX := cx, blockCountY := cy }, bs.1) := by
  unfold readEzc
  simp only []
  rw [read_ok _ _ _ rfl (by simp [EZC_MAGIC])]
  rw [show List.take 4 (EZC_MAGIC ++ ([EZC_VERSION] ++ (writeU16 w ++ (writeU16 ht ++ ([q] ++ ([d] ++
        (writeU16 cx ++ (writeU16 cy ++ ([r] ++ payload))))))))) = EZC_MAGIC from List.take_left' rfl,
    show List.drop 4 (EZC_MAGIC ++ ([EZC_VERSION] ++ (writeU16 w ++ (writeU16 ht ++ ([q] ++ ([d] ++
        (writeU16 cx ++ (writeU16 cy ++ ([r] ++ payload))))))))) = _ from List.drop_left' rfl]
  simp only [List.cons_append, List.nil_append, get_cons, readU16_append, intToU8_val, ne_eq, not_true_eq_false, if_false, Bool.false_eq_true]

theorem readEzc_writeEzc (junk : Nat → U8) (h : EzcHeader) (blocks : List Block8x8i16)
    (header0 : EzcHeader) (blocks0 : List Block8x8i16)
    (hv : h.version = 1)
    (hlen : blocks.length = h.blockCountX.val * h.blockCountY.val) :
    ∃ bs, readEzc junk (writeEzc h blocks) header0 blocks0 = some (true, h, bs)
      ∧ List.Forall₂ (fun (r w : Block8x8i16) => r.data = w.data) bs blocks := by
  have hb : blocks = [] ∨ h.blockCountX.val ≠ 0 := by
    by_cases hx : h.blockCountX.val = 0
    · left
      rw [hx, Nat.zero_mul] at hlen
      exact List.length_eq_zero.mp hlen
    · exact Or.inr hx
  obtain ⟨rs, hrs, hall⟩ := readBlocks_append junk h.blockCountX.val blocks hb 0 []
  rw [List.append_nil, hlen] at hrs
  refine ⟨rs, ?_, hall⟩
  obtain ⟨ver, w, ht, q, d, cx, cy⟩ := h
  simp only at hv hrs
  subst hv
  simp only [writeEzc, List.append_assoc]
  rw [show ([1] : List U8) = [EZC_VERSION] from rfl, readEzc_layout, hrs]
  rfl

/-! ## Stream failure tracking -/

theorem read_fail_iff (s : IStream) (n : Nat) (buf : List U8) :
    (s.read n buf).2.fail = false ↔ s.fail = false ∧ n ≤ s.rest.length := by
  unfold IStream.read
  cases hf : s.fail <;> by_cases hn : n ≤ s.rest.length <;> simp [hf, hn]

theorem read_rest_length (s : IStream) (n : Nat) (buf : List U8)
    (h : (s.read n buf).2.fail = false) :
    (s.read n buf).2.rest.length + n = s.rest.length := by
  obtain ⟨hf, hn⟩ := (read_fail_iff s n buf).mp h
  rw [read_ok s n buf hf hn]
  simp only [List.length_drop]
  omega

theorem readI16_fail_iff (s : IStream) (u0 u1 : U8) :
    (readI16 s u0 u1).2.fail = false ↔ s.fail = false ∧ 2 ≤ s.rest.length := by
  simp only [readI16, readU16, read_fail_iff]

theorem readI16_rest_length (s : IStream) (u0 u1 : U8)
    (h : (readI16 s u0 u1).2.fail = false) :
    (readI16 s u0 u1).2.rest.length + 2 = s.rest.length := by
  simp only [readI16, readU16] at h ⊢
  exact read_rest_length s 2 _ h

theorem readElements_fail_iff (junk : Nat → U8) (n off : Nat) (s : IStream) :
    ((readElements junk n off s).2.fail = false ↔ s.fail = false ∧ 2 * n ≤ s.rest.length)
      ∧ ((readElements junk n off s).2.fail = false →
          (readElements junk n off s).2.rest.length + 2 * n = s.rest.length) := by
  induction n generalizing off s with
  | zero => simp [readElements]
  | succ n ih =>
    simp only [readElements]
    obtain ⟨ih1, ih2⟩ := ih (off + 2) (readI16 s (junk off) (junk (off + 1))).2
    have h1 := readI16_fail_iff s (junk off) (junk (off + 1))
    have h2 := readI16_rest_length s (junk off) (junk (off + 1))
    constructor
    · rw [ih1, h1]
      constructor
      · rintro ⟨⟨hf, hl⟩, hr⟩
        have := h2 (h1.mpr ⟨hf, hl⟩)
        exact ⟨hf, by omega⟩
      · rintro ⟨hf, hl⟩
        have := h2 (h1.mpr ⟨hf, by omega⟩)
        exact ⟨⟨hf, by omega⟩, by omega⟩
    · intro hfin
      have h3 := ih2 hfin
      have h4 := h2 (ih1.mp hfin).1
      omega

theorem readElements_length (junk : Nat → U8) (n off : Nat) (s : IStream) :
    (readElements junk n off s).1.length = n := by
  induction n generalizing off s with
  | zero => simp [readElements]
  | succ n ih => simp [readElements, ih]

theorem readBlocks_spec (junk : Nat → U8) (bcx : Nat) (n b : Nat) (s : IStream)
    (hn : n = 0 ∨ bcx ≠ 0) :
    ∃ rs s', readBlocks junk bcx n b s = some (rs, s')
      ∧ rs.length = n
      ∧ (∀ (k : Nat) (hk : k < rs.length),
          (rs[k]).blockX = (((b + k) % bcx : Nat) : Int)
            ∧ (rs[k]).blockY = (((b + k) / bcx : Nat) : Int))
      ∧ (s'.fail = false ↔ s.fail = false ∧ 128 * n ≤ s.rest.length) := by
  induction n generalizing b s with
  | zero => exact ⟨[], s, by simp [readBlocks], rfl, by simp, by simp⟩
  | succ n ih =>
    have hx : bcx ≠ 0 := by
      rcases hn with hn | hn
      · omega
      · exact hn
    obtain ⟨rs, s', hrs, hlen, hco, hfl⟩ :=
      ih (b + 1) (readElements junk 64 (16 + 128 * b) s).2 (Or.inr hx)
    obtain ⟨e1, e2⟩ := readElements_fail_iff junk 64 (16 + 128 * b) s
    refine ⟨Block.filled ((b % bcx : Nat) : Int) ((b / bcx : Nat) : Int)
      (readElements junk 64 (16 + 128 * b) s).1 :: rs, s', ?_, by simp [hlen], ?_, ?_⟩
    · simp only [readBlocks, checkedMod, checkedDiv, hx, if_false, hrs]
    · intro k hk
      cases k with
      | zero => simp [Block.filled]
      | succ k =>
        have := hco k (by simpa using hk)
        simp only [List.getElem_cons_succ]
        rw [this.1, this.2]
        have e : b + 1 + k = b + (k + 1) := by omega
        rw [e]
        exact ⟨rfl, rfl⟩
    · rw [hfl, e1]
      constructor
      · rintro ⟨⟨hf, hl⟩, hr⟩
        have := e2 (e1.mpr ⟨hf, hl⟩)
        exact ⟨hf, by omega⟩
      · rintro ⟨hf, hl⟩
        have := e2 (e1.mpr ⟨hf, by omega⟩)
        exact ⟨⟨hf, by omega⟩, by omega⟩

/-! ## Case analysis of `readEzc` on the length of the file -/

theorem readU16_cons (a b : U8) (tl : List U8) (u0 u1 : U8) :
    readU16 { rest := a :: b :: tl, fail := false } u0 u1
      = (toU16 (a.val ||| (b.val <<< 8)), { rest := tl, fail := false }) := by
  simp [readU16, IStream.read]

theorem readEzc_long (junk : Nat → U8) (m0 m1 m2 m3 v w0 w1 t0 t1 q d x0 x1 y0 y1 r : U8)
    (payload : List U8) (header0 : EzcHeader) (blocks0 : List Block8x8i16) :
    readEzc junk (m0 :: m1 :: m2 :: m3 :: v :: w0 :: w1 :: t0 :: t1 :: q :: d :: x0 :: x1 :: y0 :: y1 :: r :: payload) header0 blocks0
      = if [m0, m1, m2, m3] ≠ EZC_MAGIC then some (false, header0, blocks0)
        else if v ≠ EZC_VERSION then some (false, { header0 with version := v }, blocks0)
        else
          match readBlocks junk (toU16 (x0.val ||| (x1.val <<< 8))).val
              ((toU16 (x0.val ||| (x1.val <<< 8))).val * (toU16 (y0.val ||| (y1.val <<< 8))).val)
              0 { rest := payload, fail := false } with
          | none => none
          | some bs => some (!bs.2.fail,
              { version := v, width := toU16 (w0.val ||| (w1.val <<< 8)),
                height := toU16 (t0.val ||| (t1.val <<< 8)), quality := q, blockDim := d,
                blockCountX := toU16 (x0.val ||| (x1.val <<< 8)),
                blockCountY := toU16 (y0.val ||| (y1.val <<< 8)) }, bs.1) := by
  unfold readEzc
  simp only []
  rw [read_ok _ _ _ rfl (by simp)]
  simp only [List.take_succ_cons, List.take_zero, List.drop_succ_cons, List.drop_zero,
    get_cons, readU16_cons, intToU8_val, Bool.false_eq_true, if_false]

theorem readEzc_short (junk : Nat → U8) (file : List U8) (header0 : EzcHeader)
    (blocks0 : List Block8x8i16) (hlen : file.length < 16) :
    ∃ hdr, readEzc junk file header0 blocks0 = some (false, hdr, blocks0) := by
  have key : ∀ (c : Prop) [Decidable c] (c2 : Prop) [Decidable c2] (c3 : Bool) (a b e : EzcHeader)
      (z : Option (Bool × EzcHeader × List Block8x8i16)), c3 = true →
      ∃ hdr, (if c then some (false, a, blocks0) else if c2 then some (false, b, blocks0)
        else if c3 = true then some (false, e, blocks0) else z) = some (false, hdr, blocks0) := by
    intro c _ c2 _ c3 a b e z h3
    by_cases h1 : c
    · exact ⟨a, by rw [if_pos h1]⟩
    · by_cases h2 : c2
      · exact ⟨b, by rw [if_neg h1, if_pos h2]⟩
      · exact ⟨e, by rw [if_neg h1, if_neg h2, if_pos h3]⟩
  unfold readEzc
  simp only []
  apply key
  rcases file with _ | ⟨m0, _ | ⟨m1, _ | ⟨m2, _ | ⟨m3, _ | ⟨v, _ | ⟨w0, _ | ⟨w1, _ | ⟨t0, _ | ⟨t1, _ | ⟨q, _ | ⟨d, _ | ⟨x0, _ | ⟨x1, _ | ⟨y0, _ | ⟨y1, _ | ⟨r, payload⟩⟩⟩⟩⟩⟩⟩⟩⟩⟩⟩⟩⟩⟩⟩⟩
  all_goals first
    | (exfalso; simp only [List.length_cons] at hlen; omega)
    | simp [IStream.read, IStream.get, readU16]

theorem exists_cons16 (file : List U8) (hlen : 16 ≤ file.length) :
    ∃ (m0 m1 m2 m3 v w0 w1 t0 t1 q d x0 x1 y0 y1 r : U8) (payload : List U8),
      file = m0 :: m1 :: m2 :: m3 :: v :: w0 :: w1 :: t0 :: t1 :: q :: d :: x0 :: x1 :: y0 :: y1 :: r :: payload := by
  rcases file with _ | ⟨m0, _ | ⟨m1, _ | ⟨m2, _ | ⟨m3, _ | ⟨v, _ | ⟨w0, _ | ⟨w1, _ | ⟨t0, _ | ⟨t1, _ | ⟨q, _ | ⟨d, _ | ⟨x0, _ | ⟨x1, _ | ⟨y0, _ | ⟨y1, _ | ⟨r, payload⟩⟩⟩⟩⟩⟩⟩⟩⟩⟩⟩⟩⟩⟩⟩⟩
  all_goals first
    | (exfalso; simp only [List.length_cons, List.length_nil] at hlen; omega)
    | exact ⟨_, _, _, _, _, _, _, _, _, _, _, _, _, _, _, _, _, rfl⟩

theorem toU16_or_shift (a b : U8) : (toU16 (a.val ||| (b.val <<< 8))).val = a.val + 256 * b.val := by
  have ha := a.isLt
  have hb := b.isLt
  simp only [toU16]
  rw [or_shift_eq _ _ ha]
  omega

theorem readEzc_total (junk : Nat → U8) (file : List U8) (header0 : EzcHeader)
    (blocks0 : List Block8x8i16) :
    ∃ ok hdr bs, readEzc junk file header0 blocks0 = some (ok, hdr, bs) := by
  by_cases hl : file.length < 16
  · obtain ⟨hdr, h⟩ := readEzc_short junk file header0 blocks0 hl
    exact ⟨false, hdr, blocks0, h⟩
  · obtain ⟨m0, m1, m2, m3, v, w0, w1, t0, t1, q, d, x0, x1, y0, y1, r, payload, rfl⟩ :=
      exists_cons16 file (by omega)
    rw [readEzc_long]
    by_cases h1 : [m0, m1, m2, m3] ≠ EZC_MAGIC
    · exact ⟨_, _, _, by rw [if_pos h1]⟩
    · by_cases h2 : v ≠ EZC_VERSION
      · exact ⟨_, _, _, by rw [if_neg h1, if_pos h2]⟩
      · rw [if_neg h1, if_neg h2]
        have hn : (toU16 (x0.val ||| (x1.val <<< 8))).val * (toU16 (y0.val ||| (y1.val <<< 8))).val = 0
            ∨ (toU16 (x0.val ||| (x1.val <<< 8))).val ≠ 0 := by
          by_cases hx : (toU16 (x0.val ||| (x1.val <<< 8))).val = 0
          · left; rw [hx, Nat.zero_mul]
          · exact Or.inr hx
        obtain ⟨rs, s', hrs, _⟩ := readBlocks_spec junk _ _ 0 { rest := payload, fail := false } hn
        rw [hrs]
        exact ⟨_, _, _, rfl⟩

/-! ## `readEzc` and the allocation of its block vector -/

theorem readEzcAlloc_long (capacity : Nat) (junk : Nat → U8)
    (m0 m1 m2 m3 v w0 w1 t0 t1 q d x0 x1 y0 y1 r : U8)
    (payload : List U8) (header0 : EzcHeader) (blocks0 : List Block8x8i16) :
    readEzcAlloc capacity junk (m0 :: m1 :: m2 :: m3 :: v :: w0 :: w1 :: t0 :: t1 :: q :: d :: x0 :: x1 :: y0 :: y1 :: r :: payload) header0 blocks0
      = if [m0, m1, m2, m3] ≠ EZC_MAGIC then .ok (false, header0, blocks0)
        else if v ≠ EZC_VERSION then .ok (false, { header0 with version := v }, blocks0)
        else if capacity < (toU16 (x0.val ||| (x1.val <<< 8))).val
            * (toU16 (y0.val ||| (y1.val <<< 8))).val then .error Fault.badAlloc
        else
          match readBlocks junk (toU16 (x0.val ||| (x1.val <<< 8))).val
              ((toU16 (x0.val ||| (x1.val <<< 8))).val * (toU16 (y0.val ||| (y1.val <<< 8))).val)
              0 { rest := payload, fail := false } with
          | none => .error Fault.undefined
          | some bs => .ok (!bs.2.fail,
              { version := v, width := toU16 (w0.val ||| (w1.val <<< 8)),
                height := toU16 (t0.val ||| (t1.val <<< 8)), quality := q, blockDim := d,
                blockCountX := toU16 (x0.val ||| (x1.val <<< 8)),
                blockCountY := toU16 (y0.val ||| (y1.val <<< 8)) }, bs.1) := by
  unfold readEzcAlloc
  simp only []
  rw [read_ok _ _ _ rfl (by simp)]
  simp only [List.take_succ_cons, List.take_zero, List.drop_succ_cons, List.drop_zero,
    get_cons, readU16_cons, intToU8_val, Bool.false_eq_true, if_false]

theorem readEzcAlloc_short (capacity : Nat) (junk : Nat → U8) (file : List U8)
    (header0 : EzcHeader) (blocks0 : List Block8x8i16) (hlen : file.length < 16) :
    ∃ hdr, readEzcAlloc capacity junk file header0 blocks0 = .ok (false, hdr, blocks0)
      ∧ readEzc junk file header0 blocks0 = some (false, hdr, blocks0) := by
  have key : ∀ (c : Prop) [Decidable c] (c2 : Prop) [Decidable c2] (c3 : Bool) (a b e : EzcHeader)
      (z : Option (Bool × EzcHeader × List Block8x8i16))
      (y : Except Fault (Bool × EzcHeader × List Block8x8i16)), c3 = true →
      ∃ hdr, (if c then (.ok (false, a, blocks0) : Except Fault (Bool × EzcHeader × List Block8x8i16))
          else if c2 then .ok (false, b, blocks0)
          else if c3 = true then .ok (false, e, blocks0) else y) = .ok (false, hdr, blocks0)
        ∧ (if c then some (false, a, blocks0) else if c2 then some (false, b, blocks0)
          else if c3 = true then some (false, e, blocks0) else z) = some (false, hdr, blocks0) := by
    intro c _ c2 _ c3 a b e z y h3
    by_cases h1 : c
    · exact ⟨a, by rw [if_pos h1], by rw [if_pos h1]⟩
    · by_cases h2 : c2
      · exact ⟨b, by rw [if_neg h1, if_pos h2], by rw [if_neg h1, if_pos h2]⟩
      · exact ⟨e, by rw [if_neg h1, if_neg h2, if_pos h3], by rw [if_neg h1, if_neg h2, if_pos h3]⟩
  unfold readEzcAlloc readEzc
  simp only []
  apply key
  rcases file with _ | ⟨m0, _ | ⟨m1, _ | ⟨m2, _ | ⟨m3, _ | ⟨v, _ | ⟨w0, _ | ⟨w1, _ | ⟨t0, _ | ⟨t1, _ | ⟨q, _ | ⟨d, _ | ⟨x0, _ | ⟨x1, _ | ⟨y0, _ | ⟨y1, _ | ⟨r, payload⟩⟩⟩⟩⟩⟩⟩⟩⟩⟩⟩⟩⟩⟩⟩⟩
  all_goals first
    | (exfalso; simp only [List.length_cons] at hlen; omega)
    | simp [IStream.read, IStream.get, readU16]

/-- The function `readEzc` is `readEzcAlloc` in the calls in which no allocation fails:
`readEzcAlloc` throws `std::bad_alloc` exactly on the files of at least 16 bytes with
the magic number and the version 1 whose two block counts multiply to more than
`capacity`, and on every other file it returns what `readEzc` returns. -/
theorem readEzcAlloc_eq (capacity : Nat) (junk : Nat → U8) (file : List U8)
    (header0 : EzcHeader) (blocks0 : List Block8x8i16) :
    readEzcAlloc capacity junk file header0 blocks0
      = if 16 ≤ file.length ∧ file.take 4 = EZC_MAGIC ∧ file[4]? = some EZC_VERSION
            ∧ capacity < fieldU16 file 11 * fieldU16 file 13 then .error Fault.badAlloc
        else match readEzc junk file header0 blocks0 with
          | none => .error Fault.undefined
          | some result => .ok result := by
  by_cases hl : file.length < 16
  · obtain ⟨hdr, h1, h2⟩ := readEzcAlloc_short capacity junk file header0 blocks0 hl
    rw [h1, h2, if_neg (by omega)]
  · obtain ⟨m0, m1, m2, m3, v, w0, w1, t0, t1, q, d, x0, x1, y0, y1, r, payload, rfl⟩ :=
      exists_cons16 file (by omega)
    rw [readEzcAlloc_long, readEzc_long]
    simp only [fieldU16, List.getD_cons_succ, List.getD_cons_zero, List.length_cons,
      List.take_succ_cons, List.take_zero, List.getElem?_cons_succ, List.getElem?_cons_zero,
      Option.some.injEq]
    rw [← toU16_or_shift x0 x1, ← toU16_or_shift y0 y1]
    by_cases h1 : [m0, m1, m2, m3] ≠ EZC_MAGIC
    · rw [if_pos h1, if_pos h1, if_neg (fun hc => h1 hc.2.1)]
    · by_cases h2 : v ≠ EZC_VERSION
      · rw [if_neg h1, if_pos h2, if_neg h1, if_pos h2, if_neg (fun hc => h2 hc.2.2.1)]
      · rw [if_neg h1, if_neg h2, if_neg h1, if_neg h2]
        by_cases h3 : capacity < (toU16 (x0.val ||| (x1.val <<< 8))).val
            * (toU16 (y0.val ||| (y1.val <<< 8))).val
        · rw [if_pos h3, if_pos ⟨by omega, not_not.mp h1, not_not.mp h2, h3⟩]
        · rw [if_neg h3, if_neg (fun hc => h3 hc.2.2.2)]
          cases readBlocks junk (toU16 (x0.val ||| (x1.val <<< 8))).val
              ((toU16 (x0.val ||| (x1.val <<< 8))).val * (toU16 (y0.val ||| (y1.val <<< 8))).val)
              0 { rest := payload, fail := false } <;> rfl

/-- Whatever `readEzcAlloc` returns, `readEzc` returns: the properties of the results of
`readEzc` are properties of every call that returns, whatever the memory. -/
theorem readEzcAlloc_returns (capacity : Nat) (junk : Nat → U8) (file : List U8)
    (header0 : EzcHeader) (blocks0 : List Block8x8i16)
    (result : Bool × EzcHeader × List Block8x8i16)
    (h : readEzcAlloc capacity junk file header0 blocks0 = .ok result) :
    readEzc junk file header0 blocks0 = some result := by
  rw [readEzcAlloc_eq] at h
  by_cases hc : 16 ≤ file.length ∧ file.take 4 = EZC_MAGIC ∧ file[4]? = some EZC_VERSION
      ∧ capacity < fieldU16 file 11 * fieldU16 file 13
  · rw [if_pos hc] at h
    cases h
  · rw [if_neg hc] at h
    obtain ⟨ok, hdr, bs, hr⟩ := readEzc_total junk file header0 blocks0
    rw [hr] at h ⊢
    cases h
    rfl

/-- The only exception that leaves `readEzcAlloc` is `std::bad_alloc`: no division by
zero is reached. -/
theorem readEzcAlloc_defined (capacity : Nat) (junk : Nat → U8) (file : List U8)
    (header0 : EzcHeader) (blocks0 : List Block8x8i16) :
    readEzcAlloc capacity junk file header0 blocks0 ≠ .error Fault.undefined := by
  rw [readEzcAlloc_eq]
  by_cases hc : 16 ≤ file.length ∧ file.take 4 = EZC_MAGIC ∧ file[4]? = some EZC_VERSION
      ∧ capacity < fieldU16 file 11 * fieldU16 file 13
  · rw [if_pos hc]
    intro h
    cases h
  · rw [if_neg hc]
    obtain ⟨ok, hdr, bs, hr⟩ := readEzc_total junk file header0 blocks0
    rw [hr]
    intro h
    cases h

/-! ## Rejection of malformed and truncated files -/

/-- Claim C3 (malformed container rejection): `readEzc` reports success only if bytes 0-3
of the file are the magic number and byte 4 is the version 1; and for every file of at
least 5 bytes whose first four bytes are not the magic number, or whose byte 4 is not 1,
`readEzc` returns `false`. -/
theorem readEzc_rejects_malformed (junk : Nat → U8) (file : List U8) (header0 : EzcHeader)
    (blocks0 : List Block8x8i16) :
    (∀ hdr bs, readEzc junk file header0 blocks0 = some (true, hdr, bs) →
        file.take 4 = EZC_MAGIC ∧ file[4]? = some EZC_VERSION)
      ∧ (5 ≤ file.length → (file.take 4 ≠ EZC_MAGIC ∨ file[4]? ≠ some EZC_VERSION) →
          ∃ hdr bs, readEzc junk file header0 blocks0 = some (false, hdr, bs)) := by
  by_cases hl : file.length < 16
  · obtain ⟨hdr, h⟩ := readEzc_short junk file header0 blocks0 hl
    rw [h]
    exact ⟨fun _ _ hc => by simp at hc, fun _ _ => ⟨hdr, blocks0, rfl⟩⟩
  · obtain ⟨m0, m1, m2, m3, v, w0, w1, t0, t1, q, d, x0, x1, y0, y1, r, payload, rfl⟩ :=
      exists_cons16 file (by omega)
    rw [readEzc_long]
    simp only [List.take_succ_cons, List.take_zero, List.getElem?_cons_succ,
      List.getElem?_cons_zero, Option.some.injEq]
    by_cases h1 : [m0, m1, m2, m3] ≠ EZC_MAGIC
    · rw [if_pos h1]
      exact ⟨fun _ _ hc => by simp at hc, fun _ _ => ⟨_, _, rfl⟩⟩
    · by_cases h2 : v ≠ EZC_VERSION
      · rw [if_neg h1, if_pos h2]
        exact ⟨fun _ _ hc => by simp at hc, fun _ _ => ⟨_, _, rfl⟩⟩
      · rw [if_neg h1, if_neg h2]
        refine ⟨fun _ _ _ => ⟨not_not.mp h1, not_not.mp h2⟩, fun _ hbad => ?_⟩
        rcases hbad with hbad | hbad
        · exact absurd hbad h1
        · exact absurd (congrArg some (not_not.mp h2)) hbad

/-- In the calls that return (no allocation fails), `readEzc` returns `false` for every
file that starts with the magic number and version 1 but has fewer than 16 bytes, and
for every file of at least 16 bytes that is shorter than
`16 + 128 * blockCountX * blockCountY`, the two counts being the little-endian header
fields at offsets 11 and 13. -/
theorem readEzc_rejects_truncated (junk : Nat → U8) (file : List U8) (header0 : EzcHeader)
    (blocks0 : List Block8x8i16) :
    (file.take 5 = EZC_MAGIC ++ [EZC_VERSION] → file.length < 16 →
        ∃ hdr bs, readEzc junk file header0 blocks0 = some (false, hdr, bs))
      ∧ (16 ≤ file.length →
          file.length < 16 + 128 * (fieldU16 file 11 * fieldU16 file 13) →
          ∃ hdr bs, readEzc junk file header0 blocks0 = some (false, hdr, bs)) := by
  refine ⟨fun _ hl => ?_, fun hl hshort => ?_⟩
  · obtain ⟨hdr, h⟩ := readEzc_short junk file header0 blocks0 hl
    exact ⟨hdr, blocks0, h⟩
  · obtain ⟨m0, m1, m2, m3, v, w0, w1, t0, t1, q, d, x0, x1, y0, y1, r, payload, rfl⟩ :=
      exists_cons16 file hl
    rw [readEzc_long]
    by_cases h1 : [m0, m1, m2, m3] ≠ EZC_MAGIC
    · exact ⟨_, _, by rw [if_pos h1]⟩
    · by_cases h2 : v ≠ EZC_VERSION
      · exact ⟨_, _, by rw [if_neg h1, if_pos h2]⟩
      · rw [if_neg h1, if_neg h2]
        simp only [fieldU16, List.getD_cons_succ, List.getD_cons_zero, List.length_cons] at hshort
        rw [← toU16_or_shift x0 x1, ← toU16_or_shift y0 y1] at hshort
        have hx : (toU16 (x0.val ||| (x1.val <<< 8))).val ≠ 0 := by
          intro hx
          rw [hx, Nat.zero_mul] at hshort
          omega
        obtain ⟨rs, s', hrs, _, _, hfl⟩ :=
          readBlocks_spec junk (toU16 (x0.val ||| (x1.val <<< 8))).val
            ((toU16 (x0.val ||| (x1.val <<< 8))).val * (toU16 (y0.val ||| (y1.val <<< 8))).val)
            0 { rest := payload, fail := false } (Or.inr hx)
        rw [hrs]
        have hs : s'.fail = true := by
          cases hf : s'.fail
          · have := (hfl.mp hf).2
            simp only at this
            omega
          · rfl
        simp only [hs, Bool.not_true]
        exact ⟨_, _, rfl⟩

/-- Claim C5 (coordinate reconstruction): `readEzc` never divides by zero, and whenever it
succeeds it returns exactly `blockCountX * blockCountY` blocks, the block at position
`k` having `blockX = k mod blockCountX` and `blockY = k div blockCountX`, so that
`blockY * blockCountX + blockX = k`; with `blockCountX = 0` the sequence is empty. -/
theorem readEzc_coordinates (junk : Nat → U8) (file : List U8) (header0 : EzcHeader)
    (blocks0 : List Block8x8i16) :
    readEzc junk file header0 blocks0 ≠ none
      ∧ ∀ hdr bs, readEzc junk file header0 blocks0 = some (true, hdr, bs) →
          bs.length = hdr.blockCountX.val * hdr.blockCountY.val
            ∧ (∀ (k : Nat) (hk : k < bs.length),
                (bs[k]).blockX = ((k % hdr.blockCountX.val : Nat) : Int)
                  ∧ (bs[k]).blockY = ((k / hdr.blockCountX.val : Nat) : Int)
                  ∧ (bs[k]).blockY * (hdr.blockCountX.val : Int) + (bs[k]).blockX = (k : Int))
            ∧ (hdr.blockCountX.val = 0 → bs = []) := by
  constructor
  · obtain ⟨ok, hdr, bs, h⟩ := readEzc_total junk file header0 blocks0
    rw [h]
    exact Option.some_ne_none _
  · intro hdr bs hok
    by_cases hl : file.length < 16
    · obtain ⟨hdr', h⟩ := readEzc_short junk file header0 blocks0 hl
      rw [h] at hok
      simp at hok
    · obtain ⟨m0, m1, m2, m3, v, w0, w1, t0, t1, q, d, x0, x1, y0, y1, r, payload, rfl⟩ :=
        exists_cons16 file (by omega)
      rw [readEzc_long] at hok
      by_cases h1 : [m0, m1, m2, m3] ≠ EZC_MAGIC
      · rw [if_pos h1] at hok
        simp at hok
      · by_cases h2 : v ≠ EZC_VERSION
        · rw [if_neg h1, if_pos h2] at hok
          simp at hok
        · rw [if_neg h1, if_neg h2] at hok
          have hn : (toU16 (x0.val ||| (x1.val <<< 8))).val * (toU16 (y0.val ||| (y1.val <<< 8))).val = 0
              ∨ (toU16 (x0.val ||| (x1.val <<< 8))).val ≠ 0 := by
            by_cases hx : (toU16 (x0.val ||| (x1.val <<< 8))).val = 0
            · left; rw [hx, Nat.zero_mul]
            · exact Or.inr hx
          obtain ⟨rs, s', hrs, hlen, hco, _⟩ :=
            readBlocks_spec junk _ _ 0 { rest := payload, fail := false } hn
          rw [hrs] at hok
          simp only [Option.some.injEq, Prod.mk.injEq] at hok
          obtain ⟨_, rfl, rfl⟩ := hok
          refine ⟨hlen, ?_, ?_⟩
          · intro k hk
            have := hco k hk
            simp only [Nat.zero_add] at this
            refine ⟨this.1, this.2, ?_⟩
            rw [this.1, this.2]
            have := Nat.div_add_mod' k (toU16 (x0.val ||| (x1.val <<< 8))).val
            exact_mod_cast this
          · intro hx
            simp only at hx
            rw [hx, Nat.zero_mul] at hlen
            exact List.length_eq_zero.mp hlen

/-! ## Byte layout of the written container -/

theorem length_flatMap_const {α β : Type} (f : α → List β) (c : Nat)
    (hc : ∀ a, (f a).length = c) (l : List α) : (l.flatMap f).length = c * l.length := by
  induction l with
  | nil => simp
  | cons a l ih =>
    simp only [List.flatMap_cons, List.length_append, List.length_cons, hc, ih]
    rw [Nat.mul_succ, Nat.add_comm]

theorem getElem?_flatMap_const {α β : Type} (f : α → List β) (c : Nat)
    (hc : ∀ a, (f a).length = c) (l : List α) (k j : Nat) (hj : j < c) :
    (l.flatMap f)[c * k + j]? = (l[k]?).bind (fun a => (f a)[j]?) := by
  induction l generalizing k with
  | nil => simp
  | cons a l ih =>
    cases k with
    | zero =>
      simp only [List.flatMap_cons, Nat.mul_zero, Nat.zero_add, List.getElem?_cons_zero,
        Option.some_bind]
      rw [List.getElem?_append_left (by rw [hc]; exact hj)]
    | succ k =>
      simp only [List.flatMap_cons, List.getElem?_cons_succ]
      rw [List.getElem?_append_right (by rw [hc, Nat.mul_succ]; omega), hc, ← ih k]
      congr 1
      rw [Nat.mul_succ]
      omega

theorem writeBlockData_length (block : Block8x8i16) : (writeBlockData block).length = 128 := by
  unfold writeBlockData
  rw [length_flatMap_const _ 2 (fun i => writeI16_length _), List.length_finRange]

theorem writeEzc_eq (h : EzcHeader) (blocks : List Block8x8i16) :
    writeEzc h blocks
      = [69, 90, 67, 0, h.version, lowByte h.width.val, highByte h.width.val,
          lowByte h.height.val, highByte h.height.val, h.quality, h.blockDim,
          lowByte h.blockCountX.val, highByte h.blockCountX.val,
          lowByte h.blockCountY.val, highByte h.blockCountY.val, 0]
        ++ blocks.flatMap writeBlockData := by
  simp only [writeEzc, EZC_MAGIC, writeU16_eq, lowByte, highByte, List.cons_append,
    List.nil_append, List.append_assoc]

theorem intToU16_val (v : I16) : (intToU16 v.val).val = twosComplement16 v.val := by
  obtain ⟨x, h1, h2⟩ := v
  simp only [intToU16, twosComplement16]
  split <;> omega

theorem writeI16_eq (v : I16) :
    writeI16 v = [lowByte (twosComplement16 v.val), highByte (twosComplement16 v.val)] := by
  rw [writeI16, writeU16_eq, intToU16_val]
  rfl

theorem writeBlockData_getElem? (block : Block8x8i16) (i : Fin 64) (j : Nat) (hj : j < 2) :
    (writeBlockData block)[2 * i.val + j]? = (writeI16 (block.data i))[j]? := by
  unfold writeBlockData
  rw [getElem?_flatMap_const _ 2 (fun i => writeI16_length _) _ _ _ hj]
  rw [List.getElem?_eq_getElem (by simp), List.getElem_finRange]
  rfl

/-- Claim C2 (byte layout): for every header and every sequence of blocks the file
written by `writeEzc` has exactly `16 + 128 * n` bytes; its first 16 bytes are 'E', 'Z',
'C', 0, the version, width (low byte, high byte), height (low, high), quality, blockDim,
blockCountX (low, high), blockCountY (low, high) and 0; and bytes `16 + 128 * b + 2 * i`
and `16 + 128 * b + 2 * i + 1` are the low and the high byte of the 16-bit two's
complement value of element `i` of the block at position `b`. -/
theorem writeEzc_byte_layout (h : EzcHeader) (blocks : List Block8x8i16) :
    (writeEzc h blocks).length = 16 + 128 * blocks.length
      ∧ (writeEzc h blocks).take 16
          = [69, 90, 67, 0, h.version, lowByte h.width.val, highByte h.width.val,
              lowByte h.height.val, highByte h.height.val, h.quality, h.blockDim,
              lowByte h.blockCountX.val, highByte h.blockCountX.val,
              lowByte h.blockCountY.val, highByte h.blockCountY.val, 0]
      ∧ ∀ (b : Nat) (hb : b < blocks.length) (i : Fin 64),
          (writeEzc h blocks)[16 + 128 * b + 2 * i.val]?
              = some (lowByte (twosComplement16 ((blocks[b]).data i).val))
            ∧ (writeEzc h blocks)[16 + 128 * b + 2 * i.val + 1]?
              = some (highByte (twosComplement16 ((blocks[b]).data i).val)) := by
  rw [writeEzc_eq]
  refine ⟨?_, ?_, ?_⟩
  · rw [List.length_append, length_flatMap_const _ 128 writeBlockData_length]
    rfl
  · exact List.take_left' rfl
  · intro b hb i
    have hi := i.isLt
    constructor
    · rw [List.getElem?_append_right (by simp only [List.length_cons, List.length_nil]; omega)]
      simp only [List.length_cons, List.length_nil]
      rw [show 16 + 128 * b + 2 * i.val - (0 + 1 + 1 + 1 + 1 + 1 + 1 + 1 + 1 + 1 + 1 + 1 + 1 + 1 + 1 + 1 + 1)
          = 128 * b + 2 * i.val by omega,
        getElem?_flatMap_const _ 128 writeBlockData_length _ _ _ (by omega),
        List.getElem?_eq_getElem hb, Option.some_bind,
        show 2 * i.val = 2 * i.val + 0 from rfl, writeBlockData_getElem? _ _ _ (by omega),
        writeI16_eq]
      rfl
    · rw [List.getElem?_append_right (by simp only [List.length_cons, List.length_nil]; omega)]
      simp only [List.length_cons, List.length_nil]
      rw [show 16 + 128 * b + 2 * i.val + 1 - (0 + 1 + 1 + 1 + 1 + 1 + 1 + 1 + 1 + 1 + 1 + 1 + 1 + 1 + 1 + 1 + 1)
          = 128 * b + (2 * i.val + 1) by omega,
        getElem?_flatMap_const _ 128 writeBlockData_length _ _ _ (by omega),
        List.getElem?_eq_getElem hb, Option.some_bind,
        writeBlockData_getElem? _ _ _ (by omega), writeI16_eq]
      rfl

/-! ## Quantizer -/

theorem clamp_eq (v : Int) : clamp v 1 100 = max 1 (min v 100) := by
  unfold clamp
  split_ifs <;> omega

theorem clamp_bounds (v : Int) : 1 ≤ clamp v 1 100 ∧ clamp v 1 100 ≤ 100 := by
  unfold clamp
  split_ifs <;> omega

theorem clamp_low (v : Int) (h : v < 1) : clamp v 1 100 = clamp 1 1 100 := by
  unfold clamp
  split_ifs <;> omega

theorem clamp_high (v : Int) (h : 100 < v) : clamp v 1 100 = clamp 100 1 100 := by
  unfold clamp
  split_ifs <;> omega

theorem getScaleFactor_low (q : Int) (h : q < 1) : getScaleFactor q = getScaleFactor 1 := by
  simp only [getScaleFactor, clamp_low q h]

theorem getScaleFactor_high (q : Int) (h : 100 < q) : getScaleFactor q = getScaleFactor 100 := by
  simp only [getScaleFactor, clamp_high q h]

theorem getQuantizationValue_low (i : Fin 64) (q : Int) (h : q < 1) :
    getQuantizationValue i q = getQuantizationValue i 1 := by
  simp only [getQuantizationValue, getScaleFactor_low q h]

theorem getQuantizationValue_high (i : Fin 64) (q : Int) (h : 100 < q) :
    getQuantizationValue i q = getQuantizationValue i 100 := by
  simp only [getQuantizationValue, getScaleFactor_high q h]

theorem getScaleFactor_eq (quality : Int) :
    getScaleFactor quality
      = max 1 (if max 1 (min quality 100) < 50 then 5000 / max 1 (min quality 100)
          else 200 - 2 * max 1 (min quality 100)) := by
  simp only [getScaleFactor]
  rw [clamp_eq]
  have hc : 0 ≤ max 1 (min quality 100) := by omega
  rw [Int.tdiv_eq_ediv (by decide) hc, max_comm]
  congr 1
  split_ifs <;> omega

theorem getScaleFactor_bounds (quality : Int) :
    1 ≤ getScaleFactor quality ∧ getScaleFactor quality ≤ 5000 := by
  rw [getScaleFactor_eq]
  constructor
  · omega
  · have h1 : 1 ≤ max 1 (min quality 100) := by omega
    have h2 : 5000 / max 1 (min quality 100) ≤ 5000 :=
      Int.ediv_le_self _ (by decide)
    split_ifs <;> omega

/-- Claim C7 (scale factor): `getScaleFactor quality = max 1 s` where `c` is `quality`
clamped to `[1, 100]` and `s = 5000 div c` if `c < 50`, else `s = 200 - 2 * c`; and, for
every block size and element type, `quantize` and `dequantize` with a quality below 1
behave exactly as with quality 1, with a quality above 100 exactly as with quality
100. -/
theorem getScaleFactor_clamped :
    (∀ quality : Int,
        getScaleFactor quality
          = max 1 (if max 1 (min quality 100) < 50 then 5000 / max 1 (min quality 100)
              else 200 - 2 * max 1 (min quality 100)))
      ∧ (∀ (SrcT DstT : Type) [IntElem SrcT] [IntElem DstT] (Size : TxSize)
          (src : Block SrcT Size) (dst : Block DstT Size) (quality : Int),
          (quality < 1 →
              quantize src dst quality = quantize src dst 1
                ∧ dequantize src dst quality = dequantize src dst 1)
            ∧ (100 < quality →
              quantize src dst quality = quantize src dst 100
                ∧ dequantize src dst quality = dequantize src dst 100)) := by
  refine ⟨getScaleFactor_eq, ?_⟩
  intro SrcT DstT _ _ Size src dst quality
  constructor
  · intro h
    cases Size <;>
      simp only [quantize, dequantize, getScaleFactor_low quality h,
        getQuantizationValue_low _ quality h, and_self]
  · intro h
    cases Size <;>
      simp only [quantize, dequantize, getScaleFactor_high quality h,
        getQuantizationValue_high _ quality h, and_self]

theorem table_bounds : ∀ i : Fin 64,
    10 ≤ JPEG_LUMINANCE_QUANTIZATION_TABLE.getD i.val 0
      ∧ JPEG_LUMINANCE_QUANTIZATION_TABLE.getD i.val 0 ≤ 121 := by
  decide

theorem getQuantizationValue_eq (i : Fin 64) (quality : Int) :
    getQuantizationValue i quality
      = max 1 ((JPEG_LUMINANCE_QUANTIZATION_TABLE.getD i.val 0 * getScaleFactor quality + 50) / 100) := by
  obtain ⟨hs, _⟩ := getScaleFactor_bounds quality
  obtain ⟨ht, _⟩ := table_bounds i
  have hp : 0 ≤ JPEG_LUMINANCE_QUANTIZATION_TABLE.getD i.val 0 * getScaleFactor quality :=
    Int.mul_nonneg (by omega) (by omega)
  simp only [getQuantizationValue]
  rw [Int.tdiv_eq_ediv (by omega) (by decide), max_comm]

theorem getQuantizationValue_bounds (i : Fin 64) (quality : Int) :
    1 ≤ getQuantizationValue i quality ∧ getQuantizationValue i quality ≤ 6050 := by
  obtain ⟨hs1, hs2⟩ := getScaleFactor_bounds quality
  obtain ⟨ht1, ht2⟩ := table_bounds i
  rw [getQuantizationValue_eq]
  have hp : JPEG_LUMINANCE_QUANTIZATION_TABLE.getD i.val 0 * getScaleFactor quality ≤ 121 * 5000 :=
    Int.mul_le_mul ht2 hs2 (by omega) (by decide)
  constructor <;> omega

theorem forEachElement_some {n : Nat} {T : Type} (f : Fin n → Option T) (g : Fin n → T)
    (h : ∀ i, f i = some (g i)) : forEachElement f = some g := by
  have hs : ∀ i, (f i).isSome = true := fun i => by rw [h i]; rfl
  unfold forEachElement
  rw [dif_pos hs]
  congr 1
  funext i
  simp only [h i, Option.get_some]

theorem intDiv_pos (a b : Int) (hb : 1 ≤ b) : intDiv a b = some (Int.tdiv a b) := by
  unfold intDiv
  rw [if_neg (by omega)]

theorem quantize_8x8 {SrcT DstT : Type} [IntElem SrcT] [IntElem DstT]
    (src : Block SrcT TxSize.TX_8x8) (dst : Block DstT TxSize.TX_8x8) (quality : Int) :
    quantize src dst quality
      = some ⟨dst.blockX, dst.blockY, fun i : Fin 64 =>
          IntElem.ofInt
            (if 0 ≤ IntElem.toInt (src.data i)
              then Int.tdiv (IntElem.toInt (src.data i)
                + Int.tdiv (getQuantizationValue i quality) 2) (getQuantizationValue i quality)
              else Int.tdiv (IntElem.toInt (src.data i)
                - Int.tdiv (getQuantizationValue i quality) 2) (getQuantizationValue i quality))⟩ := by
  simp only [quantize]
  rw [forEachElement_some _ (fun i : Fin 64 =>
          (IntElem.ofInt
            (if 0 ≤ IntElem.toInt (src.data i)
              then Int.tdiv (IntElem.toInt (src.data i)
                + Int.tdiv (getQuantizationValue i quality) 2) (getQuantizationValue i quality)
              else Int.tdiv (IntElem.toInt (src.data i)
                - Int.tdiv (getQuantizationValue i quality) 2) (getQuantizationValue i quality)) : DstT))]
  · rfl
  · intro i
    have hq := (getQuantizationValue_bounds i quality).1
    simp only [intDiv_pos _ _ hq, ge_iff_le]
    split_ifs <;> rfl

theorem quantize_scalar {SrcT DstT : Type} [IntElem SrcT] [IntElem DstT] (Size : TxSize)
    (hS : Size ≠ TxSize.TX_8x8) (src : Block SrcT Size) (dst : Block DstT Size) (quality : Int) :
    quantize src dst quality
      = some ⟨dst.blockX, dst.blockY, fun i =>
          IntElem.ofInt (Int.tdiv (IntElem.toInt (src.data i)) (getScaleFactor quality))⟩ := by
  have hs := (getScaleFactor_bounds quality).1
  cases Size
  · simp only [quantize]
    rw [forEachElement_some _ (fun i =>
      (IntElem.ofInt (Int.tdiv (IntElem.toInt (src.data i)) (getScaleFactor quality)) : DstT))
      (fun i => by rw [intDiv_pos _ _ hs]; rfl)]
    rfl
  · exact absurd rfl hS
  · simp only [quantize]
    rw [forEachElement_some _ (fun i =>
      (IntElem.ofInt (Int.tdiv (IntElem.toInt (src.data i)) (getScaleFactor quality)) : DstT))
      (fun i => by rw [intDiv_pos _ _ hs]; rfl)]
    rfl
  · simp only [quantize]
    rw [forEachElement_some _ (fun i =>
      (IntElem.ofInt (Int.tdiv (IntElem.toInt (src.data i)) (getScaleFactor quality)) : DstT))
      (fun i => by rw [intDiv_pos _ _ hs]; rfl)]
    rfl

/-- Claim C9 (the quantization divisor is always valid): for every table index and every
integer quality `getQuantizationValue` lies in `[1, 6050]` and `getScaleFactor` in
`[1, 5000]`; hence `quantize` never divides by zero, on the 8x8 path or on the scalar
path. -/
theorem quantization_divisor_valid :
    (∀ (i : Fin 64) (quality : Int),
        1 ≤ getQuantizationValue i quality ∧ getQuantizationValue i quality ≤ 6050)
      ∧ (∀ quality : Int, 1 ≤ getScaleFactor quality ∧ getScaleFactor quality ≤ 5000)
      ∧ (∀ (SrcT DstT : Type) [IntElem SrcT] [IntElem DstT] (Size : TxSize)
          (src : Block SrcT Size) (dst : Block DstT Size) (quality : Int),
          quantize src dst quality ≠ none) := by
  refine ⟨getQuantizationValue_bounds, getScaleFactor_bounds, ?_⟩
  intro SrcT DstT _ _ Size src dst quality
  by_cases hS : Size = TxSize.TX_8x8
  · subst hS
    rw [quantize_8x8]
    exact Option.some_ne_none _
  · rw [quantize_scalar Size hS]
    exact Option.some_ne_none _

/-! ## Rounding of the quantizer -/

theorem round_facts (v q : Int) (hq : 1 ≤ q) :
    2 * |(if 0 ≤ v then Int.tdiv (v + Int.tdiv q 2) q else Int.tdiv (v - Int.tdiv q 2) q) * q - v| ≤ q
      ∧ (2 * |(if 0 ≤ v then Int.tdiv (v + Int.tdiv q 2) q else Int.tdiv (v - Int.tdiv q 2) q) * q - v| = q
          → |v| < |(if 0 ≤ v then Int.tdiv (v + Int.tdiv q 2) q else Int.tdiv (v - Int.tdiv q 2) q) * q|)
      ∧ |(if 0 ≤ v then Int.tdiv (v + Int.tdiv q 2) q else Int.tdiv (v - Int.tdiv q 2) q) * q - v| ≤ q / 2
      ∧ (0 ≤ v → 0 ≤ (if 0 ≤ v then Int.tdiv (v + Int.tdiv q 2) q else Int.tdiv (v - Int.tdiv q 2) q)
          ∧ (if 0 ≤ v then Int.tdiv (v + Int.tdiv q 2) q else Int.tdiv (v - Int.tdiv q 2) q) ≤ v)
      ∧ (v < 0 → v ≤ (if 0 ≤ v then Int.tdiv (v + Int.tdiv q 2) q else Int.tdiv (v - Int.tdiv q 2) q)
          ∧ (if 0 ≤ v then Int.tdiv (v + Int.tdiv q 2) q else Int.tdiv (v - Int.tdiv q 2) q) ≤ 0) := by
  have hh : Int.tdiv q 2 = q / 2 := Int.tdiv_eq_ediv (by omega) (by decide)
  rw [hh]
  by_cases hv : 0 ≤ v
  · simp only [if_pos hv]
    rw [Int.tdiv_eq_ediv (by omega) (by omega)]
    have e1 := Int.ediv_add_emod (v + q / 2) q
    have e2 := Int.emod_nonneg (v + q / 2) (show q ≠ 0 by omega)
    have e3 := Int.emod_lt_of_pos (v + q / 2) (show 0 < q by omega)
    have e4 : 0 ≤ (v + q / 2) / q := Int.ediv_nonneg (by omega) (by omega)
    have e5 : (v + q / 2) / q ≤ v := by
      by_contra hc
      have : q * (v + 1) ≤ q * ((v + q / 2) / q) := Int.mul_le_mul_of_nonneg_left (by omega) (by omega)
      have hqv : v ≤ q * v := by nlinarith
      rw [Int.mul_add, Int.mul_one] at this
      omega
    rw [Int.mul_comm ((v + q / 2) / q) q]
    generalize q * ((v + q / 2) / q) = p at *
    generalize (v + q / 2) % q = m at *
    have a1 := abs_cases (p - v)
    have a2 := abs_cases v
    have a3 := abs_cases p
    refine ⟨?_, ?_, ?_, fun _ => ⟨e4, e5⟩, fun h => absurd hv (by omega)⟩ <;> omega
  · simp only [if_neg hv]
    have hneg : v - q / 2 = -(q / 2 - v) := by ring
    rw [hneg, Int.neg_tdiv, Int.tdiv_eq_ediv (by omega) (by omega)]
    have e1 := Int.ediv_add_emod (q / 2 - v) q
    have e2 := Int.emod_nonneg (q / 2 - v) (show q ≠ 0 by omega)
    have e3 := Int.emod_lt_of_pos (q / 2 - v) (show 0 < q by omega)
    have e4 : 0 ≤ (q / 2 - v) / q := Int.ediv_nonneg (by omega) (by omega)
    have e5 : (q / 2 - v) / q ≤ -v := by
      by_contra hc
      have : q * (-v + 1) ≤ q * ((q / 2 - v) / q) := Int.mul_le_mul_of_nonneg_left (by omega) (by omega)
      have hqv : -v ≤ q * (-v) := by nlinarith
      rw [Int.mul_add, Int.mul_one] at this
      omega
    rw [Int.neg_mul, Int.mul_comm ((q / 2 - v) / q) q]
    generalize q * ((q / 2 - v) / q) = p at *
    generalize (q / 2 - v) % q = m at *
    have a1 := abs_cases (-p - v)
    have a2 := abs_cases v
    have a3 := abs_cases (-p)
    refine ⟨?_, ?_, ?_, fun h => absurd h hv, fun _ => ⟨by omega, by omega⟩⟩ <;> omega

theorem nearest_of_int (r v q : Int) (hq : 1 ≤ q) (h1 : 2 * |r * q - v| ≤ q)
    (h2 : 2 * |r * q - v| = q → |v| < |r * q|) : IsNearestTiesAway r ((v : ℚ) / (q : ℚ)) := by
  have hq' : (0 : ℚ) < (q : ℚ) := by exact_mod_cast (show (0 : Int) < q by omega)
  have he : (r : ℚ) - (v : ℚ) / (q : ℚ) = ((r * q - v : Int) : ℚ) / (q : ℚ) := by
    push_cast
    field_simp
  have habs : |(r : ℚ) - (v : ℚ) / (q : ℚ)| = ((|r * q - v| : Int) : ℚ) / (q : ℚ) := by
    rw [he, abs_div, abs_of_pos hq', Int.cast_abs]
  unfold IsNearestTiesAway
  rw [habs]
  rcases lt_or_eq_of_le h1 with hlt | heq
  · left
    rw [div_lt_iff₀ hq']
    have : ((2 * |r * q - v| : Int) : ℚ) < (q : ℚ) := by exact_mod_cast hlt
    push_cast at this ⊢
    linarith
  · right
    constructor
    · rw [div_eq_iff (ne_of_gt hq')]
      have : ((2 * |r * q - v| : Int) : ℚ) = (q : ℚ) := by exact_mod_cast heq
      push_cast at this ⊢
      linarith
    · have h3 := h2 heq
      rw [abs_div, abs_of_pos hq', div_lt_iff₀ hq']
      have : ((|v| : Int) : ℚ) < ((|r * q| : Int) : ℚ) := by exact_mod_cast h3
      rw [Int.cast_abs, Int.cast_abs, Int.cast_mul, abs_mul, abs_of_pos hq'] at this
      exact this

theorem toI16_of_range (x : Int) (h1 : -32768 ≤ x) (h2 : x ≤ 32767) : (toI16 x).val = x := by
  simp only [toI16]
  omega

/-- Claim C8 (quantize rounds half away from zero): for 8x8 blocks of any integer element
type, `quantize` stores at every position `i` the conversion to the destination type of
the integer nearest to the rational `v / q[i]`, ties away from zero, where
`q[i] = max 1 ((table[i] * scale + 50) div 100)`; that integer is `(v + q div 2) div q`
for `v >= 0` and `(v - q div 2) div q` for `v < 0` with truncating division.  For the
blocks of 16-bit signed values of the codec the conversion changes nothing: the stored
value is that integer. -/
theorem quantize_rounds_half_away :
    (∀ (SrcT DstT : Type) [IntElem SrcT] [IntElem DstT]
        (src : Block SrcT TxSize.TX_8x8) (dst : Block DstT TxSize.TX_8x8) (quality : Int),
        ∃ out, quantize src dst quality = some out ∧ ∀ i : Fin 64, ∃ r : Int,
          out.data i = IntElem.ofInt r
            ∧ getQuantizationValue i quality
                = max 1 ((JPEG_LUMINANCE_QUANTIZATION_TABLE.getD i.val 0
                    * getScaleFactor quality + 50) / 100)
            ∧ IsNearestTiesAway r
                ((IntElem.toInt (src.data i) : ℚ) / (getQuantizationValue i quality : ℚ))
            ∧ r = (if 0 ≤ IntElem.toInt (src.data i)
                then Int.tdiv (IntElem.toInt (src.data i)
                  + Int.tdiv (getQuantizationValue i quality) 2) (getQuantizationValue i quality)
                else Int.tdiv (IntElem.toInt (src.data i)
                  - Int.tdiv (getQuantizationValue i quality) 2) (getQuantizationValue i quality)))
      ∧ (∀ (src dst : Block8x8i16) (quality : Int),
        ∃ out, quantize src dst quality = some out ∧ ∀ i : Fin 64,
          IsNearestTiesAway (out.data i).val
              (((src.data i).val : ℚ) / (getQuantizationValue i quality : ℚ))
            ∧ (out.data i).val = (if 0 ≤ (src.data i).val
                then Int.tdiv ((src.data i).val
                  + Int.tdiv (getQuantizationValue i quality) 2) (getQuantizationValue i quality)
                else Int.tdiv ((src.data i).val
                  - Int.tdiv (getQuantizationValue i quality) 2) (getQuantizationValue i quality))) := by
  constructor
  · intro SrcT DstT _ _ src dst quality
    refine ⟨_, quantize_8x8 src dst quality, fun i => ⟨_, rfl, getQuantizationValue_eq i quality, ?_, rfl⟩⟩
    have hq := (getQuantizationValue_bounds i quality).1
    obtain ⟨f1, f2, _⟩ := round_facts (IntElem.toInt (src.data i)) _ hq
    exact nearest_of_int _ _ _ hq f1 f2
  · intro src dst quality
    refine ⟨_, quantize_8x8 src dst quality, fun i => ?_⟩
    have hq := (getQuantizationValue_bounds i quality).1
    obtain ⟨f1, f2, _, f4, f5⟩ := round_facts (src.data i).val _ hq
    have hr := (src.data i).property
    have hval : ((IntElem.ofInt (if 0 ≤ (src.data i).val
                then Int.tdiv ((src.data i).val
                  + Int.tdiv (getQuantizationValue i quality) 2) (getQuantizationValue i quality)
                else Int.tdiv ((src.data i).val
                  - Int.tdiv (getQuantizationValue i quality) 2) (getQuantizationValue i quality)) : I16)).val
          = (if 0 ≤ (src.data i).val
                then Int.tdiv ((src.data i).val
                  + Int.tdiv (getQuantizationValue i quality) 2) (getQuantizationValue i quality)
                else Int.tdiv ((src.data i).val
                  - Int.tdiv (getQuantizationValue i quality) 2) (getQuantizationValue i quality)) := by
      apply toI16_of_range
      · by_cases hv : 0 ≤ (src.data i).val
        · have := f4 hv; omega
        · have := f5 (by omega); omega
      · by_cases hv : 0 ≤ (src.data i).val
        · have := f4 hv; omega
        · have := f5 (by omega); omega
    show IsNearestTiesAway (IntElem.ofInt _ : I16).val _ ∧ (IntElem.ofInt _ : I16).val = _
    simp only [IntElem.toInt] at hval ⊢
    rw [hval]
    exact ⟨nearest_of_int _ _ _ hq f1 f2, rfl⟩

/-- Claim C10 (the quantization round trip is lossy but bounded): for every quality and
every 8x8 block `x` of 16-bit signed values with `|x[i]| + q[i] div 2 <= 32767`, every
element of `dequantize (quantize x)` differs from `x[i]` by at most `q[i] div 2`, which is
less than one quantization step `q[i]`; in particular for quality 90 and `x[i] = 50 - i`
every element differs by at most 50. -/
theorem quantization_round_trip_bounded :
    (∀ (x d1 d2 : Block8x8i16) (quality : Int),
        (∀ i : Fin 64, |(x.data i).val| + getQuantizationValue i quality / 2 ≤ 32767) →
        ∃ y, quantize x d1 quality = some y ∧ ∀ i : Fin 64,
          |((dequantize y d2 quality).data i).val - (x.data i).val|
              ≤ getQuantizationValue i quality / 2
            ∧ |((dequantize y d2 quality).data i).val - (x.data i).val|
              < getQuantizationValue i quality)
      ∧ (∀ d1 d2 : Block8x8i16,
        ∃ y, quantize testQuantBlock d1 90 = some y ∧ ∀ i : Fin 64,
          (testQuantBlock.data i).val = 50 - (i.val : Int)
            ∧ |((dequantize y d2 90).data i).val - (testQuantBlock.data i).val| ≤ 50) := by
  have main : ∀ (x d1 d2 : Block8x8i16) (quality : Int),
        (∀ i : Fin 64, |(x.data i).val| + getQuantizationValue i quality / 2 ≤ 32767) →
        ∃ y, quantize x d1 quality = some y ∧ ∀ i : Fin 64,
          |((dequantize y d2 quality).data i).val - (x.data i).val|
              ≤ getQuantizationValue i quality / 2
            ∧ |((dequantize y d2 quality).data i).val - (x.data i).val|
              < getQuantizationValue i quality := by
    intro x d1 d2 quality hx
    refine ⟨_, quantize_8x8 x d1 quality, fun i => ?_⟩
    have hq := (getQuantizationValue_bounds i quality).1
    obtain ⟨_, _, f3, f4, f5⟩ := round_facts (x.data i).val _ hq
    have hxi := hx i
    have a1 := abs_cases (x.data i).val
    have hrange : -32768 ≤ (x.data i).val ∧ (x.data i).val ≤ 32767 := (x.data i).property
    have hr : ((IntElem.ofInt (if 0 ≤ (x.data i).val
                then Int.tdiv ((x.data i).val
                  + Int.tdiv (getQuantizationValue i quality) 2) (getQuantizationValue i quality)
                else Int.tdiv ((x.data i).val
                  - Int.tdiv (getQuantizationValue i quality) 2) (getQuantizationValue i quality)) : I16)).val
          = (if 0 ≤ (x.data i).val
                then Int.tdiv ((x.data i).val
                  + Int.tdiv (getQuantizationValue i quality) 2) (getQuantizationValue i quality)
                else Int.tdiv ((x.data i).val
                  - Int.tdiv (getQuantizationValue i quality) 2) (getQuantizationValue i quality)) := by
      apply toI16_of_range
      · by_cases hv : 0 ≤ (x.data i).val
        · have := f4 hv; omega
        · have := f5 (by omega); omega
      · by_cases hv : 0 ≤ (x.data i).val
        · have := f4 hv; omega
        · have := f5 (by omega); omega
    simp only [dequantize, IntElem.toInt] at hr ⊢
    rw [hr]
    generalize (if 0 ≤ (x.data i).val
                then Int.tdiv ((x.data i).val
                  + Int.tdiv (getQuantizationValue i quality) 2) (getQuantizationValue i quality)
                else Int.tdiv ((x.data i).val
                  - Int.tdiv (getQuantizationValue i quality) 2) (getQuantizationValue i quality))
        * getQuantizationValue i quality = p at *
    have a2 := abs_cases (p - (x.data i).val)
    have hz : (IntElem.ofInt p : I16).val = p := by
      apply toI16_of_range <;> omega
    rw [hz]
    constructor <;> omega
  refine ⟨main, fun d1 d2 => ?_⟩
  have hq90 : ∀ i : Fin 64, getQuantizationValue i 90 / 2 ≤ 12 := by decide
  have hdata : ∀ i : Fin 64, (testQuantBlock.data i).val = 50 - (i.val : Int) := by
    intro i
    have := i.isLt
    simp only [testQuantBlock]
    apply toI16_of_range <;> omega
  obtain ⟨y, hy, hall⟩ := main testQuantBlock d1 d2 90 (fun i => by
    have h1 := hq90 i
    have h2 := hdata i
    have h3 := i.isLt
    have a := abs_cases (testQuantBlock.data i).val
    omega)
  refine ⟨y, hy, fun i => ⟨hdata i, ?_⟩⟩
  have := (hall i).1
  have h1 := hq90 i
  omega

/-- Claim C1 (container round trip): for every header with version 1 and every sequence of
`blockCountX * blockCountY` blocks, `readEzc` applied to the file written by `writeEzc`
succeeds, returns a header equal to the one written (version, width, height, quality,
blockDim, blockCountX and blockCountY) and a block sequence of the same length in which
each of the 64 values of each block is the value written. -/
theorem container_round_trip (junk : Nat → U8) (h : EzcHeader) (blocks : List Block8x8i16)
    (header0 : EzcHeader) (blocks0 : List Block8x8i16)
    (hv : h.version = 1)
    (hlen : blocks.length = h.blockCountX.val * h.blockCountY.val) :
    ∃ bs, readEzc junk (writeEzc h blocks) header0 blocks0 = some (true, h, bs)
      ∧ bs.length = blocks.length
      ∧ ∀ (k : Nat) (hk : k < bs.length) (hk' : k < blocks.length)
          (i : Fin (getTxElementCount TxSize.TX_8x8)),
          (bs[k]).data i = (blocks[k]).data i := by
  obtain ⟨bs, hread, hall⟩ := readEzc_writeEzc junk h blocks header0 blocks0 hv hlen
  obtain ⟨hsame, hdata⟩ := List.forall₂_iff_get.mp hall
  refine ⟨bs, hread, hsame, ?_⟩
  intro k hk hk' i
  have hk_data := hdata k hk hk'
  simp only [List.get_eq_getElem] at hk_data
  rw [hk_data]

/-- The round trip of `testEzcFormatRoundTrip`. -/
theorem container_round_trip_witness :
    testHeader.version = 1
      ∧ testBlocks.length = testHeader.blockCountX.val * testHeader.blockCountY.val
      ∧ ∃ bs, readEzc (fun _ => 0) (writeEzc testHeader testBlocks) {} [] = some (true, testHeader, bs)
        ∧ bs.length = testBlocks.length
        ∧ ∀ (k : Nat) (hk : k < bs.length) (hk' : k < testBlocks.length)
            (i : Fin (getTxElementCount TxSize.TX_8x8)),
            (bs[k]).data i = (testBlocks[k]).data i :=
  ⟨by decide, by decide,
    container_round_trip (fun _ => 0) testHeader testBlocks {} [] (by decide) (by decide)⟩

/-- The two bytes of element 3 of block 1 in the file of the test. -/
theorem writeEzc_byte_layout_witness :
    ∃ hb : 1 < testBlocks.length,
      (writeEzc testHeader testBlocks)[16 + 128 * 1 + 2 * (3 : Fin 64).val]?
          = some (lowByte (twosComplement16 ((testBlocks[1]).data (3 : Fin 64)).val))
        ∧ (writeEzc testHeader testBlocks)[16 + 128 * 1 + 2 * (3 : Fin 64).val + 1]?
          = some (highByte (twosComplement16 ((testBlocks[1]).data (3 : Fin 64)).val)) :=
  ⟨by decide, (writeEzc_byte_layout testHeader testBlocks).2.2 1 (by decide) 3⟩

/-- A file with an altered magic number is rejected; the file of the test, which is
accepted, starts with the magic number and the version. -/
theorem readEzc_rejects_malformed_witness :
    (5 ≤ badMagicFile.length ∧ badMagicFile.take 4 ≠ EZC_MAGIC
        ∧ ∃ hdr bs, readEzc (fun _ => 0) badMagicFile {} [] = some (false, hdr, bs))
      ∧ ((writeEzc testHeader testBlocks).take 4 = EZC_MAGIC
        ∧ (writeEzc testHeader testBlocks)[4]? = some EZC_VERSION) := by
  refine ⟨⟨by decide, by decide,
    (readEzc_rejects_malformed (fun _ => 0) badMagicFile {} []).2 (by decide)
      (Or.inl (by decide))⟩, ?_⟩
  obtain ⟨bs, hbs, _⟩ :=
    readEzc_writeEzc (fun _ => 0) testHeader testBlocks {} [] (by decide) (by decide)
  exact (readEzc_rejects_malformed (fun _ => 0) (writeEzc testHeader testBlocks) {} []).1
    testHeader bs hbs

/-- The coordinates of the four blocks read back from the file of the test. -/
theorem readEzc_coordinates_witness :
    ∃ bs, readEzc (fun _ => 0) (writeEzc testHeader testBlocks) {} [] = some (true, testHeader, bs)
      ∧ bs.length = 2 * 2
      ∧ ∀ (k : Nat) (hk : k < bs.length),
          (bs[k]).blockX = ((k % 2 : Nat) : Int) ∧ (bs[k]).blockY = ((k / 2 : Nat) : Int)
            ∧ (bs[k]).blockY * 2 + (bs[k]).blockX = (k : Int) := by
  obtain ⟨bs, hbs, _⟩ :=
    readEzc_writeEzc (fun _ => 0) testHeader testBlocks {} [] (by decide) (by decide)
  have h := (readEzc_coordinates (fun _ => 0) (writeEzc testHeader testBlocks) {} []).2
    testHeader bs hbs
  exact ⟨bs, hbs, h.1, h.2.1⟩

/-- Quality -3 quantizes as quality 1 and quality 250 as quality 100. -/
theorem getScaleFactor_clamped_witness :
    ((-3 : Int) < 1
        ∧ quantize testQuantBlock (Block.new 0 0 : Block8x8i16) (-3)
            = quantize testQuantBlock (Block.new 0 0 : Block8x8i16) 1
        ∧ dequantize testQuantBlock (Block.new 0 0 : Block8x8i16) (-3)
            = dequantize testQuantBlock (Block.new 0 0 : Block8x8i16) 1)
      ∧ ((100 : Int) < 250
        ∧ quantize testQuantBlock (Block.new 0 0 : Block8x8i16) 250
            = quantize testQuantBlock (Block.new 0 0 : Block8x8i16) 100
        ∧ dequantize testQuantBlock (Block.new 0 0 : Block8x8i16) 250
            = dequantize testQuantBlock (Block.new 0 0 : Block8x8i16) 100) :=
  ⟨⟨by decide, (getScaleFactor_clamped.2 I16 I16 TxSize.TX_8x8 testQuantBlock
      (Block.new 0 0) (-3)).1 (by decide)⟩,
    ⟨by decide, (getScaleFactor_clamped.2 I16 I16 TxSize.TX_8x8 testQuantBlock
      (Block.new 0 0) 250).2 (by decide)⟩⟩

/-- The block of the test at quality 50 satisfies the no-overflow condition, and its
round trip stays within half a quantization step. -/
theorem quantization_round_trip_bounded_witness :
    (∀ i : Fin 64, |(testQuantBlock.data i).val| + getQuantizationValue i 50 / 2 ≤ 32767)
      ∧ ∃ y, quantize testQuantBlock (Block.new 0 0 : Block8x8i16) 50 = some y ∧ ∀ i : Fin 64,
          |((dequantize y (Block.new 0 0 : Block8x8i16) 50).data i).val - (testQuantBlock.data i).val|
              ≤ getQuantizationValue i 50 / 2
            ∧ |((dequantize y (Block.new 0 0 : Block8x8i16) 50).data i).val - (testQuantBlock.data i).val|
              < getQuantizationValue i 50 :=
  ⟨by decide, quantization_round_trip_bounded.1 testQuantBlock (Block.new 0 0) (Block.new 0 0) 50
    (by decide)⟩

/-! ## Quality 100 -/

theorem getQuantizationValue_100 : ∀ i : Fin 64, getQuantizationValue i 100 = 1 := by
  decide

theorem quantize_100 (x d1 : Block8x8i16) :
    quantize x d1 100 = some ⟨d1.blockX, d1.blockY, x.data⟩ := by
  rw [quantize_8x8]
  congr 2
  funext i
  have hr := (x.data i).property
  apply Subtype.ext
  have h12 : Int.tdiv 1 2 = 0 := by decide
  simp only [IntElem.ofInt, IntElem.toInt, getQuantizationValue_100, h12, Int.add_zero,
    Int.sub_zero, Int.tdiv_one, ite_self]
  exact toI16_of_range _ hr.1 hr.2

theorem dequantize_100 (y d2 : Block8x8i16) : (dequantize y d2 100).data = y.data := by
  funext i
  have hr := (y.data i).property
  apply Subtype.ext
  simp only [dequantize, IntElem.ofInt, IntElem.toInt, getQuantizationValue_100, Int.mul_one]
  exact toI16_of_range _ hr.1 hr.2

/-- Claim C11 as stated is false: at quality 100 no block of 16-bit signed values is
changed by `quantize` followed by `dequantize`. -/
theorem quality_100_lossy_refuted :
    ¬ ∃ (x d1 d2 y : Block8x8i16),
        quantize x d1 100 = some y ∧ (dequantize y d2 100).data ≠ x.data := by
  rintro ⟨x, d1, d2, y, hq, hne⟩
  rw [quantize_100] at hq
  simp only [Option.some.injEq] at hq
  subst hq
  exact hne (dequantize_100 _ d2)

/-- Claim C11, amended (quality 100 is the identity, quality 99 still quantizes): at
quality 100 every quantization value is 1 and `quantize` followed by `dequantize`
returns every block of 16-bit signed values unchanged; at quality 99 the quantization
values at the positions with a table entry of at least 75 are 2, and there is a block
that the round trip changes. -/
theorem quality_100_identity :
    (∀ i : Fin 64, getQuantizationValue i 100 = 1)
      ∧ (∀ x d1 d2 : Block8x8i16,
          ∃ y, quantize x d1 100 = some y ∧ y.data = x.data
            ∧ (dequantize y d2 100).data = x.data)
      ∧ (∀ i : Fin 64, getQuantizationValue i 99
          = if 75 ≤ JPEG_LUMINANCE_QUANTIZATION_TABLE.getD i.val 0 then 2 else 1)
      ∧ (∀ d1 d2 : Block8x8i16,
          ∃ y, quantize lastOneBlock d1 99 = some y
            ∧ (dequantize y d2 99).data ≠ lastOneBlock.data) := by
  refine ⟨getQuantizationValue_100, ?_, by decide, ?_⟩
  · intro x d1 d2
    exact ⟨_, quantize_100 x d1, rfl, dequantize_100 _ d2⟩
  · intro d1 d2
    refine ⟨_, quantize_8x8 lastOneBlock d1 99, ?_⟩
    intro h
    have h63 := congrFun h (63 : Fin 64)
    revert h63
    simp only [dequantize]
    decide

/-! ## Block accessors -/

theorem count_eq_dim_sq (Size : TxSize) :
    getTxElementCount Size = getTxDimension Size ^ 2 := by
  cases Size <;> rfl

theorem rowcol_index_lt (Size : TxSize) (row col : Nat) (hr : row < getTxDimension Size)
    (hc : col < getTxDimension Size) :
    (row * getTxDimension Size + col) % SIZE_MODULUS = row * getTxDimension Size + col
      ∧ row * getTxDimension Size + col < getTxElementCount Size := by
  have hlt : row * getTxDimension Size + col < getTxElementCount Size := by
    cases Size <;> simp only [getTxDimension, getTxElementCount] at * <;> omega
  refine ⟨Nat.mod_eq_of_lt (Nat.lt_trans hlt ?_), hlt⟩
  cases Size <;> simp only [getTxElementCount, SIZE_MODULUS] <;> omega

theorem rowcol_check_iff (Size : TxSize) (row col : Nat) :
    ((row * getTxDimension Size + col) % SIZE_MODULUS ≥ getTxElementCount Size
        ∨ row ≥ getTxDimension Size ∨ col ≥ getTxDimension Size)
      ↔ (row ≥ getTxDimension Size ∨ col ≥ getTxDimension Size) := by
  constructor
  · rintro (h | h | h)
    · by_contra hc
      have hr : row < getTxDimension Size := by omega
      have hcol : col < getTxDimension Size := by omega
      obtain ⟨e1, e2⟩ := rowcol_index_lt Size row col hr hcol
      omega
    · exact Or.inl h
    · exact Or.inr h
  · intro h
    exact Or.inr h

theorem assignAtRowCol_ok {T : Type} {Size : TxSize} (b : Block T Size) (row col : Nat) (v : T)
    (hr : row < getTxDimension Size) (hc : col < getTxDimension Size) :
    b.assignAtRowCol row col v
      = .ok ⟨b.blockX, b.blockY,
          Function.update b.data ⟨row * getTxDimension Size + col,
            (rowcol_index_lt Size row col hr hc).2⟩ v⟩ := by
  obtain ⟨e1, e2⟩ := rowcol_index_lt Size row col hr hc
  have hcheck : ¬ ((row * getTxDimension Size + col) % SIZE_MODULUS ≥ getTxElementCount Size
        ∨ row ≥ getTxDimension Size ∨ col ≥ getTxDimension Size) := by
    rw [rowcol_check_iff]
    omega
  simp only [Block.assignAtRowCol]
  rw [dif_neg hcheck]
  have hfin : (⟨(row * getTxDimension Size + col) % SIZE_MODULUS,
      Nat.lt_of_not_ge (fun hge => hcheck (Or.inl hge))⟩ : Fin (getTxElementCount Size))
      = ⟨row * getTxDimension Size + col, e2⟩ := Fin.ext e1
  rw [hfin]

theorem atRowCol_ok {T : Type} {Size : TxSize} (b : Block T Size) (row col : Nat)
    (hr : row < getTxDimension Size) (hc : col < getTxDimension Size) :
    b.atRowCol row col
      = .ok (b.data ⟨row * getTxDimension Size + col, (rowcol_index_lt Size row col hr hc).2⟩) := by
  obtain ⟨e1, e2⟩ := rowcol_index_lt Size row col hr hc
  have hcheck : ¬ ((row * getTxDimension Size + col) % SIZE_MODULUS ≥ getTxElementCount Size
        ∨ row ≥ getTxDimension Size ∨ col ≥ getTxDimension Size) := by
    rw [rowcol_check_iff]
    omega
  simp only [Block.atRowCol]
  rw [dif_neg hcheck]
  have hfin : (⟨(row * getTxDimension Size + col) % SIZE_MODULUS,
      Nat.lt_of_not_ge (fun hge => hcheck (Or.inl hge))⟩ : Fin (getTxElementCount Size))
      = ⟨row * getTxDimension Size + col, e2⟩ := Fin.ext e1
  rw [hfin]

theorem atRowCol_fail {T : Type} {Size : TxSize} (b : Block T Size) (row col : Nat)
    (h : row ≥ getTxDimension Size ∨ col ≥ getTxDimension Size) :
    b.atRowCol row col = .error Fault.outOfRange := by
  simp only [Block.atRowCol]
  rw [dif_pos ((rowcol_check_iff Size row col).mpr h)]

theorem atIndex_ok {T : Type} {Size : TxSize} (b : Block T Size) (index : Nat)
    (h : index < getTxElementCount Size) : b.atIndex index = .ok (b.data ⟨index, h⟩) := by
  simp only [Block.atIndex]
  rw [dif_neg (by omega)]

theorem atIndex_fail {T : Type} {Size : TxSize} (b : Block T Size) (index : Nat)
    (h : index ≥ getTxElementCount Size) : b.atIndex index = .error Fault.outOfRange := by
  simp only [Block.atIndex]
  rw [dif_pos h]

theorem subscript_ok {T : Type} {Size : TxSize} (b : Block T Size) (index : Nat)
    (h : index < getTxElementCount Size) : b.subscript index = .ok (b.data ⟨index, h⟩) := by
  simp only [Block.subscript]
  rw [dif_pos h]

/-- Claim C16 (fresh block invariant): for every supported size, every integer element
type and every coordinate pair, a newly constructed block has `size() = dimension()^2`
(16, 64, 256 and 1024 for the sides 4, 8, 16 and 32), `getBlockX() = x`,
`getBlockY() = y`, and each of its elements, read through any accessor, is the zero of
the element type. -/
theorem fresh_block_invariant :
    (∀ (T : Type) [IntElem T] (Size : TxSize) (x y : Int),
        (Block.new x y : Block T Size).size = (Block.new x y : Block T Size).dimension ^ 2
          ∧ (Block.new x y : Block T Size).getBlockX = x
          ∧ (Block.new x y : Block T Size).getBlockY = y
          ∧ (∀ i, (Block.new x y : Block T Size).data i = IntElem.zero)
          ∧ (∀ i : Nat, i < (Block.new x y : Block T Size).size →
              (Block.new x y : Block T Size).subscript i = .ok IntElem.zero
                ∧ (Block.new x y : Block T Size).atIndex i = .ok IntElem.zero))
      ∧ (∀ (T : Type) [IntElem T] (x y : Int),
          ((Block.new x y : Block T TxSize.TX_4x4).dimension = 4
            ∧ (Block.new x y : Block T TxSize.TX_4x4).size = 16)
          ∧ ((Block.new x y : Block T TxSize.TX_8x8).dimension = 8
            ∧ (Block.new x y : Block T TxSize.TX_8x8).size = 64)
          ∧ ((Block.new x y : Block T TxSize.TX_16x16).dimension = 16
            ∧ (Block.new x y : Block T TxSize.TX_16x16).size = 256)
          ∧ ((Block.new x y : Block T TxSize.TX_32x32).dimension = 32
            ∧ (Block.new x y : Block T TxSize.TX_32x32).size = 1024))
      ∧ (IntElem.toInt (IntElem.zero : I16) = 0 ∧ IntElem.toInt (IntElem.zero : U16) = 0
          ∧ IntElem.toInt (IntElem.zero : U8) = 0) := by
  refine ⟨?_, ?_, ?_⟩
  · intro T _ Size x y
    refine ⟨count_eq_dim_sq Size, rfl, rfl, fun _ => rfl, fun i hi => ?_⟩
    have hi2 : i < getTxElementCount Size := hi
    exact ⟨by rw [subscript_ok _ i hi2]; rfl, by rw [atIndex_ok _ i hi2]; rfl⟩
  · intro T _ x y
    exact ⟨⟨rfl, rfl⟩, ⟨rfl, rfl⟩, ⟨rfl, rfl⟩, ⟨rfl, rfl⟩⟩
  · exact ⟨rfl, rfl, rfl⟩

/-- Claim C17 (a checked write through `(row, col)` agrees with the linear reads): for
every block, every `row < dim`, `col < dim` and every value `v`, the assignment
`block.at(row, col) = v` succeeds; afterwards `at(row, col)`, `at(row * dim + col)` and
`operator[](row * dim + col)` all yield `v`, the element at every other linear index is
unchanged, and so are the coordinates. -/
theorem write_rowcol_read_linear {T : Type} {Size : TxSize} (b : Block T Size)
    (row col : Nat) (v : T)
    (hr : row < getTxDimension Size) (hc : col < getTxDimension Size) :
    ∃ b2, b.assignAtRowCol row col v = .ok b2
      ∧ b2.atRowCol row col = .ok v
      ∧ b2.atIndex (row * getTxDimension Size + col) = .ok v
      ∧ b2.subscript (row * getTxDimension Size + col) = .ok v
      ∧ (∀ j : Fin (getTxElementCount Size),
          j.val ≠ row * getTxDimension Size + col → b2.data j = b.data j)
      ∧ b2.getBlockX = b.getBlockX ∧ b2.getBlockY = b.getBlockY := by
  obtain ⟨e1, e2⟩ := rowcol_index_lt Size row col hr hc
  refine ⟨_, assignAtRowCol_ok b row col v hr hc, ?_, ?_, ?_, ?_, rfl, rfl⟩
  · rw [atRowCol_ok _ row col hr hc]
    simp only [Function.update_same]
  · rw [atIndex_ok _ _ e2]
    simp only [Function.update_same]
  · rw [subscript_ok _ _ e2]
    simp only [Function.update_same]
  · intro j hj
    simp only
    rw [Function.update_noteq]
    intro hjeq
    exact hj (congrArg Fin.val hjeq)

/-- The write of `testBlockCreation`: `block.at(3, 4) = 42` is read back through
`at(3, 4)` and through `block[3 * 8 + 4]`. -/
theorem write_rowcol_read_linear_witness :
    (3 < getTxDimension TxSize.TX_8x8 ∧ 4 < getTxDimension TxSize.TX_8x8)
      ∧ ∃ b2, testBlock.assignAtRowCol 3 4 (42 : U16) = .ok b2
        ∧ b2.atRowCol 3 4 = .ok 42
        ∧ b2.atIndex (3 * getTxDimension TxSize.TX_8x8 + 4) = .ok 42
        ∧ b2.subscript (3 * getTxDimension TxSize.TX_8x8 + 4) = .ok 42
        ∧ (∀ j : Fin (getTxElementCount TxSize.TX_8x8),
            j.val ≠ 3 * getTxDimension TxSize.TX_8x8 + 4 → b2.data j = testBlock.data j)
        ∧ b2.getBlockX = testBlock.getBlockX ∧ b2.getBlockY = testBlock.getBlockY :=
  ⟨⟨by decide, by decide⟩,
    write_rowcol_read_linear testBlock 3 4 42 (by decide) (by decide)⟩

/-- Claim C18 (bounds checking): `at(index)` throws `std::out_of_range` if and only if
`index >= dim^2` and returns the element otherwise; `at(row, col)` throws if and only if
`row >= dim` or `col >= dim` and returns the element otherwise; in particular both throw
at the boundary values `row = dim`, `col = dim` and `index = dim^2`. -/
theorem checked_access_bounds {T : Type} {Size : TxSize} (b : Block T Size) :
    (∀ index : Nat,
        (b.atIndex index = .error Fault.outOfRange ↔ index ≥ getTxDimension Size ^ 2)
          ∧ (index < getTxDimension Size ^ 2 → ∃ v, b.atIndex index = .ok v))
      ∧ (∀ row col : Nat,
        (b.atRowCol row col = .error Fault.outOfRange
            ↔ (row ≥ getTxDimension Size ∨ col ≥ getTxDimension Size))
          ∧ (row < getTxDimension Size → col < getTxDimension Size →
              ∃ v, b.atRowCol row col = .ok v))
      ∧ b.atIndex (getTxDimension Size ^ 2) = .error Fault.outOfRange
      ∧ (∀ col : Nat, b.atRowCol (getTxDimension Size) col = .error Fault.outOfRange)
      ∧ (∀ row : Nat, b.atRowCol row (getTxDimension Size) = .error Fault.outOfRange) := by
  have hcount := count_eq_dim_sq Size
  refine ⟨fun index => ⟨⟨fun h => ?_, fun h => ?_⟩, fun h => ?_⟩,
    fun row col => ⟨⟨fun h => ?_, fun h => atRowCol_fail b row col h⟩, fun hr hc => ?_⟩,
    ?_, fun col => atRowCol_fail b _ col (Or.inl (Nat.le_refl _)),
    fun row => atRowCol_fail b row _ (Or.inr (Nat.le_refl _))⟩
  · by_contra hlt
    rw [atIndex_ok b index (by omega)] at h
    cases h
  · exact atIndex_fail b index (by omega)
  · exact ⟨_, atIndex_ok b index (by omega)⟩
  · by_contra hlt
    rw [atRowCol_ok b row col (by omega) (by omega)] at h
    cases h
  · exact ⟨_, atRowCol_ok b row col hr hc⟩
  · exact atIndex_fail b _ (by omega)

/-- The three boundary accesses on the 8x8 block of the tests fail, the access `at(7, 7)`
succeeds. -/
theorem checked_access_bounds_witness :
    testBlock.atIndex 64 = .error Fault.outOfRange
      ∧ testBlock.atRowCol 8 0 = .error Fault.outOfRange
      ∧ testBlock.atRowCol 0 8 = .error Fault.outOfRange
      ∧ ∃ v, testBlock.atRowCol 7 7 = .ok v :=
  ⟨(checked_access_bounds testBlock).2.2.1, (checked_access_bounds testBlock).2.2.2.1 0,
    (checked_access_bounds testBlock).2.2.2.2 0,
    ((checked_access_bounds testBlock).2.1 7 7).2 (by decide) (by decide)⟩

/-! ## State left by a rejected read -/

theorem readEzc_bad_magic (junk : Nat → U8) (file : List U8) (header0 : EzcHeader)
    (blocks0 : List Block8x8i16) (hlen : 4 ≤ file.length) (hbad : file.take 4 ≠ EZC_MAGIC) :
    readEzc junk file header0 blocks0 = some (false, header0, blocks0) := by
  unfold readEzc
  simp only []
  rw [read_ok _ _ _ rfl hlen]
  simp only []
  rw [if_pos hbad]

theorem readEzc_bad_version (junk : Nat → U8) (file : List U8) (header0 : EzcHeader)
    (blocks0 : List Block8x8i16) (v : U8) (hmagic : file.take 4 = EZC_MAGIC)
    (hv : file[4]? = some v) (hbad : v ≠ EZC_VERSION) :
    readEzc junk file header0 blocks0
      = some (false, { header0 with version := v }, blocks0) := by
  have hlen : 5 ≤ file.length := by
    by_contra hc
    rw [List.getElem?_eq_none (by omega)] at hv
    cases hv
  rcases file with _ | ⟨m0, _ | ⟨m1, _ | ⟨m2, _ | ⟨m3, _ | ⟨v2, rest⟩⟩⟩⟩⟩
  all_goals first
    | (exfalso; simp only [List.length_cons, List.length_nil] at hlen; omega)
    | skip
  simp only [List.getElem?_cons_succ, List.getElem?_cons_zero, Option.some.injEq] at hv
  subst hv
  simp only [List.take_succ_cons, List.take_zero] at hmagic
  unfold readEzc
  simp only []
  rw [read_ok _ _ _ rfl (by simp)]
  simp only [List.take_succ_cons, List.take_zero, List.drop_succ_cons, List.drop_zero,
    get_cons, intToU8_val, hmagic, ne_eq, not_true_eq_false, if_false]
  rw [if_pos hbad]

theorem decode_of_rejected (junk : Nat → U8) (samples : (Fin 64 → I16) → Fin 64 → U16)
    (file : List U8) (hdr : EzcHeader) (bs : List Block8x8i16)
    (h : readEzc junk file {} [] = some (false, hdr, bs)) :
    decode junk samples file = .ok { status := 1, image := none } := by
  simp only [decode, h]

/-- The function `decode` is `decodeAlloc` in the runs in which no allocation of `readEzc`
fails. -/
theorem decodeAlloc_eq (capacity : Nat) (junk : Nat → U8)
    (samples : (Fin 64 → I16) → Fin 64 → U16) (file : List U8) :
    decodeAlloc capacity junk samples file
      = if 16 ≤ file.length ∧ file.take 4 = EZC_MAGIC ∧ file[4]? = some EZC_VERSION
            ∧ capacity < fieldU16 file 11 * fieldU16 file 13 then .error Fault.badAlloc
        else decode junk samples file := by
  unfold decodeAlloc decode
  rw [readEzcAlloc_eq]
  by_cases h : 16 ≤ file.length ∧ file.take 4 = EZC_MAGIC ∧ file[4]? = some EZC_VERSION
      ∧ capacity < fieldU16 file 11 * fieldU16 file 13
  · rw [if_pos h, if_pos h]
  · rw [if_neg h, if_neg h]
    obtain ⟨ok, hdr, bs, hr⟩ := readEzc_total junk file {} []
    rw [hr]
    cases ok <;> rfl

theorem readEzcAlloc_bad_magic (capacity : Nat) (junk : Nat → U8) (file : List U8)
    (header0 : EzcHeader) (blocks0 : List Block8x8i16) (hlen : 4 ≤ file.length)
    (hbad : file.take 4 ≠ EZC_MAGIC) :
    readEzcAlloc capacity junk file header0 blocks0 = .ok (false, header0, blocks0) := by
  rw [readEzcAlloc_eq, if_neg (fun hc => hbad hc.2.1),
    readEzc_bad_magic junk file header0 blocks0 hlen hbad]

theorem readEzcAlloc_bad_version (capacity : Nat) (junk : Nat → U8) (file : List U8)
    (header0 : EzcHeader) (blocks0 : List Block8x8i16) (v : U8)
    (hmagic : file.take 4 = EZC_MAGIC) (hv : file[4]? = some v) (hbad : v ≠ EZC_VERSION) :
    readEzcAlloc capacity junk file header0 blocks0
      = .ok (false, { header0 with version := v }, blocks0) := by
  rw [readEzcAlloc_eq, if_neg, readEzc_bad_version junk file header0 blocks0 v hmagic hv hbad]
  intro hc
  rw [hv] at hc
  exact hbad (Option.some.inj hc.2.2.1)

theorem readEzcAlloc_truncated_header (capacity : Nat) (junk : Nat → U8) (file : List U8)
    (header0 : EzcHeader) (blocks0 : List Block8x8i16) (hlen : file.length < 16) :
    ∃ hdr, readEzcAlloc capacity junk file header0 blocks0 = .ok (false, hdr, blocks0) := by
  obtain ⟨hdr, h, _⟩ := readEzcAlloc_short capacity junk file header0 blocks0 hlen
  exact ⟨hdr, h⟩

theorem readEzcAlloc_truncated_payload (capacity : Nat) (junk : Nat → U8) (file : List U8)
    (header0 : EzcHeader) (blocks0 : List Block8x8i16) (hlen : 16 ≤ file.length)
    (hmagic : file.take 4 = EZC_MAGIC) (hv : file[4]? = some EZC_VERSION)
    (hshort : file.length < 16 + 128 * (fieldU16 file 11 * fieldU16 file 13))
    (hfit : fieldU16 file 11 * fieldU16 file 13 ≤ capacity) :
    ∃ hdr bs, readEzcAlloc capacity junk file header0 blocks0 = .ok (false, hdr, bs)
      ∧ hdr.version = EZC_VERSION
      ∧ hdr.width.val = fieldU16 file 5 ∧ hdr.height.val = fieldU16 file 7
      ∧ file[9]? = some hdr.quality ∧ file[10]? = some hdr.blockDim
      ∧ hdr.blockCountX.val = fieldU16 file 11 ∧ hdr.blockCountY.val = fieldU16 file 13
      ∧ bs.length = fieldU16 file 11 * fieldU16 file 13 := by
  obtain ⟨m0, m1, m2, m3, v, w0, w1, t0, t1, q, d, x0, x1, y0, y1, r, payload, rfl⟩ :=
    exists_cons16 file hlen
  simp only [List.take_succ_cons, List.take_zero] at hmagic
  simp only [List.getElem?_cons_succ, List.getElem?_cons_zero, Option.some.injEq] at hv
  rw [readEzcAlloc_long, if_neg (not_not.mpr hmagic), if_neg (not_not.mpr hv)]
  simp only [fieldU16, List.getD_cons_succ, List.getD_cons_zero, List.length_cons,
    List.getElem?_cons_succ, List.getElem?_cons_zero, Option.some.injEq] at hshort hfit ⊢
  rw [← toU16_or_shift x0 x1, ← toU16_or_shift y0 y1] at hshort hfit ⊢
  rw [← toU16_or_shift w0 w1, ← toU16_or_shift t0 t1, if_neg (by omega)]
  have hx : (toU16 (x0.val ||| (x1.val <<< 8))).val ≠ 0 := by
    intro hx
    rw [hx, Nat.zero_mul] at hshort
    omega
  obtain ⟨rs, s2, hrs, hcount, _, hfl⟩ :=
    readBlocks_spec junk (toU16 (x0.val ||| (x1.val <<< 8))).val
      ((toU16 (x0.val ||| (x1.val <<< 8))).val * (toU16 (y0.val ||| (y1.val <<< 8))).val)
      0 { rest := payload, fail := false } (Or.inr hx)
  rw [hrs]
  have hs : s2.fail = true := by
    cases hf : s2.fail
    · have := (hfl.mp hf).2
      simp only at this
      omega
    · rfl
  simp only [hs, Bool.not_true]
  exact ⟨_, _, rfl, hv, rfl, rfl, rfl, rfl, rfl, rfl, hcount⟩

theorem readEzcAlloc_bad_alloc (capacity : Nat) (junk : Nat → U8) (file : List U8)
    (header0 : EzcHeader) (blocks0 : List Block8x8i16) (hlen : 16 ≤ file.length)
    (hmagic : file.take 4 = EZC_MAGIC) (hv : file[4]? = some EZC_VERSION)
    (hbig : capacity < fieldU16 file 11 * fieldU16 file 13) :
    readEzcAlloc capacity junk file header0 blocks0 = .error Fault.badAlloc := by
  rw [readEzcAlloc_eq, if_pos ⟨hlen, hmagic, hv, hbig⟩]

theorem decodeAlloc_of_rejected (capacity : Nat) (junk : Nat → U8)
    (samples : (Fin 64 → I16) → Fin 64 → U16)
    (file : List U8) (hdr : EzcHeader) (bs : List Block8x8i16)
    (h : readEzcAlloc capacity junk file {} [] = .ok (false, hdr, bs)) :
    decodeAlloc capacity junk samples file = .ok { status := 1, image := none } := by
  simp only [decodeAlloc, h]

theorem decodeAlloc_bad_alloc (capacity : Nat) (junk : Nat → U8)
    (samples : (Fin 64 → I16) → Fin 64 → U16) (file : List U8)
    (h : readEzcAlloc capacity junk file {} [] = .error Fault.badAlloc) :
    decodeAlloc capacity junk samples file = .error Fault.badAlloc := by
  simp only [decodeAlloc, h]

/-- In a process with memory for the blocks the header announces, `readEzc` returns
`false` for every truncated file: for every file that starts with the magic number and
version 1 but has fewer than 16 bytes (whatever the memory), and for every file of at
least 16 bytes that is shorter than `16 + 128 * blockCountX * blockCountY` and announces
at most `capacity` blocks. -/
theorem readEzcAlloc_rejects_truncated (capacity : Nat) (junk : Nat → U8) (file : List U8)
    (header0 : EzcHeader) (blocks0 : List Block8x8i16) :
    (file.take 5 = EZC_MAGIC ++ [EZC_VERSION] → file.length < 16 →
        ∃ hdr bs, readEzcAlloc capacity junk file header0 blocks0 = .ok (false, hdr, bs))
      ∧ (16 ≤ file.length →
          file.length < 16 + 128 * (fieldU16 file 11 * fieldU16 file 13) →
          fieldU16 file 11 * fieldU16 file 13 ≤ capacity →
          ∃ hdr bs, readEzcAlloc capacity junk file header0 blocks0 = .ok (false, hdr, bs)) := by
  refine ⟨fun _ hl => ?_, fun hl hshort hfit => ?_⟩
  · obtain ⟨hdr, h, _⟩ := readEzcAlloc_short capacity junk file header0 blocks0 hl
    exact ⟨hdr, blocks0, h⟩
  · rw [readEzcAlloc_eq, if_neg (fun hc => by omega)]
    obtain ⟨hdr, bs, h⟩ :=
      (readEzc_rejects_truncated junk file header0 blocks0).2 hl hshort
    exact ⟨hdr, bs, by rw [h]⟩

/-- Claim C4 (truncation rejection) fails on the code for the files whose header announces
more blocks than the process can allocate: on every file of at least 16 bytes with the
magic number and the version 1 whose two block counts (the little-endian header fields
at offsets 11 and 13) multiply to more than `capacity`, and so on every such file
shorter than `16 + 128 * blockCountX * blockCountY`, `readEzc` does not return `false`
but throws `std::bad_alloc` while it builds the block vector, before it looks at the
stream again; and the exception leaves `decode`, which has no handler. -/
theorem readEzc_truncated_bad_alloc (capacity : Nat) (junk : Nat → U8) (file : List U8)
    (header0 : EzcHeader) (blocks0 : List Block8x8i16)
    (samples : (Fin 64 → I16) → Fin 64 → U16)
    (hlen : 16 ≤ file.length) (hmagic : file.take 4 = EZC_MAGIC)
    (hv : file[4]? = some EZC_VERSION)
    (hbig : capacity < fieldU16 file 11 * fieldU16 file 13) :
    readEzcAlloc capacity junk file header0 blocks0 = .error Fault.badAlloc
      ∧ decodeAlloc capacity junk samples file = .error Fault.badAlloc :=
  ⟨readEzcAlloc_bad_alloc capacity junk file header0 blocks0 hlen hmagic hv hbig,
    decodeAlloc_bad_alloc capacity junk samples file
      (readEzcAlloc_bad_alloc capacity junk file {} [] hlen hmagic hv hbig)⟩

/-- The file of 16 bytes that announces 65535 x 65535 blocks is a truncated file, and
in a process with memory for 1000000000 blocks `readEzc` and `decode` end with
`std::bad_alloc` on it. -/
theorem readEzc_truncated_bad_alloc_witness :
    16 ≤ hugeCountFile.length
      ∧ hugeCountFile.take 4 = EZC_MAGIC ∧ hugeCountFile[4]? = some EZC_VERSION
      ∧ fieldU16 hugeCountFile 11 * fieldU16 hugeCountFile 13 = 65535 * 65535
      ∧ hugeCountFile.length
          < 16 + 128 * (fieldU16 hugeCountFile 11 * fieldU16 hugeCountFile 13)
      ∧ readEzcAlloc 1000000000 (fun _ => 0) hugeCountFile {} [] = .error Fault.badAlloc
      ∧ decodeAlloc 1000000000 (fun _ => 0) (fun _ _ => 0) hugeCountFile
          = .error Fault.badAlloc :=
  ⟨by decide, by decide, by decide, by decide, by decide,
    readEzc_truncated_bad_alloc 1000000000 (fun _ => 0) hugeCountFile {} [] (fun _ _ => 0)
      (by decide) (by decide) (by decide) (by decide)⟩

/-- Claim C19 as stated is false: rejecting the file with version byte 2, `readEzc` has
stored 2 into the version field of the header of the caller (whatever the memory of the
process); rejecting the file with a truncated block payload, in a process with memory
for the four blocks the file announces, it has replaced the header and the (empty) block
sequence of the caller by the header of the file and the four blocks it tried to read. -/
theorem readEzc_partial_state_counterexample :
    (∃ hdr bs, readEzcAlloc 0 (fun _ => 0) badVersionFile {} [] = .ok (false, hdr, bs)
        ∧ hdr ≠ ({} : EzcHeader))
      ∧ (∃ hdr bs, readEzcAlloc 4 (fun _ => 0) truncatedPayloadFile {} [] = .ok (false, hdr, bs)
        ∧ hdr ≠ ({} : EzcHeader) ∧ bs ≠ []) := by
  constructor
  · refine ⟨_, _, readEzcAlloc_bad_version 0 (fun _ => 0) badVersionFile {} [] 2 (by decide)
      (by decide) (by decide), by decide⟩
  · obtain ⟨hdr, bs, h, _, hw, _, _, _, _, _, hbs⟩ :=
      readEzcAlloc_truncated_payload 4 (fun _ => 0) truncatedPayloadFile {} [] (by decide)
        (by decide) (by decide) (by decide) (by decide)
    refine ⟨hdr, bs, h, ?_, ?_⟩
    · intro hc
      rw [hc] at hw
      revert hw
      decide
    · intro hc
      rw [hc] at hbs
      revert hbs
      decide

/-- Claim C19, amended (state left by a rejected read): a file rejected for a bad magic
number leaves the header and the block sequence of the caller as they were; a file
rejected for an unsupported version leaves them as they were except for the version field,
which holds the byte read; a file rejected for a truncated header leaves the block
sequence as it was; a file with a truncated block payload that announces no more blocks
than the process can allocate is rejected and leaves the seven header fields read from
the file and `blockCountX * blockCountY` blocks in place of the caller's header and
sequence; and `decode` answers every rejection by returning 1 without handing anything
to the image writer.  Nothing is said of the files that announce more blocks than the
process can allocate. -/
theorem readEzc_rejection_state (capacity : Nat) (junk : Nat → U8) (file : List U8)
    (header0 : EzcHeader) (blocks0 : List Block8x8i16) :
    (4 ≤ file.length → file.take 4 ≠ EZC_MAGIC →
        readEzcAlloc capacity junk file header0 blocks0 = .ok (false, header0, blocks0))
      ∧ (∀ v : U8, file.take 4 = EZC_MAGIC → file[4]? = some v → v ≠ EZC_VERSION →
        readEzcAlloc capacity junk file header0 blocks0
          = .ok (false, { header0 with version := v }, blocks0))
      ∧ (file.length < 16 →
        ∃ hdr, readEzcAlloc capacity junk file header0 blocks0 = .ok (false, hdr, blocks0))
      ∧ (16 ≤ file.length → file.take 4 = EZC_MAGIC → file[4]? = some EZC_VERSION →
        file.length < 16 + 128 * (fieldU16 file 11 * fieldU16 file 13) →
        fieldU16 file 11 * fieldU16 file 13 ≤ capacity →
        ∃ hdr bs, readEzcAlloc capacity junk file header0 blocks0 = .ok (false, hdr, bs)
          ∧ hdr.version = EZC_VERSION
          ∧ hdr.width.val = fieldU16 file 5 ∧ hdr.height.val = fieldU16 file 7
          ∧ file[9]? = some hdr.quality ∧ file[10]? = some hdr.blockDim
          ∧ hdr.blockCountX.val = fieldU16 file 11 ∧ hdr.blockCountY.val = fieldU16 file 13
          ∧ bs.length = fieldU16 file 11 * fieldU16 file 13)
      ∧ (∀ (samples : (Fin 64 → I16) → Fin 64 → U16) (hdr : EzcHeader)
          (bs : List Block8x8i16),
        readEzcAlloc capacity junk file {} [] = .ok (false, hdr, bs) →
        decodeAlloc capacity junk samples file = .ok { status := 1, image := none }) :=
  ⟨readEzcAlloc_bad_magic capacity junk file header0 blocks0,
    fun v => readEzcAlloc_bad_version capacity junk file header0 blocks0 v,
    readEzcAlloc_truncated_header capacity junk file header0 blocks0,
    readEzcAlloc_truncated_payload capacity junk file header0 blocks0,
    fun samples hdr bs h => decodeAlloc_of_rejected capacity junk samples file hdr bs h⟩

/-- The four rejected files of the tests, in a process with memory for four blocks: what
each leaves in a header and a block sequence that were `testHeader` and `testBlocks`
before the call, and the answer of `decode`. -/
theorem readEzc_rejection_state_witness :
    readEzcAlloc 4 (fun _ => 0) badMagicFile testHeader testBlocks
        = .ok (false, testHeader, testBlocks)
      ∧ readEzcAlloc 4 (fun _ => 0) badVersionFile testHeader testBlocks
        = .ok (false, { testHeader with version := 2 }, testBlocks)
      ∧ (∃ hdr, readEzcAlloc 4 (fun _ => 0) truncatedHeaderFile testHeader testBlocks
        = .ok (false, hdr, testBlocks))
      ∧ (∃ hdr bs, readEzcAlloc 4 (fun _ => 0) truncatedPayloadFile testHeader testBlocks
          = .ok (false, hdr, bs) ∧ hdr.quality = 75 ∧ hdr.blockDim = 8 ∧ bs.length = 2 * 2)
      ∧ decodeAlloc 4 (fun _ => 0) (fun _ _ => 0) badMagicFile
          = .ok { status := 1, image := none } := by
  have h := readEzc_rejection_state 4 (fun _ => 0)
  refine ⟨(h badMagicFile testHeader testBlocks).1 (by decide) (by decide),
    (h badVersionFile testHeader testBlocks).2.1 2 (by decide) (by decide) (by decide),
    (h truncatedHeaderFile testHeader testBlocks).2.2.1 (by decide), ?_, ?_⟩
  · obtain ⟨hdr, bs, hr, _, _, _, hq, hd, _, _, hbs⟩ :=
      (h truncatedPayloadFile testHeader testBlocks).2.2.2.1 (by decide) (by decide)
        (by decide) (by decide) (by decide)
    refine ⟨hdr, bs, hr, ?_, ?_, hbs⟩
    · exact (Option.some.inj hq).symm
    · exact (Option.some.inj hd).symm
  · exact (h badMagicFile {} []).2.2.2.2 (fun _ _ => 0) _ _
      ((h badMagicFile {} []).1 (by decide) (by decide))

/-! ## The reserved byte -/

theorem readI16_junk (s : IStream) (u0 u1 w0 w1 : U8) (hf : s.fail = false)
    (hl : 2 ≤ s.rest.length) : readI16 s u0 u1 = readI16 s w0 w1 := by
  simp only [readI16, readU16, read_ok s 2 _ hf hl]

theorem readElements_junk (junk1 junk2 : Nat → U8) (n off1 off2 : Nat) (s : IStream)
    (hf : s.fail = false) (hl : 2 * n ≤ s.rest.length) :
    readElements junk1 n off1 s = readElements junk2 n off2 s := by
  induction n generalizing off1 off2 s with
  | zero => rfl
  | succ n ih =>
    simp only [readElements]
    have h1 := readI16_junk s (junk1 off1) (junk1 (off1 + 1)) (junk2 off2) (junk2 (off2 + 1))
      hf (by omega)
    have hok := (readI16_fail_iff s (junk2 off2) (junk2 (off2 + 1))).mpr ⟨hf, by omega⟩
    have hlen := readI16_rest_length s (junk2 off2) (junk2 (off2 + 1)) hok
    rw [h1, ih (off1 + 2) (off2 + 2) _ hok (by omega)]

theorem readBlocks_junk (junk1 junk2 : Nat → U8) (bcx n b : Nat) (s : IStream)
    (hf : s.fail = false) (hl : 128 * n ≤ s.rest.length) :
    readBlocks junk1 bcx n b s = readBlocks junk2 bcx n b s := by
  induction n generalizing b s with
  | zero => rfl
  | succ n ih =>
    simp only [readBlocks]
    have h1 := readElements_junk junk1 junk2 64 (16 + 128 * b) (16 + 128 * b) s hf (by omega)
    obtain ⟨e1, e2⟩ := readElements_fail_iff junk2 64 (16 + 128 * b) s
    have hok := e1.mpr ⟨hf, by omega⟩
    have hlen := e2 hok
    rw [h1, ih (b + 1) _ hok (by omega)]

theorem readEzc_outcome (junk1 junk2 : Nat → U8) (file : List U8) (header0 : EzcHeader)
    (blocks0 : List Block8x8i16) :
    (∃ h1 b1 h2 b2, readEzc junk1 file header0 blocks0 = some (false, h1, b1)
        ∧ readEzc junk2 file header0 blocks0 = some (false, h2, b2))
      ∨ (∃ hdr bs, readEzc junk1 file header0 blocks0 = some (true, hdr, bs)
        ∧ readEzc junk2 file header0 blocks0 = some (true, hdr, bs)) := by
  by_cases hl : file.length < 16
  · obtain ⟨h1, e1⟩ := readEzc_short junk1 file header0 blocks0 hl
    obtain ⟨h2, e2⟩ := readEzc_short junk2 file header0 blocks0 hl
    exact Or.inl ⟨h1, blocks0, h2, blocks0, e1, e2⟩
  · obtain ⟨m0, m1, m2, m3, v, w0, w1, t0, t1, q, d, x0, x1, y0, y1, r, payload, rfl⟩ :=
      exists_cons16 file (by omega)
    rw [readEzc_long, readEzc_long]
    by_cases hm : [m0, m1, m2, m3] ≠ EZC_MAGIC
    · rw [if_pos hm, if_pos hm]
      exact Or.inl ⟨_, _, _, _, rfl, rfl⟩
    · by_cases hv : v ≠ EZC_VERSION
      · rw [if_neg hm, if_pos hv, if_neg hm, if_pos hv]
        exact Or.inl ⟨_, _, _, _, rfl, rfl⟩
      · rw [if_neg hm, if_neg hv, if_neg hm, if_neg hv]
        have hn : (toU16 (x0.val ||| (x1.val <<< 8))).val * (toU16 (y0.val ||| (y1.val <<< 8))).val = 0
            ∨ (toU16 (x0.val ||| (x1.val <<< 8))).val ≠ 0 := by
          by_cases hx : (toU16 (x0.val ||| (x1.val <<< 8))).val = 0
          · left; rw [hx, Nat.zero_mul]
          · exact Or.inr hx
        obtain ⟨rs1, s1, hr1, _, _, hf1⟩ :=
          readBlocks_spec junk1 _ _ 0 { rest := payload, fail := false } hn
        obtain ⟨rs2, s2, hr2, _, _, hf2⟩ :=
          readBlocks_spec junk2 _ _ 0 { rest := payload, fail := false } hn
        by_cases hp : 128 * ((toU16 (x0.val ||| (x1.val <<< 8))).val
            * (toU16 (y0.val ||| (y1.val <<< 8))).val) ≤ payload.length
        · have hsame := readBlocks_junk junk1 junk2 (toU16 (x0.val ||| (x1.val <<< 8))).val
            ((toU16 (x0.val ||| (x1.val <<< 8))).val * (toU16 (y0.val ||| (y1.val <<< 8))).val)
            0 { rest := payload, fail := false } rfl hp
          rw [hr1, hr2] at hsame
          simp only [Option.some.injEq, Prod.mk.injEq] at hsame
          obtain ⟨rfl, rfl⟩ := hsame
          have hs1 : s1.fail = false := hf1.mpr ⟨rfl, hp⟩
          rw [hr1, hr2]
          simp only [hs1, Bool.not_false]
          exact Or.inr ⟨_, _, rfl, rfl⟩
        · have hs1 : s1.fail = true := by
            cases hf : s1.fail
            · exact absurd (hf1.mp hf).2 hp
            · rfl
          have hs2 : s2.fail = true := by
            cases hf : s2.fail
            · exact absurd (hf2.mp hf).2 hp
            · rfl
          rw [hr1, hr2]
          simp only [hs1, hs2, Bool.not_true]
          exact Or.inl ⟨_, _, _, _, rfl, rfl⟩

theorem eq_of_differ_at_15 (f1 f2 : List U8) (hlen : f1.length = f2.length)
    (hsame : ∀ k : Nat, k ≠ 15 → f1[k]? = f2[k]?) (hshort : f1.length < 16) : f1 = f2 := by
  apply List.ext_getElem? 
  intro k
  by_cases hk : k = 15
  · subst hk
    rw [List.getElem?_eq_none (by omega), List.getElem?_eq_none (by omega)]
  · exact hsame k hk

/-- Claim C20 (the reserved byte is ignored on read): for two files of the same length
that agree at every offset other than 15, `readEzc` gives the same outcome, whatever the
content of uninitialised buffers in the two runs: both are rejected, or both are
accepted with the same header and the same block sequence; run with the same content
of uninitialised buffers, the two calls leave exactly the same state. -/
theorem reserved_byte_ignored (junk1 junk2 : Nat → U8) (f1 f2 : List U8)
    (header0 : EzcHeader) (blocks0 : List Block8x8i16)
    (hlen : f1.length = f2.length)
    (hsame : ∀ k : Nat, k ≠ 15 → f1[k]? = f2[k]?) :
    ((∃ h1 b1 h2 b2, readEzc junk1 f1 header0 blocks0 = some (false, h1, b1)
          ∧ readEzc junk2 f2 header0 blocks0 = some (false, h2, b2))
        ∨ (∃ hdr bs, readEzc junk1 f1 header0 blocks0 = some (true, hdr, bs)
          ∧ readEzc junk2 f2 header0 blocks0 = some (true, hdr, bs)))
      ∧ readEzc junk1 f1 header0 blocks0 = readEzc junk1 f2 header0 blocks0 := by
  have key : ∀ junk : Nat → U8,
      readEzc junk f1 header0 blocks0 = readEzc junk f2 header0 blocks0 := by
    intro junk
    by_cases hl : f1.length < 16
    · rw [eq_of_differ_at_15 f1 f2 hlen hsame hl]
    · obtain ⟨m0, m1, m2, m3, v, w0, w1, t0, t1, q, d, x0, x1, y0, y1, r, payload, rfl⟩ :=
        exists_cons16 f1 (by omega)
      obtain ⟨n0, n1, n2, n3, v', a0, a1, c0, c1, q', d', e0, e1, g0, g1, r', payload', rfl⟩ :=
        exists_cons16 f2 (by omega)
      have k0 := hsame 0 (by decide)
      have k1 := hsame 1 (by decide)
      have k2 := hsame 2 (by decide)
      have k3 := hsame 3 (by decide)
      have k4 := hsame 4 (by decide)
      have k5 := hsame 5 (by decide)
      have k6 := hsame 6 (by decide)
      have k7 := hsame 7 (by decide)
      have k8 := hsame 8 (by decide)
      have k9 := hsame 9 (by decide)
      have k10 := hsame 10 (by decide)
      have k11 := hsame 11 (by decide)
      have k12 := hsame 12 (by decide)
      have k13 := hsame 13 (by decide)
      have k14 := hsame 14 (by decide)
      simp only [List.getElem?_cons_succ, List.getElem?_cons_zero, Option.some.injEq]
        at k0 k1 k2 k3 k4 k5 k6 k7 k8 k9 k10 k11 k12 k13 k14
      have hp : payload = payload' := by
        apply List.ext_getElem?
        intro k
        have := hsame (k + 16) (by omega)
        simpa only [List.getElem?_cons_succ] using this
      subst k0 k1 k2 k3 k4 k5 k6 k7 k8 k9 k10 k11 k12 k13 k14 hp
      rw [readEzc_long, readEzc_long]
  refine ⟨?_, key junk1⟩
  rw [key junk1]
  exact readEzc_outcome junk1 junk2 f2 header0 blocks0

/-- The file of the round-trip test and the same file with 255 in place of the reserved
byte are read with the same outcome. -/
theorem reserved_byte_ignored_witness :
    ((writeEzc testHeader testBlocks).length
        = ((writeEzc testHeader testBlocks).set 15 255).length)
      ∧ ((∃ h1 b1 h2 b2,
            readEzc (fun _ => 0) (writeEzc testHeader testBlocks) {} [] = some (false, h1, b1)
              ∧ readEzc (fun _ => 7) ((writeEzc testHeader testBlocks).set 15 255) {} []
                = some (false, h2, b2))
          ∨ (∃ hdr bs,
            readEzc (fun _ => 0) (writeEzc testHeader testBlocks) {} [] = some (true, hdr, bs)
              ∧ readEzc (fun _ => 7) ((writeEzc testHeader testBlocks).set 15 255) {} []
                = some (true, hdr, bs))) :=
  ⟨(List.length_set _ _ _).symm,
    (reserved_byte_ignored (fun _ => 0) (fun _ => 7) (writeEzc testHeader testBlocks)
      ((writeEzc testHeader testBlocks).set 15 255) {} [] (List.length_set _ _ _).symm
      (fun _ hk => (List.getElem?_set_ne (Ne.symm hk)).symm)).1⟩

/-! ## Loops -/

theorem forRange_inv {σ : Type} (body : Nat → σ → Except Fault σ) (P : Nat → σ → Prop)
    (n : Nat) (s0 : σ) (h0 : P 0 s0)
    (hstep : ∀ i s, i < n → P i s → ∃ s1, body i s = .ok s1 ∧ P (i + 1) s1) :
    ∃ s1, forRange body n s0 = .ok s1 ∧ P n s1 := by
  induction n with
  | zero => exact ⟨s0, rfl, h0⟩
  | succ n ih =>
    obtain ⟨s1, h1, hp1⟩ := ih (fun i s hi hp => hstep i s (by omega) hp)
    obtain ⟨s2, h2, hp2⟩ := hstep n s1 (by omega) hp1
    exact ⟨s2, by simp only [forRange, h1, h2], hp2⟩

theorem forStride_inv {σ : Type} (body : Int → σ → Except Fault σ) (limit stride : Int)
    (P : Int → σ → Prop)
    (hstep : ∀ j s, j < limit → P j s → ∃ s1, body j s = .ok s1 ∧ P (j + stride) s1)
    (fuel : Nat) (i : Int) (s : σ) (hfuel : limit - i ≤ (fuel : Int) * stride) (hP : P i s) :
    ∃ j s1, forStride body limit stride fuel i s = .ok s1 ∧ P j s1 ∧ limit ≤ j
      ∧ (i < limit → j < limit + stride) ∧ (¬ i < limit → j = i) := by
  induction fuel generalizing i s with
  | zero =>
    have hni : ¬ i < limit := by
      simp only [Nat.cast_zero, Int.zero_mul] at hfuel
      omega
    exact ⟨i, s, by simp only [forStride, if_neg hni], hP, by omega, fun h => absurd h hni,
      fun _ => rfl⟩
  | succ fuel ih =>
    by_cases hi : i < limit
    · obtain ⟨s1, hb, hp1⟩ := hstep i s hi hP
      have hf2 : limit - (i + stride) ≤ (fuel : Int) * stride := by
        have : ((fuel + 1 : Nat) : Int) * stride = (fuel : Int) * stride + stride := by
          push_cast
          ring
        rw [this] at hfuel
        omega
      obtain ⟨j, s2, hrun, hpj, hlim, hlt, heq⟩ := ih (i + stride) s1 hf2 hp1
      refine ⟨j, s2, by simp only [forStride, if_pos hi, hb, hrun], hpj, hlim, fun _ => ?_,
        fun h => absurd hi h⟩
      by_cases h2 : i + stride < limit
      · exact hlt h2
      · rw [heq h2]
        omega
    · exact ⟨i, s, by simp only [forStride, if_neg hi], hP, by omega, fun h => absurd h hi,
        fun _ => rfl⟩

theorem forEachBlock_ok {α β : Type} (f : α → Except Fault β) (g : α → β) (l : List α)
    (h : ∀ a, a ∈ l → f a = .ok (g a)) : forEachBlock f l = .ok (l.map g) := by
  induction l with
  | nil => rfl
  | cons a l ih =>
    have h1 := h a (List.mem_cons_self a l)
    have h2 := ih (fun b hb => h b (List.mem_cons_of_mem a hb))
    simp only [forEachBlock, h1, h2, List.map_cons]

/-! ## Splitting a raster into blocks -/

theorem dim_pos (Size : TxSize) : 0 < getTxDimension Size := by
  cases Size <;> decide

theorem checkedInt_ok (x : Int) (h1 : -2147483648 ≤ x) (h2 : x ≤ 2147483647) :
    checkedInt x = .ok x := by
  simp only [checkedInt, h1, h2, and_self, if_true]

theorem readSample_ok (data : List U8) (index : Int) (h0 : 0 ≤ index)
    (h1 : index < (data.length : Int)) :
    ∃ v, readSample data index = .ok v ∧ data[index.toNat]? = some v := by
  have hlt : index.toNat < data.length := by omega
  refine ⟨data[index.toNat], ?_, List.getElem?_eq_getElem hlt⟩
  simp only [readSample, if_neg (show ¬ index < 0 by omega), List.getElem?_eq_getElem hlt]

theorem pixel_index_bounds (width height imgX imgY : Int) (hx0 : 0 ≤ imgX) (hy0 : 0 ≤ imgY)
    (hx : imgX < width) (hy : imgY < height) :
    0 ≤ imgY * width + imgX ∧ imgY * width + imgX < width * height := by
  have h1 : 0 ≤ imgY * width := Int.mul_nonneg hy0 (by omega)
  have h2 : (imgY + 1) * width ≤ height * width :=
    Int.mul_le_mul_of_nonneg_right (by omega) (by omega)
  have h3 : (imgY + 1) * width = imgY * width + width := by ring
  have h4 : height * width = width * height := Int.mul_comm _ _
  omega

theorem fillBlock_ok {T : Type} [IntElem T] {Size : TxSize} (width height : Int)
    (data : List U8) (bx by_ : Int) (block : Block T Size)
    (hbx : 0 ≤ bx) (hby : 0 ≤ by_)
    (hsize : width * height ≤ 2147483647)
    (hdata : (data.length : Int) = width * height) :
    ∃ b2, fillBlock width height data bx by_ block = .ok b2
      ∧ b2.blockX = block.blockX ∧ b2.blockY = block.blockY := by
  unfold fillBlock
  apply forRange_inv _ (fun _ (b : Block T Size) =>
    b.blockX = block.blockX ∧ b.blockY = block.blockY) _ _ ⟨rfl, rfl⟩
  intro row b1 hrow hb1
  apply forRange_inv _ (fun _ (b : Block T Size) =>
    b.blockX = block.blockX ∧ b.blockY = block.blockY) _ _ hb1
  intro col b2 hcol hb2
  simp only []
  by_cases hin : bx + (col : Int) < width ∧ by_ + (row : Int) < height
  · rw [if_pos hin]
    obtain ⟨i0, i1⟩ := pixel_index_bounds width height (bx + col) (by_ + row)
      (by omega) (by omega) hin.1 hin.2
    rw [checkedInt_ok _ (by omega) (by omega)]
    obtain ⟨v, hv, _⟩ := readSample_ok data _ i0 (by omega)
    simp only [hv]
    rw [assignAtRowCol_ok b2 row col _ hrow hcol]
    exact ⟨_, rfl, hb2⟩
  · rw [if_neg hin, assignAtRowCol_ok b2 row col _ hrow hcol]
    exact ⟨_, rfl, hb2⟩

theorem ceil_div_eq (w d k : Int) (hd : 0 < d) (h1 : w ≤ k * d) (h2 : k * d < w + d) :
    (w + d - 1) / d = k := by
  apply Int.le_antisymm
  · have : (w + d - 1) / d < k + 1 := by
      rw [Int.ediv_lt_iff_lt_mul hd]
      have : (k + 1) * d = k * d + d := by ring
      omega
    omega
  · rw [Int.le_ediv_iff_mul_le hd]
    omega

theorem ceil_div_bounds (w d : Int) (hd : 0 < d) (hw : 0 < w) :
    0 < (w + d - 1) / d ∧ (w + d - 1) / d ≤ w := by
  constructor
  · have : 1 ≤ (w + d - 1) / d := by
      rw [Int.le_ediv_iff_mul_le hd]
      omega
    omega
  · have : (w + d - 1) / d < w + 1 := by
      rw [Int.ediv_lt_iff_lt_mul hd]
      have h1 : (w + 1) * d = w * d + d := by ring
      have h2 : w ≤ w * d := by nlinarith
      omega
    omega

theorem toNat_fuel (limit d : Int) (hd : 0 < d) :
    limit - 0 ≤ ((limit.toNat : Nat) : Int) * d := by
  by_cases hl : 0 ≤ limit
  · rw [Int.toNat_of_nonneg hl]
    nlinarith
  · have h0 : 0 ≤ ((limit.toNat : Nat) : Int) * d := Int.mul_nonneg (by omega) (by omega)
    omega

theorem splitRowStep_ok {T : Type} [IntElem T] {Size : TxSize} (width height : Int)
    (data : List U8) (by_ : Int) (st : Int × List (Block T Size))
    (hw : 0 < width) (hby : 0 ≤ by_)
    (hsize : width * height ≤ 2147483647)
    (hdata : (data.length : Int) = width * height) :
    ∃ st1, splitRowStep width height data by_ st = .ok st1 ∧ st1.1 = st.1 + 1
      ∧ (st1.2.length : Int) = (st.2.length : Int)
          + (width + (getTxDimension Size : Int) - 1) / (getTxDimension Size : Int) := by
  have hd : (0 : Int) < (getTxDimension Size : Int) := by exact_mod_cast dim_pos Size
  obtain ⟨j2, st2, hrun2, ⟨hj2, hst20, hlen2⟩, hlim2, hlt2, _⟩ :=
    forStride_inv (splitColumnStep width height data by_ st.1) width
      (getTxDimension Size : Int)
      (fun j2 (st2 : Int × List (Block T Size)) =>
        j2 = st2.1 * (getTxDimension Size : Int) ∧ 0 ≤ st2.1
          ∧ (st2.2.length : Int) = (st.2.length : Int) + st2.1)
      (by
        intro j2 st2 hj2lt ⟨hj2, hst20, hlen2⟩
        have hj20 : 0 ≤ j2 := by rw [hj2]; exact Int.mul_nonneg hst20 (by omega)
        obtain ⟨b2, hb2, _⟩ := fillBlock_ok width height data j2 by_
          (Block.new st2.1 st.1 : Block T Size) hj20 hby hsize hdata
        refine ⟨(st2.1 + 1, st2.2 ++ [b2]), by simp only [splitColumnStep, hb2], ?_, by omega, ?_⟩
        · simp only
          rw [hj2]
          ring
        · simp only [List.length_append, List.length_singleton]
          push_cast
          omega)
      width.toNat 0 (0, st.2) (toNat_fuel width _ hd)
      ⟨by simp, by simp, by simp⟩
  have hlt2' := hlt2 hw
  have hk : (width + (getTxDimension Size : Int) - 1) / (getTxDimension Size : Int) = st2.1 :=
    ceil_div_eq width _ st2.1 hd (by omega) (by omega)
  refine ⟨(st.1 + 1, st2.2), by simp only [splitRowStep, hrun2], rfl, ?_⟩
  simp only
  rw [hlen2, hk]

theorem splitIntoBlocks_ok (T : Type) [IntElem T] (Size : TxSize) (width height : Int)
    (data : List U8) (hw : 0 < width) (hh : 0 < height)
    (hsize : width * height ≤ 2147483647)
    (hdata : (data.length : Int) = width * height) :
    ∃ blocks, splitIntoBlocks T Size width height data = .ok blocks
      ∧ (blocks.length : Int)
          = ((height + (getTxDimension Size : Int) - 1) / (getTxDimension Size : Int))
            * ((width + (getTxDimension Size : Int) - 1) / (getTxDimension Size : Int)) := by
  have hd : (0 : Int) < (getTxDimension Size : Int) := by exact_mod_cast dim_pos Size
  obtain ⟨cx0, cx1⟩ := ceil_div_bounds width _ hd hw
  obtain ⟨cy0, cy1⟩ := ceil_div_bounds height _ hd hh
  have hprod : ((width + (getTxDimension Size : Int) - 1) / (getTxDimension Size : Int))
      * ((height + (getTxDimension Size : Int) - 1) / (getTxDimension Size : Int))
      ≤ width * height :=
    Int.mul_le_mul cx1 cy1 (by omega) (by omega)
  have hprod0 : 0 ≤ ((width + (getTxDimension Size : Int) - 1) / (getTxDimension Size : Int))
      * ((height + (getTxDimension Size : Int) - 1) / (getTxDimension Size : Int)) :=
    Int.mul_nonneg (by omega) (by omega)
  obtain ⟨j, st1, hrun, ⟨hj, hst0, hlen⟩, hlim, hlt, _⟩ :=
    forStride_inv (splitRowStep width height data) height (getTxDimension Size : Int)
      (fun j (st : Int × List (Block T Size)) =>
        j = st.1 * (getTxDimension Size : Int) ∧ 0 ≤ st.1
          ∧ (st.2.length : Int)
            = st.1 * ((width + (getTxDimension Size : Int) - 1) / (getTxDimension Size : Int)))
      (by
        intro j st hjlt ⟨hj, hst0, hlen⟩
        have hj0 : 0 ≤ j := by rw [hj]; exact Int.mul_nonneg hst0 (by omega)
        obtain ⟨st2, hstep, h1, h2⟩ := splitRowStep_ok width height data j st hw hj0 hsize hdata
        refine ⟨st2, hstep, ?_, by omega, ?_⟩
        · rw [h1, hj]
          ring
        · rw [h2, hlen, h1]
          ring)
      height.toNat 0 (0, []) (toNat_fuel height _ hd)
      ⟨by simp, by simp, by simp⟩
  have hlt' := hlt hh
  have hk : (height + (getTxDimension Size : Int) - 1) / (getTxDimension Size : Int) = st1.1 :=
    ceil_div_eq height _ st1.1 hd (by omega) (by omega)
  refine ⟨st1.2, ?_, ?_⟩
  · unfold splitIntoBlocks
    simp only []
    rw [Int.tdiv_eq_ediv (by omega) (by omega), Int.tdiv_eq_ediv (by omega) (by omega),
      checkedInt_ok _ (by omega) (by omega)]
    simp only [hrun]
  · rw [hlen, hk]

/-! ## Header assembled by `encode` -/

theorem quantizeTask_ok (quality : Int) (block : Block8x8i16) :
    quantizeTask quality block
      = .ok ((quantize block (Block.new block.getBlockX block.getBlockY : Block8x8i16)
          quality).getD (Block.new block.getBlockX block.getBlockY)) := by
  unfold quantizeTask
  rw [quantize_8x8]
  rfl

theorem encode_ok (coefficients : (Fin 64 → U16) → Fin 64 → I16) (r : RawImage)
    (quality : Int) (hr : r.WellFormed) :
    ∃ blocks : List Block8x8i16,
      encode coefficients (some r) quality
        = .ok { status := 0,
                written := some
                  ({ version := 1,
                     width := intToU16 r.width,
                     height := intToU16 r.height,
                     quality := intToU8 quality,
                     blockDim := intToU8 8,
                     blockCountX := intToU16 (Int.tdiv (r.width + 8 - 1) 8),
                     blockCountY := intToU16 (Int.tdiv (r.height + 8 - 1) 8) }, blocks) }
      ∧ (blocks.length : Int) = ((r.height + 8 - 1) / 8) * ((r.width + 8 - 1) / 8) := by
  obtain ⟨hw0, hw1, hh0, hh1, hc, hsize, hdata⟩ := hr
  obtain ⟨blocks0, hsplit, hcount⟩ :=
    splitIntoBlocks_ok U16 TxSize.TX_8x8 r.width r.height r.samples hw0 hh0 hsize hdata
  have hvalid : Picture.isValid ⟨r.width, r.height, r.channels, some r.samples, blocks0⟩
      = true := by
    simp [Picture.isValid, hw0, hh0, hc]
  refine ⟨(blocks0.map (fun block =>
      forwardDCT coefficients block (Block.new block.getBlockX block.getBlockY))).map
      (fun (block : Block8x8i16) =>
        (quantize block (Block.new block.getBlockX block.getBlockY : Block8x8i16) quality).getD
          (Block.new block.getBlockX block.getBlockY)), ?_, ?_⟩
  · simp only [encode, Picture.load, hsplit, hvalid, Bool.not_true, Bool.false_eq_true, if_false]
    rw [forEachBlock_ok _ _ _ (fun a _ => quantizeTask_ok quality a)]
  · simp only [List.length_map]
    exact hcount

theorem intToU16_of_range (x : Int) (h0 : 0 ≤ x) (h1 : x ≤ 65535) :
    ((intToU16 x).val : Int) = x := by
  simp only [intToU16]
  omega

theorem intToU8_of_range (x : Int) (h0 : 0 ≤ x) (h1 : x ≤ 255) :
    ((intToU8 x).val : Int) = x := by
  simp only [intToU8]
  omega

theorem ceil_eighth (w : Int) : ⌈(w : ℚ) / 8⌉ = (w + 8 - 1) / 8 := by
  rw [Int.ceil_eq_iff]
  have h1 : 8 * ((w + 8 - 1) / 8) ≤ w + 8 - 1 := Int.mul_ediv_self_le (by decide)
  have h2 : w + 8 - 1 < 8 * ((w + 8 - 1) / 8) + 8 := Int.lt_mul_ediv_self_add (by decide)
  have h1q : (8 : ℚ) * (((w + 8 - 1) / 8 : Int) : ℚ) ≤ (w : ℚ) + 8 - 1 := by exact_mod_cast h1
  have h2q : (w : ℚ) + 8 - 1 < 8 * (((w + 8 - 1) / 8 : Int) : ℚ) + 8 := by exact_mod_cast h2
  have h3 : w ≤ 8 * ((w + 8 - 1) / 8) := by omega
  have h3q : (w : ℚ) ≤ 8 * (((w + 8 - 1) / 8 : Int) : ℚ) := by exact_mod_cast h3
  constructor
  · linarith
  · linarith

/-- Claim C13 (header block-count invariant): for every raster the image loader can
return, of width `w` and height `h` with `1 <= w, h <= 65535`, `encode` reaches
`writeEzc` with a header that has `width = w`, `height = h`, `blockDim = 8`,
`blockCountX = ceil(w / 8)` and `blockCountY = ceil(h / 8)`, and with exactly
`blockCountX * blockCountY` blocks. -/
theorem encode_header_block_counts (coefficients : (Fin 64 → U16) → Fin 64 → I16)
    (r : RawImage) (quality : Int) (hr : r.WellFormed)
    (hw : r.width ≤ 65535) (hh : r.height ≤ 65535) :
    ∃ hdr blocks,
      encode coefficients (some r) quality = .ok { status := 0, written := some (hdr, blocks) }
        ∧ (hdr.width.val : Int) = r.width ∧ (hdr.height.val : Int) = r.height
        ∧ hdr.blockDim.val = 8
        ∧ (hdr.blockCountX.val : Int) = ⌈(r.width : ℚ) / 8⌉
        ∧ (hdr.blockCountY.val : Int) = ⌈(r.height : ℚ) / 8⌉
        ∧ blocks.length = hdr.blockCountX.val * hdr.blockCountY.val := by
  obtain ⟨blocks, henc, hcount⟩ := encode_ok coefficients r quality hr
  obtain ⟨hw0, hw1, hh0, hh1, hc, hsize, hdata⟩ := hr
  have ex : Int.tdiv (r.width + 8 - 1) 8 = (r.width + 8 - 1) / 8 :=
    Int.tdiv_eq_ediv (by omega) (by decide)
  have ey : Int.tdiv (r.height + 8 - 1) 8 = (r.height + 8 - 1) / 8 :=
    Int.tdiv_eq_ediv (by omega) (by decide)
  have hx := intToU16_of_range ((r.width + 8 - 1) / 8) (by omega) (by omega)
  have hy := intToU16_of_range ((r.height + 8 - 1) / 8) (by omega) (by omega)
  refine ⟨_, blocks, henc, intToU16_of_range _ (by omega) hw,
    intToU16_of_range _ (by omega) hh, rfl, ?_, ?_, ?_⟩
  · simp only [ex, hx, ceil_eighth]
  · simp only [ey, hy, ceil_eighth]
  · simp only [ex, ey]
    have : ((blocks.length : Nat) : Int)
        = (((intToU16 ((r.width + 8 - 1) / 8)).val * (intToU16 ((r.height + 8 - 1) / 8)).val : Nat) : Int) := by
      push_cast
      rw [hx, hy, hcount]
      ring
    exact_mod_cast this

/-- The header and the number of blocks for the 10 x 9 raster of the tests. -/
theorem encode_header_block_counts_witness :
    testRaster.WellFormed ∧ testRaster.width ≤ 65535 ∧ testRaster.height ≤ 65535
      ∧ ∃ hdr blocks,
        encode zeroCoefficients (some testRaster) 75
            = .ok { status := 0, written := some (hdr, blocks) }
          ∧ (hdr.width.val : Int) = testRaster.width
          ∧ (hdr.height.val : Int) = testRaster.height
          ∧ hdr.blockDim.val = 8
          ∧ (hdr.blockCountX.val : Int) = ⌈(testRaster.width : ℚ) / 8⌉
          ∧ (hdr.blockCountY.val : Int) = ⌈(testRaster.height : ℚ) / 8⌉
          ∧ blocks.length = hdr.blockCountX.val * hdr.blockCountY.val :=
  ⟨by decide, by decide, by decide,
    encode_header_block_counts zeroCoefficients testRaster 75 (by decide) (by decide)
      (by decide)⟩

theorem clamp_idem (q : Int) : clamp (clamp q 1 100) 1 100 = clamp q 1 100 := by
  unfold clamp
  split_ifs <;> omega

theorem getQuantizationValue_clamp (i : Fin 64) (q : Int) :
    getQuantizationValue i (clamp q 1 100) = getQuantizationValue i q := by
  simp only [getQuantizationValue, getScaleFactor, clamp_idem]

/-- Claim C12 as stated is false: it is not the case that for every quality argument the
header `encode` assembles stores the clamped quality (with the argument 300 it stores 44,
not 100). -/
theorem encode_quality_counterexample :
    ¬ ∀ (coefficients : (Fin 64 → U16) → Fin 64 → I16) (r : RawImage) (quality : Int)
        (hdr : EzcHeader) (blocks : List Block8x8i16), r.WellFormed →
        encode coefficients (some r) quality
          = .ok { status := 0, written := some (hdr, blocks) } →
        (hdr.quality.val : Int) = clamp quality 1 100 := by
  intro h
  obtain ⟨blocks, henc, _⟩ := encode_ok zeroCoefficients testRaster 300 (by decide)
  have := h zeroCoefficients testRaster 300 _ blocks (by decide) henc
  revert this
  decide

/-- Claim C12, amended (the header stores the quality argument as a byte, and `main`
clamps the argument): the quality field of the header `encode` assembles is the quality
argument converted to `uint8_t`; for an argument in `[1, 100]` that is the argument
itself, which is its clamped value; and on the path through `main`, which clamps the
quality of the command line before it calls `encode`, the header stores the clamped
quality for every integer, and the quantization values computed from the stored quality
are those computed from the quality the quantizer was given. -/
theorem encode_header_quality (coefficients : (Fin 64 → U16) → Fin 64 → I16)
    (r : RawImage) (quality : Int) (hr : r.WellFormed) :
    (∃ hdr blocks,
        encode coefficients (some r) quality
            = .ok { status := 0, written := some (hdr, blocks) }
          ∧ hdr.quality = intToU8 quality
          ∧ (1 ≤ quality → quality ≤ 100 →
              (hdr.quality.val : Int) = quality ∧ (hdr.quality.val : Int) = clamp quality 1 100))
      ∧ (∃ hdr blocks,
        mainEncode coefficients (some r) quality
            = .ok { status := 0, written := some (hdr, blocks) }
          ∧ (hdr.quality.val : Int) = clamp quality 1 100
          ∧ ∀ i : Fin 64, getQuantizationValue i (hdr.quality.val : Int)
              = getQuantizationValue i quality) := by
  constructor
  · obtain ⟨blocks, henc, _⟩ := encode_ok coefficients r quality hr
    refine ⟨_, blocks, henc, rfl, fun h1 h2 => ?_⟩
    have := intToU8_of_range quality (by omega) (by omega)
    refine ⟨this, ?_⟩
    rw [this]
    unfold clamp
    split_ifs <;> omega
  · obtain ⟨blocks, henc, _⟩ := encode_ok coefficients r (clamp quality 1 100) hr
    obtain ⟨c1, c2⟩ := clamp_bounds quality
    have hq := intToU8_of_range (clamp quality 1 100) (by omega) (by omega)
    refine ⟨_, blocks, henc, hq, fun i => ?_⟩
    simp only [hq]
    exact getQuantizationValue_clamp i quality

/-- The header quality for the raster of the tests: 75 is stored as 75 by `encode`, and
300, given on the command line, is stored as 100. -/
theorem encode_header_quality_witness :
    testRaster.WellFormed
      ∧ (∃ hdr blocks,
        encode zeroCoefficients (some testRaster) 75
            = .ok { status := 0, written := some (hdr, blocks) }
          ∧ (hdr.quality.val : Int) = 75)
      ∧ (∃ hdr blocks,
        mainEncode zeroCoefficients (some testRaster) 300
            = .ok { status := 0, written := some (hdr, blocks) }
          ∧ (hdr.quality.val : Int) = clamp 300 1 100) := by
  have h75 := (encode_header_quality zeroCoefficients testRaster 75 (by decide)).1
  have h300 := (encode_header_quality zeroCoefficients testRaster 300 (by decide)).2
  obtain ⟨hdr, blocks, henc, _, hq⟩ := h75
  obtain ⟨hdr2, blocks2, henc2, hq2, _⟩ := h300
  exact ⟨by decide, ⟨hdr, blocks, henc, (hq (by decide) (by decide)).1⟩,
    ⟨hdr2, blocks2, henc2, hq2⟩⟩

/-! ## Monotonicity in the quality -/

theorem getScaleFactor_succ_le : ∀ n : Fin 100,
    getScaleFactor ((n.val : Int) + 1) ≤ getScaleFactor (n.val : Int) := by
  decide

theorem getScaleFactor_antitone_nat (a : Nat) :
    ∀ b : Nat, a ≤ b → b ≤ 100 → getScaleFactor (b : Int) ≤ getScaleFactor (a : Int) := by
  intro b
  induction b with
  | zero =>
    intro h _
    have : a = 0 := by omega
    subst this
    exact le_refl _
  | succ k ih =>
    intro h1 h2
    rcases Nat.eq_or_lt_of_le h1 with h | h
    · subst h
      exact le_refl _
    · have hk := getScaleFactor_succ_le ⟨k, by omega⟩
      have := ih (by omega) (by omega)
      simp only [Nat.cast_add, Nat.cast_one] at hk ⊢
      omega

theorem getScaleFactor_clamp (q : Int) : getScaleFactor (clamp q 1 100) = getScaleFactor q := by
  simp only [getScaleFactor, clamp_idem]

theorem getScaleFactor_antitone (q1 q2 : Int) (h : q1 ≤ q2) :
    getScaleFactor q2 ≤ getScaleFactor q1 := by
  rw [← getScaleFactor_clamp q1, ← getScaleFactor_clamp q2]
  obtain ⟨a1, a2⟩ := clamp_bounds q1
  obtain ⟨b1, b2⟩ := clamp_bounds q2
  have hc : clamp q1 1 100 ≤ clamp q2 1 100 := by
    rw [clamp_eq, clamp_eq]
    omega
  have := getScaleFactor_antitone_nat (clamp q1 1 100).toNat (clamp q2 1 100).toNat
    (by omega) (by omega)
  rwa [Int.toNat_of_nonneg (by omega), Int.toNat_of_nonneg (by omega)] at this

theorem getQuantizationValue_antitone (i : Fin 64) (q1 q2 : Int) (h : q1 ≤ q2) :
    getQuantizationValue i q2 ≤ getQuantizationValue i q1 := by
  have hs := getScaleFactor_antitone q1 q2 h
  obtain ⟨ht, _⟩ := table_bounds i
  rw [getQuantizationValue_eq, getQuantizationValue_eq]
  have hm : JPEG_LUMINANCE_QUANTIZATION_TABLE.getD i.val 0 * getScaleFactor q2
      ≤ JPEG_LUMINANCE_QUANTIZATION_TABLE.getD i.val 0 * getScaleFactor q1 :=
    Int.mul_le_mul_of_nonneg_left hs (by omega)
  have hd : (JPEG_LUMINANCE_QUANTIZATION_TABLE.getD i.val 0 * getScaleFactor q2 + 50) / 100
      ≤ (JPEG_LUMINANCE_QUANTIZATION_TABLE.getD i.val 0 * getScaleFactor q1 + 50) / 100 :=
    Int.ediv_le_ediv (by decide) (by omega)
  omega

/-- Claim C27 (quality is monotone): for all integers `q1 ≤ q2`,
`getScaleFactor q1 ≥ getScaleFactor q2`, and for every table index `i` in `0..63`,
`getQuantizationValue i q1 ≥ getQuantizationValue i q2`. -/
theorem quality_monotone (q1 q2 : Int) (h : q1 ≤ q2) :
    getScaleFactor q1 ≥ getScaleFactor q2
      ∧ ∀ i : Fin 64, getQuantizationValue i q1 ≥ getQuantizationValue i q2 :=
  ⟨getScaleFactor_antitone q1 q2 h, fun i => getQuantizationValue_antitone i q1 q2 h⟩

/-- Monotonicity across the switch of formula: the scale factor is 102 at quality 49 and
100 at quality 50. -/
theorem quality_monotone_witness :
    (49 : Int) ≤ 50 ∧ getScaleFactor 49 = 102 ∧ getScaleFactor 50 = 100
      ∧ (getScaleFactor 49 ≥ getScaleFactor 50
        ∧ ∀ i : Fin 64, getQuantizationValue i 49 ≥ getQuantizationValue i 50) :=
  ⟨by decide, by decide, by decide, quality_monotone 49 50 (by decide)⟩

/-! ## Scalar quantization of the sizes other than 8x8 -/

theorem fillBlock_spec {T : Type} [IntElem T] {Size : TxSize} (width height : Int)
    (data : List U8) (bx by_ : Int) (block : Block T Size)
    (hbx : 0 ≤ bx) (hby : 0 ≤ by_)
    (hsize : width * height ≤ 2147483647)
    (hdata : (data.length : Int) = width * height) :
    fillBlock width height data bx by_ block
      = .ok ⟨block.blockX, block.blockY, fun i =>
          paddedSample T width height data (bx + ((i.val % getTxDimension Size : Nat) : Int))
            (by_ + ((i.val / getTxDimension Size : Nat) : Int))⟩ := by
  have hd := dim_pos Size
  have key : ∃ b2, fillBlock width height data bx by_ block = .ok b2
      ∧ b2.blockX = block.blockX ∧ b2.blockY = block.blockY
      ∧ ∀ i : Fin (getTxElementCount Size), i.val < getTxDimension Size * getTxDimension Size →
          b2.data i = paddedSample T width height data
            (bx + ((i.val % getTxDimension Size : Nat) : Int))
            (by_ + ((i.val / getTxDimension Size : Nat) : Int)) := by
    unfold fillBlock
    apply forRange_inv _ (fun r (b : Block T Size) =>
      b.blockX = block.blockX ∧ b.blockY = block.blockY
        ∧ ∀ i : Fin (getTxElementCount Size), i.val < r * getTxDimension Size →
            b.data i = paddedSample T width height data
              (bx + ((i.val % getTxDimension Size : Nat) : Int))
              (by_ + ((i.val / getTxDimension Size : Nat) : Int))) _ _
      ⟨rfl, rfl, fun i hi => by omega⟩
    intro row b1 hrow hb1
    have hinner : ∃ b2, forRange (fun col (block : Block T Size) =>
          if bx + (col : Int) < width ∧ by_ + (row : Int) < height then
            match checkedInt ((by_ + (row : Int)) * width + (bx + (col : Int))) with
            | .ok index =>
              match readSample data index with
              | .ok v => block.assignAtRowCol row col (IntElem.ofInt (v.val : Int))
              | .error e => .error e
            | .error e => .error e
          else block.assignAtRowCol row col IntElem.zero) (getTxDimension Size) b1 = .ok b2
        ∧ b2.blockX = block.blockX ∧ b2.blockY = block.blockY
        ∧ ∀ i : Fin (getTxElementCount Size),
            i.val < row * getTxDimension Size + getTxDimension Size →
            b2.data i = paddedSample T width height data
              (bx + ((i.val % getTxDimension Size : Nat) : Int))
              (by_ + ((i.val / getTxDimension Size : Nat) : Int)) := by
      apply forRange_inv _ (fun c (b : Block T Size) =>
        b.blockX = block.blockX ∧ b.blockY = block.blockY
          ∧ ∀ i : Fin (getTxElementCount Size), i.val < row * getTxDimension Size + c →
              b.data i = paddedSample T width height data
                (bx + ((i.val % getTxDimension Size : Nat) : Int))
                (by_ + ((i.val / getTxDimension Size : Nat) : Int))) _ _
        ⟨hb1.1, hb1.2.1, fun i hi => hb1.2.2 i (by omega)⟩
      intro col b2 hcol ⟨hx, hy, hb2⟩
      have hmod : (row * getTxDimension Size + col) % getTxDimension Size = col := by
        rw [Nat.add_comm, Nat.add_mul_mod_self_right, Nat.mod_eq_of_lt hcol]
      have hdiv : (row * getTxDimension Size + col) / getTxDimension Size = row := by
        rw [Nat.add_comm, Nat.add_mul_div_right _ _ hd, Nat.div_eq_of_lt hcol, Nat.zero_add]
      have hnew : ∀ v : T,
          v = paddedSample T width height data (bx + (col : Int)) (by_ + (row : Int)) →
          ∃ s1, b2.assignAtRowCol row col v = .ok s1
            ∧ s1.blockX = block.blockX ∧ s1.blockY = block.blockY
            ∧ ∀ i : Fin (getTxElementCount Size), i.val < row * getTxDimension Size + (col + 1) →
                s1.data i = paddedSample T width height data
                  (bx + ((i.val % getTxDimension Size : Nat) : Int))
                  (by_ + ((i.val / getTxDimension Size : Nat) : Int)) := by
        intro v hv
        rw [assignAtRowCol_ok b2 row col _ hrow hcol]
        refine ⟨_, rfl, hx, hy, fun i hi => ?_⟩
        by_cases hic : i.val = row * getTxDimension Size + col
        · have hfin : i = ⟨row * getTxDimension Size + col,
              (rowcol_index_lt Size row col hrow hcol).2⟩ := Fin.ext hic
          rw [hfin]
          simp only [Function.update_same, hmod, hdiv]
          exact hv
        · have hne : i ≠ ⟨row * getTxDimension Size + col,
              (rowcol_index_lt Size row col hrow hcol).2⟩ := fun h => hic (congrArg Fin.val h)
          simp only [Function.update_noteq hne]
          exact hb2 i (by omega)
      by_cases hin : bx + (col : Int) < width ∧ by_ + (row : Int) < height
      · rw [if_pos hin]
        obtain ⟨i0, i1⟩ := pixel_index_bounds width height (bx + col) (by_ + row)
          (by omega) (by omega) hin.1 hin.2
        rw [checkedInt_ok _ (by omega) (by omega)]
        obtain ⟨v, hv, hget⟩ := readSample_ok data _ i0 (by omega)
        simp only [hv]
        apply hnew
        simp only [paddedSample, if_pos hin, List.getD_eq_getElem?_getD, hget, Option.getD_some]
      · rw [if_neg hin]
        apply hnew
        simp only [paddedSample, if_neg hin]
    obtain ⟨b2, h2, hx2, hy2, hd2⟩ := hinner
    exact ⟨b2, h2, hx2, hy2, fun i hi => hd2 i (by
      have : (row + 1) * getTxDimension Size
          = row * getTxDimension Size + getTxDimension Size := by ring
      omega)⟩
  obtain ⟨b2, h2, hx2, hy2, hd2⟩ := key
  rw [h2]
  congr 1
  obtain ⟨x2, y2, d2⟩ := b2
  simp only at hx2 hy2 hd2
  subst hx2 hy2
  congr 1
  funext i
  exact hd2 i (by
    have h1 := i.isLt
    have h2 := count_eq_dim_sq Size
    rw [sq] at h2
    omega)

theorem splitRowStep_spec {T : Type} [IntElem T] {Size : TxSize} (width height : Int)
    (data : List U8) (by_ : Int) (st : Int × List (Block T Size))
    (hw : 0 < width) (hby : 0 ≤ by_)
    (hsize : width * height ≤ 2147483647)
    (hdata : (data.length : Int) = width * height) :
    splitRowStep width height data by_ st
      = .ok (st.1 + 1, st.2 ++ (List.range
          ((width + (getTxDimension Size : Int) - 1) / (getTxDimension Size : Int)).toNat).map
          (fun (c : Nat) => (⟨(c : Int), st.1, fun i =>
            paddedSample T width height data
              ((c : Int) * (getTxDimension Size : Int) + ((i.val % getTxDimension Size : Nat) : Int))
              (by_ + ((i.val / getTxDimension Size : Nat) : Int))⟩ : Block T Size))) := by
  have hd : (0 : Int) < (getTxDimension Size : Int) := by exact_mod_cast dim_pos Size
  obtain ⟨j2, st2, hrun2, ⟨hj2, hst20, hlen2⟩, hlim2, hlt2, _⟩ :=
    forStride_inv (splitColumnStep width height data by_ st.1) width
      (getTxDimension Size : Int)
      (fun j2 (st2 : Int × List (Block T Size)) =>
        j2 = st2.1 * (getTxDimension Size : Int) ∧ 0 ≤ st2.1
          ∧ st2.2 = st.2 ++ (List.range st2.1.toNat).map
            (fun (c : Nat) => (⟨(c : Int), st.1, fun i =>
              paddedSample T width height data
                ((c : Int) * (getTxDimension Size : Int)
                  + ((i.val % getTxDimension Size : Nat) : Int))
                (by_ + ((i.val / getTxDimension Size : Nat) : Int))⟩ : Block T Size)))
      (by
        intro j2 st2 hj2lt ⟨hj2, hst20, hlen2⟩
        have hj20 : 0 ≤ j2 := by rw [hj2]; exact Int.mul_nonneg hst20 (by omega)
        have hb2 := fillBlock_spec width height data j2 by_
          (Block.new st2.1 st.1 : Block T Size) hj20 hby hsize hdata
        have hcs : splitColumnStep width height data by_ st.1 j2 st2
            = .ok (st2.1 + 1, st2.2 ++ [(⟨st2.1, st.1, fun i =>
                paddedSample T width height data
                  (j2 + ((i.val % getTxDimension Size : Nat) : Int))
                  (by_ + ((i.val / getTxDimension Size : Nat) : Int))⟩ : Block T Size)]) := by
          simp only [splitColumnStep, hb2]
          rfl
        refine ⟨_, hcs, ?_, by simp only; omega, ?_⟩
        · simp only
          rw [hj2]
          ring
        · simp only
          have hn : (st2.1 + 1).toNat = st2.1.toNat + 1 := by omega
          rw [hn, List.range_succ, List.map_append, ← List.append_assoc, ← hlen2]
          simp only [List.map_cons, List.map_nil]
          rw [Int.toNat_of_nonneg hst20, hj2])
      width.toNat 0 (0, st.2) (toNat_fuel width _ hd)
      ⟨by simp, by simp, by simp⟩
  have hlt2' := hlt2 hw
  have hk : (width + (getTxDimension Size : Int) - 1) / (getTxDimension Size : Int) = st2.1 :=
    ceil_div_eq width _ st2.1 hd (by omega) (by omega)
  simp only [splitRowStep, hrun2]
  rw [hlen2, hk]

theorem range_succ_mul (n m : Nat) :
    List.range ((n + 1) * m) = List.range (n * m) ++ (List.range m).map (fun c => n * m + c) := by
  have : (n + 1) * m = n * m + m := by ring
  rw [this, List.range_add]

theorem rasterBlock_row {T : Type} [IntElem T] (Size : TxSize) (width height : Int)
    (data : List U8) (n m c : Nat) (hc : c < m)
    (hm : (width + (getTxDimension Size : Int) - 1) / (getTxDimension Size : Int) = (m : Int)) :
    rasterBlock T Size width height data (n * m + c)
      = ⟨(c : Int), (n : Int), fun i =>
          paddedSample T width height data
            ((c : Int) * (getTxDimension Size : Int) + ((i.val % getTxDimension Size : Nat) : Int))
            ((n : Int) * (getTxDimension Size : Int)
              + ((i.val / getTxDimension Size : Nat) : Int))⟩ := by
  have h1 : ((n * m + c : Nat) : Int) % (m : Int) = (c : Int) := by
    have : (n * m + c) % m = c := by
      rw [Nat.add_comm, Nat.add_mul_mod_self_right, Nat.mod_eq_of_lt hc]
    exact_mod_cast this
  have h2 : ((n * m + c : Nat) : Int) / (m : Int) = (n : Int) := by
    have : (n * m + c) / m = n := by
      rw [Nat.add_comm, Nat.add_mul_div_right _ _ (by omega), Nat.div_eq_of_lt hc, Nat.zero_add]
    exact_mod_cast this
  simp only [rasterBlock, hm, h1, h2]

theorem splitIntoBlocks_spec (T : Type) [IntElem T] (Size : TxSize) (width height : Int)
    (data : List U8) (hw : 0 < width) (hh : 0 < height)
    (hsize : width * height ≤ 2147483647)
    (hdata : (data.length : Int) = width * height) :
    splitIntoBlocks T Size width height data
      = .ok ((List.range
          (((height + (getTxDimension Size : Int) - 1) / (getTxDimension Size : Int)).toNat
            * ((width + (getTxDimension Size : Int) - 1) / (getTxDimension Size : Int)).toNat)).map
          (rasterBlock T Size width height data)) := by
  have hd : (0 : Int) < (getTxDimension Size : Int) := by exact_mod_cast dim_pos Size
  obtain ⟨cx0, cx1⟩ := ceil_div_bounds width _ hd hw
  obtain ⟨cy0, cy1⟩ := ceil_div_bounds height _ hd hh
  have hprod : ((width + (getTxDimension Size : Int) - 1) / (getTxDimension Size : Int))
      * ((height + (getTxDimension Size : Int) - 1) / (getTxDimension Size : Int))
      ≤ width * height :=
    Int.mul_le_mul cx1 cy1 (by omega) (by omega)
  have hprod0 : 0 ≤ ((width + (getTxDimension Size : Int) - 1) / (getTxDimension Size : Int))
      * ((height + (getTxDimension Size : Int) - 1) / (getTxDimension Size : Int)) :=
    Int.mul_nonneg (by omega) (by omega)
  have hm : (width + (getTxDimension Size : Int) - 1) / (getTxDimension Size : Int)
      = ((((width + (getTxDimension Size : Int) - 1) / (getTxDimension Size : Int)).toNat : Nat)
          : Int) := (Int.toNat_of_nonneg (by omega)).symm
  obtain ⟨j, st1, hrun, ⟨hj, hst0, hlen⟩, hlim, hlt, _⟩ :=
    forStride_inv (splitRowStep width height data) height (getTxDimension Size : Int)
      (fun j (st : Int × List (Block T Size)) =>
        j = st.1 * (getTxDimension Size : Int) ∧ 0 ≤ st.1
          ∧ st.2 = (List.range (st.1.toNat
              * ((width + (getTxDimension Size : Int) - 1)
                  / (getTxDimension Size : Int)).toNat)).map
              (rasterBlock T Size width height data))
      (by
        intro j st hjlt ⟨hj, hst0, hlen⟩
        have hj0 : 0 ≤ j := by rw [hj]; exact Int.mul_nonneg hst0 (by omega)
        have hstep := splitRowStep_spec width height data j st hw hj0 hsize hdata
        refine ⟨_, hstep, ?_, by simp only; omega, ?_⟩
        · simp only
          rw [hj]
          ring
        · simp only
          have hn : (st.1 + 1).toNat = st.1.toNat + 1 := by omega
          rw [hn, range_succ_mul, List.map_append, ← hlen, List.map_map]
          congr 1
          apply List.map_congr_left
          intro c hc
          rw [List.mem_range] at hc
          simp only [Function.comp]
          rw [rasterBlock_row Size width height data _ _ c hc hm, Int.toNat_of_nonneg hst0, hj])
      height.toNat 0 (0, []) (toNat_fuel height _ hd)
      ⟨by simp, by simp, by simp⟩
  have hlt' := hlt hh
  have hk : (height + (getTxDimension Size : Int) - 1) / (getTxDimension Size : Int) = st1.1 :=
    ceil_div_eq height _ st1.1 hd (by omega) (by omega)
  unfold splitIntoBlocks
  simp only []
  rw [Int.tdiv_eq_ediv (by omega) (by omega), Int.tdiv_eq_ediv (by omega) (by omega),
    checkedInt_ok _ (by omega) (by omega)]
  simp only [hrun]
  rw [hlen, hk]

/-! ## Raster order of the blocks -/

theorem readEzc_success_shape (junk : Nat → U8) (file : List U8) (header0 : EzcHeader)
    (blocks0 : List Block8x8i16) (hdr : EzcHeader) (bs : List Block8x8i16)
    (hok : readEzc junk file header0 blocks0 = some (true, hdr, bs)) :
    bs.length = hdr.blockCountX.val * hdr.blockCountY.val
      ∧ ∀ (k : Nat) (hk : k < bs.length),
          (bs[k]).blockX = ((k % hdr.blockCountX.val : Nat) : Int)
            ∧ (bs[k]).blockY = ((k / hdr.blockCountX.val : Nat) : Int) := by
  by_cases hl : file.length < 16
  · obtain ⟨hdr', h⟩ := readEzc_short junk file header0 blocks0 hl
    rw [h] at hok
    simp at hok
  · obtain ⟨m0, m1, m2, m3, v, w0, w1, t0, t1, q, d, x0, x1, y0, y1, r, payload, rfl⟩ :=
      exists_cons16 file (by omega)
    rw [readEzc_long] at hok
    by_cases h1 : [m0, m1, m2, m3] ≠ EZC_MAGIC
    · rw [if_pos h1] at hok
      simp at hok
    · by_cases h2 : v ≠ EZC_VERSION
      · rw [if_neg h1, if_pos h2] at hok
        simp at hok
      · rw [if_neg h1, if_neg h2] at hok
        have hn : (toU16 (x0.val ||| (x1.val <<< 8))).val * (toU16 (y0.val ||| (y1.val <<< 8))).val = 0
            ∨ (toU16 (x0.val ||| (x1.val <<< 8))).val ≠ 0 := by
          by_cases hx : (toU16 (x0.val ||| (x1.val <<< 8))).val = 0
          · left; rw [hx, Nat.zero_mul]
          · exact Or.inr hx
        obtain ⟨rs, s', hrs, hlen, hco, _⟩ :=
          readBlocks_spec junk _ _ 0 { rest := payload, fail := false } hn
        rw [hrs] at hok
        simp only [Option.some.injEq, Prod.mk.injEq] at hok
        obtain ⟨_, rfl, rfl⟩ := hok
        refine ⟨hlen, ?_⟩
        intro k hk
        have := hco k hk
        simp only [Nat.zero_add] at this
        exact this

theorem pixel_index_inj (width X Y X2 Y2 : Int) (hX0 : 0 ≤ X) (hX : X < width)
    (hX20 : 0 ≤ X2) (hX2 : X2 < width) (h : Y * width + X = Y2 * width + X2) :
    X = X2 ∧ Y = Y2 := by
  have hY : Y = Y2 := by
    rcases lt_trichotomy Y Y2 with hlt | heq | hgt
    · have : (Y + 1) * width ≤ Y2 * width :=
        Int.mul_le_mul_of_nonneg_right (by omega) (by omega)
      have e : (Y + 1) * width = Y * width + width := by ring
      omega
    · exact heq
    · have : (Y2 + 1) * width ≤ Y * width :=
        Int.mul_le_mul_of_nonneg_right (by omega) (by omega)
      have e : (Y2 + 1) * width = Y2 * width + width := by ring
      omega
  subst hY
  exact ⟨by omega, rfl⟩

theorem scatterBlock_spec (imageWidth imageHeight : Int) (block : Block8x8ui16)
    (pixels : List U8) (hsize : imageWidth * imageHeight ≤ 2147483647)
    (hlen : (pixels.length : Int) = imageWidth * imageHeight)
    (hbx : 0 ≤ block.blockX) (hby : 0 ≤ block.blockY) :
    ∃ out, scatterBlock imageWidth imageHeight block pixels = .ok out
      ∧ out.length = pixels.length
      ∧ ∀ X Y : Int, 0 ≤ X → X < imageWidth → 0 ≤ Y → Y < imageHeight →
          out[(Y * imageWidth + X).toNat]?
            = if X / 8 = block.blockX ∧ Y / 8 = block.blockY
              then some (scatterValue block (Y % 8).toNat (X % 8).toNat)
              else pixels[(Y * imageWidth + X).toNat]? := by
  have key : ∃ out, scatterBlock imageWidth imageHeight block pixels = .ok out
      ∧ out.length = pixels.length
      ∧ ∀ X Y : Int, 0 ≤ X → X < imageWidth → 0 ≤ Y → Y < imageHeight →
          out[(Y * imageWidth + X).toNat]?
            = if X / 8 = block.blockX ∧ Y / 8 = block.blockY ∧ Y % 8 < ((8 : Nat) : Int)
              then some (scatterValue block (Y % 8).toNat (X % 8).toNat)
              else pixels[(Y * imageWidth + X).toNat]? := by
    unfold scatterBlock
    simp only [Block.getBlockX, Block.getBlockY]
    apply forRange_inv _ (fun y (out : List U8) =>
      out.length = pixels.length
        ∧ ∀ X Y : Int, 0 ≤ X → X < imageWidth → 0 ≤ Y → Y < imageHeight →
          out[(Y * imageWidth + X).toNat]?
            = if X / 8 = block.blockX ∧ Y / 8 = block.blockY ∧ Y % 8 < (y : Int)
              then some (scatterValue block (Y % 8).toNat (X % 8).toNat)
              else pixels[(Y * imageWidth + X).toNat]?) _ _
      ⟨rfl, fun X Y _ _ _ _ => by
        rw [if_neg]
        simp only [Nat.cast_zero]
        omega⟩
    intro y out1 hy ⟨hl1, hv1⟩
    have hinner : ∃ out2, forRange (fun x (pixels : List U8) =>
          if block.blockX * 8 + (x : Int) < imageWidth
              ∧ block.blockY * 8 + (y : Int) < imageHeight then
            match block.atRowCol y x with
            | .error e => .error e
            | .ok sample =>
              match checkedInt ((block.blockY * 8 + (y : Int)) * imageWidth
                  + (block.blockX * 8 + (x : Int))) with
              | .error e => .error e
              | .ok index =>
                if 0 ≤ index ∧ index.toNat < pixels.length
                then .ok (pixels.set index.toNat (intToU8 (clamp (sample.val : Int) 0 255)))
                else .error Fault.undefined
          else .ok pixels) 8 out1 = .ok out2
        ∧ out2.length = pixels.length
        ∧ ∀ X Y : Int, 0 ≤ X → X < imageWidth → 0 ≤ Y → Y < imageHeight →
          out2[(Y * imageWidth + X).toNat]?
            = if X / 8 = block.blockX ∧ Y / 8 = block.blockY
                ∧ (Y % 8 < (y : Int) ∨ (Y % 8 = (y : Int) ∧ X % 8 < ((8 : Nat) : Int)))
              then some (scatterValue block (Y % 8).toNat (X % 8).toNat)
              else pixels[(Y * imageWidth + X).toNat]? := by
      apply forRange_inv _ (fun x (out : List U8) =>
        out.length = pixels.length
          ∧ ∀ X Y : Int, 0 ≤ X → X < imageWidth → 0 ≤ Y → Y < imageHeight →
            out[(Y * imageWidth + X).toNat]?
              = if X / 8 = block.blockX ∧ Y / 8 = block.blockY
                  ∧ (Y % 8 < (y : Int) ∨ (Y % 8 = (y : Int) ∧ X % 8 < (x : Int)))
                then some (scatterValue block (Y % 8).toNat (X % 8).toNat)
                else pixels[(Y * imageWidth + X).toNat]?) _ _
        ⟨hl1, fun X Y h1 h2 h3 h4 => by
          rw [hv1 X Y h1 h2 h3 h4]
          apply if_congr _ rfl rfl
          simp only [Nat.cast_zero]
          constructor
          · rintro ⟨a, b, c⟩
            exact ⟨a, b, Or.inl c⟩
          · rintro ⟨a, b, c⟩
            exact ⟨a, b, by omega⟩⟩
      intro x out2 hx ⟨hl2, hv2⟩
      by_cases hin : block.blockX * 8 + (x : Int) < imageWidth
          ∧ block.blockY * 8 + (y : Int) < imageHeight
      · rw [if_pos hin]
        have hat := atRowCol_ok block y x hy hx
        obtain ⟨i0, i1⟩ := pixel_index_bounds imageWidth imageHeight
          (block.blockX * 8 + x) (block.blockY * 8 + y) (by omega) (by omega) hin.1 hin.2
        have hidx : 0 ≤ (block.blockY * 8 + (y : Int)) * imageWidth + (block.blockX * 8 + (x : Int))
            ∧ ((block.blockY * 8 + (y : Int)) * imageWidth
                + (block.blockX * 8 + (x : Int))).toNat < out2.length := by
          refine ⟨i0, ?_⟩
          rw [hl2]
          omega
        simp only [hat]
        rw [checkedInt_ok _ (by omega) (by omega)]
        simp only []
        rw [if_pos hidx]
        refine ⟨_, rfl, by rw [List.length_set, hl2], fun X Y h1 h2 h3 h4 => ?_⟩
        obtain ⟨j0, j1⟩ := pixel_index_bounds imageWidth imageHeight X Y h1 h3 h2 h4
        by_cases hsame : X = block.blockX * 8 + (x : Int) ∧ Y = block.blockY * 8 + (y : Int)
        · obtain ⟨rfl, rfl⟩ := hsame
          rw [List.getElem?_set_self hidx.2, if_pos (by push_cast; omega)]
          have e1 : ((block.blockY * 8 + (y : Int)) % 8).toNat = y := by omega
          have e2 : ((block.blockX * 8 + (x : Int)) % 8).toNat = x := by omega
          rw [e1, e2]
          simp only [scatterValue, hat]
        · have hne : ((block.blockY * 8 + (y : Int)) * imageWidth
              + (block.blockX * 8 + (x : Int))).toNat ≠ (Y * imageWidth + X).toNat := by
            intro heq
            have heq2 : (block.blockY * 8 + (y : Int)) * imageWidth
                + (block.blockX * 8 + (x : Int)) = Y * imageWidth + X := by omega
            obtain ⟨a, b⟩ := pixel_index_inj imageWidth _ _ _ _ (by omega) hin.1 h1 h2 heq2
            exact hsame ⟨a.symm, b.symm⟩
          rw [List.getElem?_set_ne hne, hv2 X Y h1 h2 h3 h4]
          apply if_congr _ rfl rfl
          constructor
          · rintro ⟨a, b, c⟩
            exact ⟨a, b, by push_cast; omega⟩
          · rintro ⟨a, b, c⟩
            refine ⟨a, b, ?_⟩
            push_cast at c
            omega
      · rw [if_neg hin]
        refine ⟨_, rfl, hl2, fun X Y h1 h2 h3 h4 => ?_⟩
        rw [hv2 X Y h1 h2 h3 h4]
        apply if_congr _ rfl rfl
        constructor
        · rintro ⟨a, b, c⟩
          exact ⟨a, b, by push_cast; omega⟩
        · rintro ⟨a, b, c⟩
          refine ⟨a, b, ?_⟩
          push_cast at c
          omega
    obtain ⟨out2, h2, hl2, hv2⟩ := hinner
    refine ⟨out2, h2, hl2, fun X Y h1 h2 h3 h4 => ?_⟩
    rw [hv2 X Y h1 h2 h3 h4]
    apply if_congr _ rfl rfl
    constructor
    · rintro ⟨a, b, c⟩
      exact ⟨a, b, by push_cast at c ⊢; omega⟩
    · rintro ⟨a, b, c⟩
      refine ⟨a, b, ?_⟩
      push_cast at c ⊢
      omega
  obtain ⟨out, h, hl, hv⟩ := key
  refine ⟨out, h, hl, fun X Y h1 h2 h3 h4 => ?_⟩
  rw [hv X Y h1 h2 h3 h4]
  apply if_congr _ rfl rfl
  constructor
  · rintro ⟨a, b, _⟩
    exact ⟨a, b⟩
  · rintro ⟨a, b⟩
    exact ⟨a, b, by push_cast; omega⟩

/-- One iteration `(y, x)` of the scatter loops, in terms of `scatterTarget` and
`scatterValue`: it leaves the buffer as it is when there is no target, and stores the byte
of the element at the target index otherwise (the index being inside the buffer and
inside the range of `int`). -/
theorem scatter_iteration (imageWidth imageHeight : Int) (block : Block8x8ui16)
    (pixels : List U8) (y x : Nat) (hy : y < 8) (hx : x < 8) :
    (scatterTarget imageWidth imageHeight block y x = none →
        (if block.getBlockX * 8 + (x : Int) < imageWidth
            ∧ block.getBlockY * 8 + (y : Int) < imageHeight then
          match block.atRowCol y x with
          | .error e => .error e
          | .ok sample =>
            match checkedInt ((block.getBlockY * 8 + (y : Int)) * imageWidth
                + (block.getBlockX * 8 + (x : Int))) with
            | .error e => .error e
            | .ok index =>
              if 0 ≤ index ∧ index.toNat < pixels.length
              then .ok (pixels.set index.toNat (intToU8 (clamp (sample.val : Int) 0 255)))
              else .error Fault.undefined
        else .ok pixels) = (Except.ok pixels : Except Fault (List U8)))
      ∧ ∀ idx : Int, scatterTarget imageWidth imageHeight block y x = some idx →
          0 ≤ idx → idx < (pixels.length : Int) → idx ≤ 2147483647 →
          (if block.getBlockX * 8 + (x : Int) < imageWidth
              ∧ block.getBlockY * 8 + (y : Int) < imageHeight then
            match block.atRowCol y x with
            | .error e => .error e
            | .ok sample =>
              match checkedInt ((block.getBlockY * 8 + (y : Int)) * imageWidth
                  + (block.getBlockX * 8 + (x : Int))) with
              | .error e => .error e
              | .ok index =>
                if 0 ≤ index ∧ index.toNat < pixels.length
                then .ok (pixels.set index.toNat (intToU8 (clamp (sample.val : Int) 0 255)))
                else .error Fault.undefined
          else .ok pixels)
            = (Except.ok (pixels.set idx.toNat (scatterValue block y x))
                : Except Fault (List U8)) := by
  have hat := atRowCol_ok block y x hy hx
  constructor
  · intro hnone
    simp only [scatterTarget] at hnone
    split_ifs at hnone with hin
    rw [if_neg hin]
  · intro idx hsome h0 h1 h2
    simp only [scatterTarget] at hsome
    split_ifs at hsome with hin
    simp only [Option.some.injEq] at hsome
    rw [if_pos hin]
    simp only [hat, hsome]
    rw [checkedInt_ok _ (by omega) h2]
    simp only []
    rw [if_pos ⟨h0, by omega⟩]
    simp only [scatterValue, hat]

theorem scatterBlocks_nil (imageWidth imageHeight : Int) (pixels : List U8) :
    scatterBlocks imageWidth imageHeight [] pixels = .ok pixels := rfl

theorem scatterBlocks_cons (imageWidth imageHeight : Int) (block : Block8x8ui16)
    (rest : List Block8x8ui16) (pixels : List U8) :
    scatterBlocks imageWidth imageHeight (block :: rest) pixels
      = match scatterBlock imageWidth imageHeight block pixels with
        | .ok pixels1 => scatterBlocks imageWidth imageHeight rest pixels1
        | .error e => .error e := rfl

theorem scatterBlocks_spec (imageWidth imageHeight : Int)
    (hsize : imageWidth * imageHeight ≤ 2147483647) :
    ∀ (l : List Block8x8ui16) (pixels : List U8),
      (pixels.length : Int) = imageWidth * imageHeight →
      (∀ b, b ∈ l → 0 ≤ b.blockX ∧ 0 ≤ b.blockY) →
      ∃ out, scatterBlocks imageWidth imageHeight l pixels = .ok out
        ∧ out.length = pixels.length
        ∧ ∀ X Y : Int, 0 ≤ X → X < imageWidth → 0 ≤ Y → Y < imageHeight →
            ((∀ b, b ∈ l → ¬ (X / 8 = b.blockX ∧ Y / 8 = b.blockY)) →
                out[(Y * imageWidth + X).toNat]? = pixels[(Y * imageWidth + X).toNat]?)
              ∧ ∀ l1 b l2, l = l1 ++ b :: l2 → X / 8 = b.blockX ∧ Y / 8 = b.blockY →
                  (∀ b2, b2 ∈ l2 → ¬ (X / 8 = b2.blockX ∧ Y / 8 = b2.blockY)) →
                  out[(Y * imageWidth + X).toNat]?
                    = some (scatterValue b (Y % 8).toNat (X % 8).toNat) := by
  intro l
  induction l with
  | nil =>
    intro pixels _ _
    refine ⟨pixels, scatterBlocks_nil imageWidth imageHeight pixels, rfl, fun X Y _ _ _ _ => ⟨fun _ => rfl, fun l1 b l2 h => ?_⟩⟩
    exact absurd h (List.ne_nil_of_length_pos (by
      rw [List.length_append, List.length_cons]
      omega)).symm
  | cons a rest ih =>
    intro pixels hlen hco
    obtain ⟨a0, a1⟩ := hco a (List.mem_cons_self a rest)
    obtain ⟨out1, h1, hl1, hv1⟩ :=
      scatterBlock_spec imageWidth imageHeight a pixels hsize hlen a0 a1
    obtain ⟨out2, h2, hl2, hv2⟩ := ih out1 (by rw [hl1]; exact hlen)
      (fun b hb => hco b (List.mem_cons_of_mem a hb))
    refine ⟨out2, by rw [scatterBlocks_cons, h1]; exact h2, by rw [hl2, hl1],
      fun X Y x0 x1 y0 y1 => ⟨fun hnone => ?_, fun l1 b l2 hsplit hcov hlater => ?_⟩⟩
    · rw [(hv2 X Y x0 x1 y0 y1).1 (fun b hb => hnone b (List.mem_cons_of_mem a hb)),
        hv1 X Y x0 x1 y0 y1, if_neg (hnone a (List.mem_cons_self a rest))]
    · cases l1 with
      | nil =>
        simp only [List.nil_append, List.cons.injEq] at hsplit
        obtain ⟨rfl, rfl⟩ := hsplit
        rw [(hv2 X Y x0 x1 y0 y1).1 hlater, hv1 X Y x0 x1 y0 y1, if_pos hcov]
      | cons c l1 =>
        simp only [List.cons_append, List.cons.injEq] at hsplit
        obtain ⟨rfl, hrest⟩ := hsplit
        exact (hv2 X Y x0 x1 y0 y1).2 l1 b l2 hrest hcov hlater

theorem list_split_at {α : Type} (l : List α) (k : Nat) (hk : k < l.length) :
    l = l.take k ++ l[k] :: l.drop (k + 1) := by
  rw [← List.drop_eq_getElem_cons hk, List.take_append_drop]

theorem mem_drop_succ {α : Type} (l : List α) (k : Nat) (b : α) (hb : b ∈ l.drop (k + 1)) :
    ∃ j, ∃ hj : j < l.length, k < j ∧ l[j] = b := by
  rw [List.mem_iff_getElem] at hb
  obtain ⟨n, hn, rfl⟩ := hb
  rw [List.length_drop] at hn
  exact ⟨k + 1 + n, by omega, by omega, (List.getElem_drop l).symm⟩

theorem scatterBlocks_indexed (imageWidth imageHeight : Int)
    (hsize : imageWidth * imageHeight ≤ 2147483647) (l : List Block8x8ui16) (pixels : List U8)
    (hlen : (pixels.length : Int) = imageWidth * imageHeight)
    (hco : ∀ b, b ∈ l → 0 ≤ b.blockX ∧ 0 ≤ b.blockY) :
    ∃ out, scatterBlocks imageWidth imageHeight l pixels = .ok out
      ∧ out.length = pixels.length
      ∧ ∀ X Y : Int, 0 ≤ X → X < imageWidth → 0 ≤ Y → Y < imageHeight →
          ((∀ b, b ∈ l → ¬ (X / 8 = b.blockX ∧ Y / 8 = b.blockY)) →
              out[(Y * imageWidth + X).toNat]? = pixels[(Y * imageWidth + X).toNat]?)
            ∧ ∀ (k : Nat) (hk : k < l.length),
                X / 8 = (l[k]).blockX ∧ Y / 8 = (l[k]).blockY →
                (∀ (j : Nat) (hj : j < l.length), k < j →
                  ¬ (X / 8 = (l[j]).blockX ∧ Y / 8 = (l[j]).blockY)) →
                out[(Y * imageWidth + X).toNat]?
                  = some (scatterValue (l[k]) (Y % 8).toNat (X % 8).toNat) := by
  obtain ⟨out, h, hl, hv⟩ := scatterBlocks_spec imageWidth imageHeight hsize l pixels hlen hco
  refine ⟨out, h, hl, fun X Y x0 x1 y0 y1 => ⟨(hv X Y x0 x1 y0 y1).1, fun k hk hcov hlater => ?_⟩⟩
  refine (hv X Y x0 x1 y0 y1).2 (l.take k) (l[k]) (l.drop (k + 1)) (list_split_at l k hk) hcov ?_
  intro b2 hb2
  obtain ⟨j, hj, hkj, rfl⟩ := mem_drop_succ l k b2 hb2
  exact hlater j hj hkj

/-! ## Splitting, then scattering -/

theorem scatter_byte_of_sample (v : U8) :
    intToU8 (clamp (((IntElem.ofInt ((v.val : Nat) : Int) : U16).val : Nat) : Int) 0 255) = v := by
  have hv := v.isLt
  have h1 : (((IntElem.ofInt ((v.val : Nat) : Int) : U16).val : Nat) : Int) = (v.val : Int) :=
    intToU16_of_range _ (by omega) (by omega)
  rw [h1]
  have h2 : clamp (v.val : Int) 0 255 = (v.val : Int) := by
    unfold clamp
    split_ifs <;> omega
  rw [h2]
  apply Fin.ext
  have := intToU8_of_range (v.val : Int) (by omega) (by omega)
  exact_mod_cast this

theorem rasterBlock_scatterValue (width height : Int) (data : List U8)
    (hdata : (data.length : Int) = width * height) (k : Nat) (X Y : Int)
    (x0 : 0 ≤ X) (x1 : X < width) (y0 : 0 ≤ Y) (y1 : Y < height)
    (hcx : X / 8 = (rasterBlock U16 TxSize.TX_8x8 width height data k).blockX)
    (hcy : Y / 8 = (rasterBlock U16 TxSize.TX_8x8 width height data k).blockY) :
    some (scatterValue (rasterBlock U16 TxSize.TX_8x8 width height data k)
        (Y % 8).toNat (X % 8).toNat)
      = data[(Y * width + X).toNat]? := by
  have hr : (Y % 8).toNat < getTxDimension TxSize.TX_8x8 := by
    show (Y % 8).toNat < 8
    omega
  have hc : (X % 8).toNat < getTxDimension TxSize.TX_8x8 := by
    show (X % 8).toNat < 8
    omega
  obtain ⟨i0, i1⟩ := pixel_index_bounds width height X Y x0 y0 x1 y1
  have hlt : (Y * width + X).toNat < data.length := by omega
  simp only [scatterValue, atRowCol_ok _ _ _ hr hc]
  simp only [rasterBlock] at hcx hcy ⊢
  have eX : (k : Int) % ((width + ((getTxDimension TxSize.TX_8x8 : Nat) : Int) - 1)
        / ((getTxDimension TxSize.TX_8x8 : Nat) : Int))
      * ((getTxDimension TxSize.TX_8x8 : Nat) : Int)
      + ((((Y % 8).toNat * getTxDimension TxSize.TX_8x8 + (X % 8).toNat)
          % getTxDimension TxSize.TX_8x8 : Nat) : Int) = X := by
    rw [← hcx]
    show X / 8 * 8 + ((((Y % 8).toNat * 8 + (X % 8).toNat) % 8 : Nat) : Int) = X
    omega
  have eY : (k : Int) / ((width + ((getTxDimension TxSize.TX_8x8 : Nat) : Int) - 1)
        / ((getTxDimension TxSize.TX_8x8 : Nat) : Int))
      * ((getTxDimension TxSize.TX_8x8 : Nat) : Int)
      + ((((Y % 8).toNat * getTxDimension TxSize.TX_8x8 + (X % 8).toNat)
          / getTxDimension TxSize.TX_8x8 : Nat) : Int) = Y := by
    rw [← hcy]
    show Y / 8 * 8 + ((((Y % 8).toNat * 8 + (X % 8).toNat) / 8 : Nat) : Int) = Y
    omega
  rw [eX, eY]
  simp only [paddedSample, if_pos (And.intro x1 y1), List.getD_eq_getElem?_getD,
    List.getElem?_eq_getElem hlt, Option.getD_some, Option.some.injEq]
  exact scatter_byte_of_sample _

theorem pixel_decompose (width height : Int) (hw : 0 < width) (p : Nat)
    (hp : (p : Int) < width * height) :
    0 ≤ (p : Int) % width ∧ (p : Int) % width < width ∧ 0 ≤ (p : Int) / width
      ∧ (p : Int) / width < height
      ∧ (p : Int) / width * width + (p : Int) % width = (p : Int) := by
  refine ⟨Int.emod_nonneg _ (by omega), Int.emod_lt_of_pos _ hw,
    Int.ediv_nonneg (by omega) (by omega), Int.ediv_lt_of_lt_mul hw (by rw [Int.mul_comm]; exact hp), ?_⟩
  have := Int.ediv_add_emod (p : Int) width
  rw [Int.mul_comm] at this
  exact this

theorem grid_index (n a b : Int) (ha0 : 0 ≤ a) (ha : a < n) :
    (b * n + a) % n = a ∧ (b * n + a) / n = b := by
  constructor
  · rw [Int.add_comm, Int.add_mul_emod_self, Int.emod_eq_of_lt ha0 ha]
  · rw [Int.add_comm, Int.add_mul_ediv_right _ _ (by omega), Int.ediv_eq_zero_of_lt ha0 ha,
      Int.zero_add]

theorem grid_position (width height X Y : Int) (x0 : 0 ≤ X) (x1 : X < width) (y0 : 0 ≤ Y)
    (y1 : Y < height) :
    0 ≤ Y / 8 * ((width + 8 - 1) / 8) + X / 8
      ∧ (Y / 8 * ((width + 8 - 1) / 8) + X / 8).toNat
          < ((height + 8 - 1) / 8).toNat * ((width + 8 - 1) / 8).toNat
      ∧ (Y / 8 * ((width + 8 - 1) / 8) + X / 8) % ((width + 8 - 1) / 8) = X / 8
      ∧ (Y / 8 * ((width + 8 - 1) / 8) + X / 8) / ((width + 8 - 1) / 8) = Y / 8 := by
  have a1 : 0 ≤ X / 8 := by omega
  have a2 : X / 8 < (width + 8 - 1) / 8 := by omega
  have b1 : 0 ≤ Y / 8 := by omega
  have b2 : Y / 8 < (height + 8 - 1) / 8 := by omega
  have hm : 0 ≤ Y / 8 * ((width + 8 - 1) / 8) := Int.mul_nonneg b1 (by omega)
  have hlt : Y / 8 * ((width + 8 - 1) / 8) + X / 8
      < (height + 8 - 1) / 8 * ((width + 8 - 1) / 8) := by
    have : (Y / 8 + 1) * ((width + 8 - 1) / 8) ≤ (height + 8 - 1) / 8 * ((width + 8 - 1) / 8) :=
      Int.mul_le_mul_of_nonneg_right (by omega) (by omega)
    have e : (Y / 8 + 1) * ((width + 8 - 1) / 8)
        = Y / 8 * ((width + 8 - 1) / 8) + (width + 8 - 1) / 8 := by ring
    omega
  obtain ⟨g1, g2⟩ := grid_index ((width + 8 - 1) / 8) (X / 8) (Y / 8) a1 a2
  refine ⟨by omega, ?_, g1, g2⟩
  have hN : ((((height + 8 - 1) / 8).toNat * ((width + 8 - 1) / 8).toNat : Nat) : Int)
      = (height + 8 - 1) / 8 * ((width + 8 - 1) / 8) := by
    push_cast
    rw [Int.toNat_of_nonneg (by omega), Int.toNat_of_nonneg (by omega)]
  omega

theorem rasterBlock_coords8 {T : Type} [IntElem T] (width height : Int) (data : List U8)
    (k : Nat) :
    (rasterBlock T TxSize.TX_8x8 width height data k).blockX = (k : Int) % ((width + 8 - 1) / 8)
      ∧ (rasterBlock T TxSize.TX_8x8 width height data k).blockY
          = (k : Int) / ((width + 8 - 1) / 8) :=
  ⟨rfl, rfl⟩

theorem scatterTarget_rasterBlock (width height : Int) (data : List U8) (hw : 0 < width)
    (k y x : Nat) (hy : y < 8) (hx : x < 8) (X Y : Int) (x0 : 0 ≤ X) (x1 : X < width)
    (ht : scatterTarget width height (rasterBlock U16 TxSize.TX_8x8 width height data k) y x
      = some (Y * width + X)) :
    (k : Int) = Y / 8 * ((width + 8 - 1) / 8) + X / 8 ∧ (y : Int) = Y % 8 ∧ (x : Int) = X % 8 := by
  obtain ⟨cx, cy⟩ := @rasterBlock_coords8 U16 _ width height data k
  have hb : 0 < (width + 8 - 1) / 8 := by omega
  have hx0 : 0 ≤ (k : Int) % ((width + 8 - 1) / 8) := Int.emod_nonneg _ (by omega)
  simp only [scatterTarget, Block.getBlockX, Block.getBlockY, cx, cy] at ht
  split_ifs at ht with hin
  simp only [Option.some.injEq] at ht
  obtain ⟨e1, e2⟩ := pixel_index_inj width _ _ _ _ (by omega) hin.1 x0 x1 ht
  have hk := Int.emod_add_ediv (k : Int) ((width + 8 - 1) / 8)
  have hX : X / 8 = (k : Int) % ((width + 8 - 1) / 8) := by omega
  have hY : Y / 8 = (k : Int) / ((width + 8 - 1) / 8) := by omega
  refine ⟨?_, by omega, by omega⟩
  rw [hX, hY, Int.mul_comm]
  omega

theorem split_scatter_raster (width height : Int) (data : List U8) (hw : 0 < width)
    (hh : 0 < height) (hsize : width * height ≤ 2147483647)
    (hdata : (data.length : Int) = width * height) :
    scatterBlocks width height
        ((List.range (((height + 8 - 1) / 8).toNat * ((width + 8 - 1) / 8).toNat)).map
          (rasterBlock U16 TxSize.TX_8x8 width height data))
        (List.replicate (width * height).toNat 0)
      = .ok data := by
  have hb : 0 < (width + 8 - 1) / 8 := by omega
  obtain ⟨out, hrun, hl, hv⟩ := scatterBlocks_indexed width height hsize
    ((List.range (((height + 8 - 1) / 8).toNat * ((width + 8 - 1) / 8).toNat)).map
      (rasterBlock U16 TxSize.TX_8x8 width height data))
    (List.replicate (width * height).toNat 0)
    (by
      rw [List.length_replicate]
      have := Int.mul_pos hw hh
      omega)
    (by
      intro b hb2
      rw [List.mem_map] at hb2
      obtain ⟨k, _, rfl⟩ := hb2
      obtain ⟨cx, cy⟩ := @rasterBlock_coords8 U16 _ width height data k
      rw [cx, cy]
      exact ⟨Int.emod_nonneg _ (by omega), Int.ediv_nonneg (by omega) (by omega)⟩)
  rw [hrun]
  congr 1
  rw [List.length_replicate] at hl
  have hlen : out.length = data.length := by omega
  apply List.ext_getElem?
  intro p
  by_cases hp : p < data.length
  · obtain ⟨x0, x1, y0, y1, hxy⟩ := pixel_decompose width height hw p (by omega)
    obtain ⟨g0, g1, g2, g3⟩ := grid_position width height _ _ x0 x1 y0 y1
    have hkl : (((p : Int) / width) / 8 * ((width + 8 - 1) / 8) + ((p : Int) % width) / 8).toNat
        < ((List.range (((height + 8 - 1) / 8).toNat * ((width + 8 - 1) / 8).toNat)).map
            (rasterBlock U16 TxSize.TX_8x8 width height data)).length := by
      rw [List.length_map, List.length_range]
      exact g1
    have hcast : (((((p : Int) / width) / 8 * ((width + 8 - 1) / 8)
        + ((p : Int) % width) / 8).toNat : Nat) : Int)
        = ((p : Int) / width) / 8 * ((width + 8 - 1) / 8) + ((p : Int) % width) / 8 :=
      Int.toNat_of_nonneg g0
    have hcov : ((p : Int) % width) / 8
          = (rasterBlock U16 TxSize.TX_8x8 width height data
              (((p : Int) / width) / 8 * ((width + 8 - 1) / 8)
                + ((p : Int) % width) / 8).toNat).blockX
        ∧ ((p : Int) / width) / 8
          = (rasterBlock U16 TxSize.TX_8x8 width height data
              (((p : Int) / width) / 8 * ((width + 8 - 1) / 8)
                + ((p : Int) % width) / 8).toNat).blockY := by
      obtain ⟨cx, cy⟩ := @rasterBlock_coords8 U16 _ width height data
        (((p : Int) / width) / 8 * ((width + 8 - 1) / 8) + ((p : Int) % width) / 8).toNat
      rw [cx, cy, hcast, g2, g3]
      exact ⟨rfl, rfl⟩
    have hthis := (hv _ _ x0 x1 y0 y1).2 _ hkl
      (by
        simp only [List.getElem_map, List.getElem_range]
        exact hcov)
      (by
        intro j hj hkj
        simp only [List.getElem_map, List.getElem_range]
        obtain ⟨cx, cy⟩ := @rasterBlock_coords8 U16 _ width height data j
        rw [cx, cy]
        rintro ⟨e1, e2⟩
        have hk := Int.emod_add_ediv (j : Int) ((width + 8 - 1) / 8)
        rw [← e1, ← e2, Int.mul_comm] at hk
        omega)
    rw [hxy, Int.toNat_ofNat] at hthis
    rw [hthis]
    simp only [List.getElem_map, List.getElem_range]
    have hval := rasterBlock_scatterValue width height data hdata _ _ _ x0 x1 y0 y1 hcov.1 hcov.2
    rw [hxy, Int.toNat_ofNat] at hval
    exact hval
  · rw [List.getElem?_eq_none (by omega), List.getElem?_eq_none (by omega)]

theorem getElem?_map_range {α : Type} (f : Nat → α) (n k : Nat) (b : α)
    (h : ((List.range n).map f)[k]? = some b) : k < n ∧ b = f k := by
  by_cases hk : k < n
  · rw [List.getElem?_eq_getElem (by rw [List.length_map, List.length_range]; exact hk)] at h
    simp only [List.getElem_map, List.getElem_range, Option.some.injEq] at h
    exact ⟨hk, h.symm⟩
  · rw [List.getElem?_eq_none (by rw [List.length_map, List.length_range]; omega)] at h
    exact absurd h (by simp)

/-- Claim C26 (split and scatter are inverse on the raster): for every raster of width
`w ≥ 1` and height `h ≥ 1` with 8-bit samples that the image loader can return and every
header with the same width and height, splitting the raster into 8x8 blocks with
`splitIntoBlocks` and running the scatter loops of `decode` on those blocks, from the
zero-filled buffer of `w * h` pixels, yields the raster itself; every pixel index is the
target of exactly one iteration `(block, y, x)` of the scatter loops, and the byte that
iteration stores is the sample of the raster at that index. -/
theorem split_scatter_inverse (r : RawImage) (hdr : EzcHeader) (hr : r.WellFormed)
    (hw : (hdr.width.val : Int) = r.width) (hh : (hdr.height.val : Int) = r.height) :
    ∃ blocks, splitIntoBlocks U16 TxSize.TX_8x8 r.width r.height r.samples = .ok blocks
      ∧ scatterBlocks (hdr.width.val : Int) (hdr.height.val : Int) blocks
          (List.replicate ((hdr.width.val : Int) * (hdr.height.val : Int)).toNat 0)
          = .ok r.samples
      ∧ ∀ p : Nat, p < r.samples.length →
          (∃! t : Nat × Nat × Nat, t.2.1 < 8 ∧ t.2.2 < 8
              ∧ ∃ b, blocks[t.1]? = some b
                ∧ scatterTarget (hdr.width.val : Int) (hdr.height.val : Int) b t.2.1 t.2.2
                    = some (p : Int))
            ∧ ∀ (k y x : Nat) (b : Block8x8ui16), y < 8 → x < 8 → blocks[k]? = some b →
                scatterTarget (hdr.width.val : Int) (hdr.height.val : Int) b y x
                    = some (p : Int) →
                r.samples[p]? = some (scatterValue b y x) := by
  obtain ⟨hw0, hw1, hh0, hh1, hc, hsize, hdata⟩ := hr
  have hsplit := splitIntoBlocks_spec U16 TxSize.TX_8x8 r.width r.height r.samples hw0 hh0
    hsize hdata
  simp only [getTxDimension, Nat.cast_ofNat] at hsplit
  rw [hw, hh]
  refine ⟨_, hsplit, split_scatter_raster r.width r.height r.samples hw0 hh0 hsize hdata, ?_⟩
  intro p hp
  obtain ⟨x0, x1, y0, y1, hxy⟩ := pixel_decompose r.width r.height hw0 p (by omega)
  obtain ⟨g0, g1, g2, g3⟩ := grid_position r.width r.height _ _ x0 x1 y0 y1
  have core : ∀ (k y x : Nat) (b : Block8x8ui16), y < 8 → x < 8 →
      ((List.range (((r.height + 8 - 1) / 8).toNat * ((r.width + 8 - 1) / 8).toNat)).map
        (rasterBlock U16 TxSize.TX_8x8 r.width r.height r.samples))[k]? = some b →
      scatterTarget r.width r.height b y x = some (p : Int) →
      b = rasterBlock U16 TxSize.TX_8x8 r.width r.height r.samples k
        ∧ k = ((p : Int) / r.width / 8 * ((r.width + 8 - 1) / 8) + (p : Int) % r.width / 8).toNat
        ∧ y = ((p : Int) / r.width % 8).toNat ∧ x = ((p : Int) % r.width % 8).toNat := by
    intro k y x b hy hx hb ht
    obtain ⟨_, rfl⟩ := getElem?_map_range _ _ _ _ hb
    rw [← hxy] at ht
    obtain ⟨e1, e2, e3⟩ := scatterTarget_rasterBlock r.width r.height r.samples hw0 k y x hy hx
      _ _ x0 x1 ht
    exact ⟨rfl, by omega, by omega, by omega⟩
  have hcov : ((p : Int) % r.width) / 8
        = (rasterBlock U16 TxSize.TX_8x8 r.width r.height r.samples
            (((p : Int) / r.width) / 8 * ((r.width + 8 - 1) / 8)
              + ((p : Int) % r.width) / 8).toNat).blockX
      ∧ ((p : Int) / r.width) / 8
        = (rasterBlock U16 TxSize.TX_8x8 r.width r.height r.samples
            (((p : Int) / r.width) / 8 * ((r.width + 8 - 1) / 8)
              + ((p : Int) % r.width) / 8).toNat).blockY := by
    obtain ⟨cx, cy⟩ := @rasterBlock_coords8 U16 _ r.width r.height r.samples
      (((p : Int) / r.width) / 8 * ((r.width + 8 - 1) / 8) + ((p : Int) % r.width) / 8).toNat
    rw [cx, cy, Int.toNat_of_nonneg g0, g2, g3]
    exact ⟨rfl, rfl⟩
  constructor
  · refine ⟨((((p : Int) / r.width) / 8 * ((r.width + 8 - 1) / 8)
        + ((p : Int) % r.width) / 8).toNat, ((p : Int) / r.width % 8).toNat,
        ((p : Int) % r.width % 8).toNat), ⟨by simp only; omega, by simp only; omega, ?_⟩, ?_⟩
    · refine ⟨rasterBlock U16 TxSize.TX_8x8 r.width r.height r.samples
        (((p : Int) / r.width) / 8 * ((r.width + 8 - 1) / 8)
          + ((p : Int) % r.width) / 8).toNat, ?_, ?_⟩
      · simp only
        rw [List.getElem?_eq_getElem (by rw [List.length_map, List.length_range]; exact g1)]
        simp only [List.getElem_map, List.getElem_range]
      · simp only [scatterTarget, Block.getBlockX, Block.getBlockY, ← hcov.1, ← hcov.2]
        have eX : (p : Int) % r.width / 8 * 8 + ((((p : Int) % r.width % 8).toNat : Nat) : Int)
            = (p : Int) % r.width := by omega
        have eY : (p : Int) / r.width / 8 * 8 + ((((p : Int) / r.width % 8).toNat : Nat) : Int)
            = (p : Int) / r.width := by omega
        rw [eX, eY, if_pos ⟨x1, y1⟩, hxy]
    · rintro ⟨k, y, x⟩ ⟨hy, hx, b, hb, ht⟩
      obtain ⟨_, e1, e2, e3⟩ := core k y x b hy hx hb ht
      simp only [Prod.mk.injEq]
      exact ⟨e1, e2, e3⟩
  · intro k y x b hy hx hb ht
    obtain ⟨rfl, e1, e2, e3⟩ := core k y x b hy hx hb ht
    have hval := rasterBlock_scatterValue r.width r.height r.samples hdata _ _ _ x0 x1 y0 y1
      hcov.1 hcov.2
    rw [hxy, Int.toNat_ofNat] at hval
    rw [e2, e3, ← hval]
    congr 3
    exact e1.symm

/-- Splitting the raster of 10 x 9 samples and scattering its four blocks under a header
of width 10 and height 9 gives the raster back. -/
theorem split_scatter_inverse_witness :
    testRaster.WellFormed
      ∧ ((({ width := 10, height := 9 } : EzcHeader).width.val : Nat) : Int) = testRaster.width
      ∧ ((({ width := 10, height := 9 } : EzcHeader).height.val : Nat) : Int) = testRaster.height
      ∧ ∃ blocks, splitIntoBlocks U16 TxSize.TX_8x8 testRaster.width testRaster.height
            testRaster.samples = .ok blocks
          ∧ scatterBlocks 10 9 blocks (List.replicate 90 0) = .ok testRaster.samples := by
  obtain ⟨blocks, h1, h2, _⟩ := split_scatter_inverse testRaster { width := 10, height := 9 }
    (by decide) (by decide) (by decide)
  exact ⟨by decide, by decide, by decide, blocks, h1, h2⟩

/-! ## Reassembly of the picture by `decode` -/

theorem reconstructedBlocks_coordinates (samples : (Fin 64 → I16) → Fin 64 → U16)
    (quality : Int) (bs : List Block8x8i16) :
    (reconstructedBlocks samples quality bs).length = bs.length
      ∧ ∀ (k : Nat) (hk : k < (reconstructedBlocks samples quality bs).length)
          (hk2 : k < bs.length),
          ((reconstructedBlocks samples quality bs)[k]).blockX = (bs[k]).blockX
            ∧ ((reconstructedBlocks samples quality bs)[k]).blockY = (bs[k]).blockY := by
  refine ⟨by simp only [reconstructedBlocks, List.length_map], fun k hk hk2 => ?_⟩
  simp only [reconstructedBlocks, List.getElem_map]
  exact ⟨rfl, rfl⟩

theorem scatterValue_eq (block : Block8x8ui16) (row col : Nat) (hr : row < 8) (hc : col < 8) :
    ∃ s : U16, block.atRowCol row col = .ok s
      ∧ ((scatterValue block row col).val : Int) = min 255 (s.val : Int)
      ∧ ((scatterValue block row col).val : Int) = clamp (s.val : Int) 0 255 := by
  have hat := atRowCol_ok block row col hr hc
  refine ⟨_, hat, ?_, ?_⟩
  · simp only [scatterValue, hat]
    have hc2 : clamp ((block.data ⟨row * getTxDimension TxSize.TX_8x8 + col,
        (rowcol_index_lt TxSize.TX_8x8 row col hr hc).2⟩).val : Int) 0 255
        = min 255 ((block.data ⟨row * getTxDimension TxSize.TX_8x8 + col,
            (rowcol_index_lt TxSize.TX_8x8 row col hr hc).2⟩).val : Int) := by
      unfold clamp
      split_ifs <;> omega
    rw [hc2]
    exact intToU8_of_range _ (by omega) (by omega)
  · simp only [scatterValue, hat]
    have hb : 0 ≤ clamp ((block.data ⟨row * getTxDimension TxSize.TX_8x8 + col,
        (rowcol_index_lt TxSize.TX_8x8 row col hr hc).2⟩).val : Int) 0 255
        ∧ clamp ((block.data ⟨row * getTxDimension TxSize.TX_8x8 + col,
            (rowcol_index_lt TxSize.TX_8x8 row col hr hc).2⟩).val : Int) 0 255 ≤ 255 := by
      unfold clamp
      split_ifs <;> omega
    exact intToU8_of_range _ hb.1 hb.2

/-- The reassembly of `decode` when the number of pixels fits an `int`: for every file
that `readEzc` accepts with a header of width `w` and height `h` such that
`w * h ≤ 2^31 - 1`, `decode` returns 0 and hands over a buffer of `w * h` pixels in which,
for every `0 ≤ X < w` and `0 ≤ Y < h`, the pixel `(X, Y)` holds `min(255, s)` (the
element `s` clamped into `[0, 255]`) if a reconstructed block has the coordinates
`(X div 8, Y div 8)`, `s` being its element at `(row = Y mod 8, col = X mod 8)`, and 0 if
no block has these coordinates; every index the scatter loops write lies inside the
buffer. -/
theorem decode_scatter_spec (junk : Nat → U8) (samples : (Fin 64 → I16) → Fin 64 → U16)
    (file : List U8) (hdr : EzcHeader) (bs : List Block8x8i16)
    (hread : readEzc junk file {} [] = some (true, hdr, bs))
    (hfit : (hdr.width.val : Int) * (hdr.height.val : Int) ≤ 2147483647) :
    ∃ pixels, decode junk samples file
        = .ok { status := 0,
                image := some ((hdr.width.val : Int), (hdr.height.val : Int), pixels) }
      ∧ (pixels.length : Int) = (hdr.width.val : Int) * (hdr.height.val : Int)
      ∧ (∀ X Y : Int, 0 ≤ X → X < (hdr.width.val : Int) → 0 ≤ Y → Y < (hdr.height.val : Int) →
          (∀ (k : Nat) (hk : k < (reconstructedBlocks samples (hdr.quality.val : Int) bs).length),
              ((reconstructedBlocks samples (hdr.quality.val : Int) bs)[k]).blockX = X / 8 →
              ((reconstructedBlocks samples (hdr.quality.val : Int) bs)[k]).blockY = Y / 8 →
              ∃ (s : U16) (v : U8),
                ((reconstructedBlocks samples (hdr.quality.val : Int) bs)[k]).atRowCol
                    (Y % 8).toNat (X % 8).toNat = .ok s
                  ∧ pixels[(Y * (hdr.width.val : Int) + X).toNat]? = some v
                  ∧ (v.val : Int) = min 255 (s.val : Int)
                  ∧ (v.val : Int) = clamp (s.val : Int) 0 255)
            ∧ ((∀ b, b ∈ reconstructedBlocks samples (hdr.quality.val : Int) bs →
                  ¬ (X / 8 = b.blockX ∧ Y / 8 = b.blockY)) →
                pixels[(Y * (hdr.width.val : Int) + X).toNat]? = some 0))
      ∧ ∀ b, b ∈ reconstructedBlocks samples (hdr.quality.val : Int) bs → ∀ (y x : Nat) (idx : Int),
          scatterTarget (hdr.width.val : Int) (hdr.height.val : Int) b y x = some idx →
          0 ≤ idx ∧ idx < (pixels.length : Int) := by
  obtain ⟨hlen, hco⟩ := readEzc_success_shape junk file {} [] hdr bs hread
  obtain ⟨hrl, hrc⟩ := reconstructedBlocks_coordinates samples (hdr.quality.val : Int) bs
  have hw0 : (0 : Int) ≤ (hdr.width.val : Int) := by omega
  have hh0 : (0 : Int) ≤ (hdr.height.val : Int) := by omega
  have hprod : 0 ≤ (hdr.width.val : Int) * (hdr.height.val : Int) := Int.mul_nonneg hw0 hh0
  have hcoord : ∀ (k : Nat) (hk : k < (reconstructedBlocks samples (hdr.quality.val : Int) bs).length),
      ((reconstructedBlocks samples (hdr.quality.val : Int) bs)[k]).blockX
          = ((k % hdr.blockCountX.val : Nat) : Int)
        ∧ ((reconstructedBlocks samples (hdr.quality.val : Int) bs)[k]).blockY
          = ((k / hdr.blockCountX.val : Nat) : Int) := by
    intro k hk
    have hk2 : k < bs.length := by omega
    obtain ⟨a, b⟩ := hrc k hk hk2
    obtain ⟨c, d⟩ := hco k hk2
    exact ⟨a.trans c, b.trans d⟩
  have hnonneg : ∀ b, b ∈ reconstructedBlocks samples (hdr.quality.val : Int) bs →
      0 ≤ b.blockX ∧ 0 ≤ b.blockY := by
    intro b hb
    rw [List.mem_iff_getElem] at hb
    obtain ⟨k, hk, rfl⟩ := hb
    obtain ⟨a, b⟩ := hcoord k hk
    rw [a, b]
    exact ⟨Int.natCast_nonneg _, Int.natCast_nonneg _⟩
  obtain ⟨out, hrun, hl, hv⟩ := scatterBlocks_indexed (hdr.width.val : Int) (hdr.height.val : Int)
    hfit (reconstructedBlocks samples (hdr.quality.val : Int) bs)
    (List.replicate ((hdr.width.val : Int) * (hdr.height.val : Int)).toNat 0)
    (by rw [List.length_replicate]; omega) hnonneg
  rw [List.length_replicate] at hl
  have hdec : decode junk samples file
      = .ok { status := 0,
              image := some ((hdr.width.val : Int), (hdr.height.val : Int), out) } := by
    simp only [decode, hread]
    rw [checkedInt_ok _ (by omega) hfit]
    simp only []
    have hrun2 := hrun
    simp only [reconstructedBlocks] at hrun2
    rw [hrun2]
  refine ⟨out, hdec, by omega, fun X Y x0 x1 y0 y1 => ⟨fun k hk hx hy => ?_, fun hnone => ?_⟩,
    fun b hb y x idx ht => ?_⟩
  · have hthis := (hv X Y x0 x1 y0 y1).2 k hk ⟨hx.symm, hy.symm⟩ (by
      intro j hj hkj
      obtain ⟨a1, a2⟩ := hcoord k hk
      obtain ⟨b1, b2⟩ := hcoord j hj
      rw [b1, b2]
      rintro ⟨e1, e2⟩
      rw [a1] at hx
      rw [a2] at hy
      have e3 : k % hdr.blockCountX.val = j % hdr.blockCountX.val := by omega
      have e4 : k / hdr.blockCountX.val = j / hdr.blockCountX.val := by omega
      have d1 := Nat.div_add_mod k hdr.blockCountX.val
      have d2 := Nat.div_add_mod j hdr.blockCountX.val
      rw [e3, e4] at d1
      omega)
    obtain ⟨s, hs, m1, m2⟩ := scatterValue_eq
      ((reconstructedBlocks samples (hdr.quality.val : Int) bs)[k])
      (Y % 8).toNat (X % 8).toNat (by omega) (by omega)
    exact ⟨s, _, hs, hthis, m1, m2⟩
  · rw [(hv X Y x0 x1 y0 y1).1 hnone, List.getElem?_replicate]
    obtain ⟨i0, i1⟩ := pixel_index_bounds _ _ X Y x0 y0 x1 y1
    rw [if_pos (by omega)]
  · obtain ⟨b0, b1⟩ := hnonneg b hb
    simp only [scatterTarget, Block.getBlockX, Block.getBlockY] at ht
    split_ifs at ht with hin
    simp only [Option.some.injEq] at ht
    obtain ⟨i0, i1⟩ := pixel_index_bounds _ _ (b.blockX * 8 + (x : Int))
      (b.blockY * 8 + (y : Int)) (by omega) (by omega) hin.1 hin.2
    omega

/-- The reassembly for the file of the round-trip test (16 x 16 pixels, four blocks):
`decode` returns 0 with a buffer of 256 pixels, and the pixel (9, 3), which lies in the
block at position 1, holds the clamped element (3, 1) of the block reconstructed from
it. -/
theorem decode_scatter_spec_instance :
    ∃ pixels, decode (fun _ => 0) zeroSamples (writeEzc testHeader testBlocks)
        = .ok { status := 0, image := some (16, 16, pixels) }
      ∧ pixels.length = 256
      ∧ pixels[3 * 16 + 9]? = some 0 := by
  obtain ⟨bs, hread, hall⟩ := readEzc_writeEzc (fun _ => 0) testHeader testBlocks {} []
    (by decide) (by decide)
  obtain ⟨pixels, hdec, hlen, hpix, _⟩ := decode_scatter_spec (fun _ => 0) zeroSamples
    (writeEzc testHeader testBlocks) testHeader bs hread (by decide)
  have hbl : bs.length = 4 := hall.length_eq
  obtain ⟨hrl, hrc⟩ := reconstructedBlocks_coordinates zeroSamples (testHeader.quality.val : Int) bs
  obtain ⟨_, hco⟩ := readEzc_success_shape (fun _ => 0) _ {} [] testHeader bs hread
  have hk : 1 < (reconstructedBlocks zeroSamples (testHeader.quality.val : Int) bs).length := by
    omega
  obtain ⟨a, b⟩ := hrc 1 hk (by omega)
  obtain ⟨c, d⟩ := hco 1 (by omega)
  obtain ⟨s, v, hs, hv, hmin, _⟩ := (hpix 9 3 (by decide) (by decide) (by decide) (by decide)).1
    1 hk (a.trans c) (b.trans d)
  have hs0 : s = 0 := by
    have hat := atRowCol_ok ((reconstructedBlocks zeroSamples (testHeader.quality.val : Int) bs)[1])
      3 1 (by decide) (by decide)
    have hs2 : ((reconstructedBlocks zeroSamples (testHeader.quality.val : Int) bs)[1]).atRowCol
        3 1 = .ok s := hs
    rw [hat] at hs2
    simp only [reconstructedBlocks, List.getElem_map, inverseDCT, zeroSamples] at hs2
    exact (Except.ok.inj hs2).symm
  have hv0 : v = 0 := by
    rw [hs0] at hmin
    apply Fin.ext
    have : (v.val : Int) = 0 := by
      rw [hmin]
      decide
    exact_mod_cast this
  refine ⟨pixels, hdec, ?_, ?_⟩
  · have : (pixels.length : Int) = 256 := by
      rw [hlen]
      decide
    exact_mod_cast this
  · rw [← hv0]
    exact hv

theorem checkedInt_overflow (x : Int) (h : 2147483647 < x) :
    checkedInt x = .error Fault.undefined := by
  unfold checkedInt
  rw [if_neg]
  omega

/-- Claim C21, evaluated where the code departs from it: for every container file that
`readEzc` accepts and whose header announces more than 2^31 - 1 pixels, `decode` has
undefined behaviour: the number of pixels `imageWidth * imageHeight` is computed in
`int` and overflows, so the pixel buffer of the claim is never built and nothing is
stored for the pixels the blocks cover. -/
theorem decode_scatter_overflow (junk : Nat → U8) (samples : (Fin 64 → I16) → Fin 64 → U16)
    (file : List U8) (hdr : EzcHeader) (bs : List Block8x8i16)
    (hread : readEzc junk file {} [] = some (true, hdr, bs))
    (hbig : 2147483647 < (hdr.width.val : Int) * (hdr.height.val : Int)) :
    decode junk samples file = .error Fault.undefined := by
  simp only [decode, hread]
  rw [checkedInt_overflow _ hbig]

/-- The container file of 144 bytes whose header announces 65535 x 65535 pixels and one
block is accepted by `readEzc`; its 4294836225 pixels do not fit an `int`, and `decode`
has undefined behaviour on it. -/
theorem decode_scatter_overflow_witness :
    overflowFile.length = 144
      ∧ (overflowHeader.width.val : Int) * (overflowHeader.height.val : Int) = 4294836225
      ∧ ∃ bs, readEzc (fun _ => 0) overflowFile {} [] = some (true, overflowHeader, bs)
          ∧ bs.length = 1
          ∧ decode (fun _ => 0) zeroSamples overflowFile = .error Fault.undefined := by
  obtain ⟨bs, hread, hall⟩ := readEzc_writeEzc (fun _ => 0) overflowHeader [Block.new 0 0] {} []
    rfl (by decide)
  have hlen : overflowFile.length = 144 := by
    unfold overflowFile
    rw [writeEzc_eq, List.length_append, length_flatMap_const _ 128 writeBlockData_length]
    rfl
  have hprod : (overflowHeader.width.val : Int) * (overflowHeader.height.val : Int)
      = 4294836225 := by
    show ((65535 : Nat) : Int) * ((65535 : Nat) : Int) = 4294836225
    norm_num
  exact ⟨hlen, hprod, bs, hread, hall.length_eq,
    decode_scatter_overflow (fun _ => 0) zeroSamples overflowFile overflowHeader bs hread
      (by rw [hprod]; omega)⟩

/-! ## The cosine transform in exact real arithmetic -/

theorem dirichlet_sum (θ : ℝ) (n : Nat) :
    2 * Real.sin (θ / 2) * ∑ u ∈ Finset.range n, Real.cos (((u : ℝ) + 1) * θ)
      = Real.sin (((n : ℝ) + 1 / 2) * θ) - Real.sin (θ / 2) := by
  induction n with
  | zero =>
    simp only [Finset.range_zero, Finset.sum_empty, mul_zero, Nat.cast_zero, zero_add]
    rw [show (1 / 2 : ℝ) * θ = θ / 2 by ring, sub_self]
  | succ n ih =>
    rw [Finset.sum_range_succ, mul_add, ih]
    have h1 : (((n + 1 : Nat) : ℝ) + 1 / 2) * θ = ((n : ℝ) + 1) * θ + θ / 2 := by
      push_cast
      ring
    have h2 : ((n : ℝ) + 1 / 2) * θ = ((n : ℝ) + 1) * θ - θ / 2 := by ring
    rw [h1, h2, Real.sin_add, Real.sin_sub]
    ring

theorem cos_sum_eq (N : Nat) (t : ℝ) (hN : 0 < N)
    (hs : Real.sin (t * Real.pi / (2 * (N : ℝ))) ≠ 0) (hz : Real.sin (t * Real.pi) = 0) :
    ∑ u ∈ Finset.range (N - 1), Real.cos (((u : ℝ) + 1) * (t * Real.pi / (N : ℝ)))
      = -(1 + Real.cos (t * Real.pi)) / 2 := by
  have hNr : (0 : ℝ) < (N : ℝ) := by exact_mod_cast hN
  have hd := dirichlet_sum (t * Real.pi / (N : ℝ)) (N - 1)
  have h1 : t * Real.pi / (N : ℝ) / 2 = t * Real.pi / (2 * (N : ℝ)) := by
    rw [div_div, mul_comm (N : ℝ) 2]
  have hcast : ((N - 1 : Nat) : ℝ) = (N : ℝ) - 1 := by
    rw [Nat.cast_sub (by omega)]
    simp
  have h2 : (((N - 1 : Nat) : ℝ) + 1 / 2) * (t * Real.pi / (N : ℝ))
      = t * Real.pi - t * Real.pi / (2 * (N : ℝ)) := by
    rw [hcast]
    field_simp
    ring
  rw [h1, h2, Real.sin_sub, hz] at hd
  have h3 : 2 * Real.sin (t * Real.pi / (2 * (N : ℝ)))
      * ∑ u ∈ Finset.range (N - 1), Real.cos (((u : ℝ) + 1) * (t * Real.pi / (N : ℝ)))
      = 2 * Real.sin (t * Real.pi / (2 * (N : ℝ))) * (-(1 + Real.cos (t * Real.pi)) / 2) := by
    rw [hd]
    ring
  exact mul_left_cancel₀ (mul_ne_zero two_ne_zero hs) h3

theorem cos_sin_odd_pi (x : Nat) :
    Real.cos ((2 * (x : ℝ) + 1) * Real.pi) = -1 ∧ Real.sin ((2 * (x : ℝ) + 1) * Real.pi) = 0 := by
  constructor
  · have e : (2 * (x : ℝ) + 1) * Real.pi = (x : ℝ) * (2 * Real.pi) + Real.pi := by ring
    rw [e, Real.cos_add_pi, Real.cos_nat_mul_two_pi]
  · have := Real.sin_nat_mul_pi (2 * x + 1)
    push_cast at this
    exact this

theorem sin_half_ne_zero (N : Nat) (t : ℝ) (hN : 0 < N) (ht0 : t ≠ 0)
    (ht1 : -(2 * (N : ℝ)) < t) (ht2 : t < 2 * (N : ℝ)) :
    Real.sin (t * Real.pi / (2 * (N : ℝ))) ≠ 0 := by
  have hNr : (0 : ℝ) < 2 * (N : ℝ) := by
    have : (0 : ℝ) < (N : ℝ) := by exact_mod_cast hN
    linarith
  have hpi := Real.pi_pos
  rcases lt_or_gt_of_ne ht0 with hneg | hpos
  · have h1 : 0 < -t * Real.pi / (2 * (N : ℝ)) :=
      div_pos (mul_pos (by linarith) hpi) hNr
    have h2 : -t * Real.pi / (2 * (N : ℝ)) < Real.pi := by
      rw [div_lt_iff₀ hNr]
      nlinarith
    have h3 := Real.sin_pos_of_pos_of_lt_pi h1 h2
    have e : -t * Real.pi / (2 * (N : ℝ)) = -(t * Real.pi / (2 * (N : ℝ))) := by ring
    rw [e, Real.sin_neg] at h3
    linarith
  · have h1 : 0 < t * Real.pi / (2 * (N : ℝ)) := div_pos (mul_pos hpos hpi) hNr
    have h2 : t * Real.pi / (2 * (N : ℝ)) < Real.pi := by
      rw [div_lt_iff₀ hNr]
      nlinarith
    exact ne_of_gt (Real.sin_pos_of_pos_of_lt_pi h1 h2)

theorem cos_product_sum (N : Nat) (x x2 : Nat) (hN : 0 < N) (hx : x < N) (hx2 : x2 < N) :
    ∑ u ∈ Finset.range (N - 1),
        Real.cos ((((2 * x + 1) * (u + 1) : Nat) : ℝ) * Real.pi / (2 * (N : ℝ)))
          * Real.cos ((((2 * x2 + 1) * (u + 1) : Nat) : ℝ) * Real.pi / (2 * (N : ℝ)))
      = if x = x2 then ((N : ℝ) - 1) / 2 else -1 / 2 := by
  have hNr : (0 : ℝ) < (N : ℝ) := by exact_mod_cast hN
  have hxr : (x : ℝ) + 1 ≤ (N : ℝ) := by exact_mod_cast Nat.succ_le_of_lt hx
  have hx2r : (x2 : ℝ) + 1 ≤ (N : ℝ) := by exact_mod_cast Nat.succ_le_of_lt hx2
  have hx0 : (0 : ℝ) ≤ (x : ℝ) := Nat.cast_nonneg x
  have hx20 : (0 : ℝ) ≤ (x2 : ℝ) := Nat.cast_nonneg x2
  have hterm : ∀ u : Nat,
      Real.cos ((((2 * x + 1) * (u + 1) : Nat) : ℝ) * Real.pi / (2 * (N : ℝ)))
          * Real.cos ((((2 * x2 + 1) * (u + 1) : Nat) : ℝ) * Real.pi / (2 * (N : ℝ)))
        = (Real.cos (((u : ℝ) + 1) * (((x : ℝ) - (x2 : ℝ)) * Real.pi / (N : ℝ)))
            + Real.cos (((u : ℝ) + 1) * (((x : ℝ) + (x2 : ℝ) + 1) * Real.pi / (N : ℝ)))) / 2 := by
    intro u
    have e1 : ((u : ℝ) + 1) * (((x : ℝ) - (x2 : ℝ)) * Real.pi / (N : ℝ))
        = (((2 * x + 1) * (u + 1) : Nat) : ℝ) * Real.pi / (2 * (N : ℝ))
          - (((2 * x2 + 1) * (u + 1) : Nat) : ℝ) * Real.pi / (2 * (N : ℝ)) := by
      push_cast
      field_simp
      ring
    have e2 : ((u : ℝ) + 1) * (((x : ℝ) + (x2 : ℝ) + 1) * Real.pi / (N : ℝ))
        = (((2 * x + 1) * (u + 1) : Nat) : ℝ) * Real.pi / (2 * (N : ℝ))
          + (((2 * x2 + 1) * (u + 1) : Nat) : ℝ) * Real.pi / (2 * (N : ℝ)) := by
      push_cast
      field_simp
      ring
    rw [e1, e2, Real.cos_sub, Real.cos_add]
    ring
  rw [Finset.sum_congr rfl (fun u _ => hterm u), ← Finset.sum_div, Finset.sum_add_distrib]
  have hsum2 := cos_sum_eq N ((x : ℝ) + (x2 : ℝ) + 1) hN
    (sin_half_ne_zero N _ hN (by linarith) (by linarith) (by linarith))
    (by
      have := Real.sin_nat_mul_pi (x + x2 + 1)
      push_cast at this
      exact this)
  rw [hsum2]
  by_cases hxx : x = x2
  · subst hxx
    rw [if_pos rfl]
    have hzero : ∀ u : Nat, Real.cos (((u : ℝ) + 1) * (((x : ℝ) - (x : ℝ)) * Real.pi / (N : ℝ)))
        = 1 := by
      intro u
      rw [sub_self, zero_mul, zero_div, mul_zero, Real.cos_zero]
    rw [Finset.sum_congr rfl (fun u _ => hzero u), Finset.sum_const, Finset.card_range,
      nsmul_eq_mul, mul_one]
    have hc : Real.cos (((x : ℝ) + (x : ℝ) + 1) * Real.pi) = -1 := by
      rw [show (x : ℝ) + (x : ℝ) + 1 = 2 * (x : ℝ) + 1 by ring]
      exact (cos_sin_odd_pi x).1
    rw [hc, Nat.cast_sub (by omega)]
    simp
  · rw [if_neg hxx]
    have hne : (x : ℝ) - (x2 : ℝ) ≠ 0 := by
      intro h
      apply hxx
      have : (x : ℝ) = (x2 : ℝ) := by linarith
      exact_mod_cast this
    have hsum1 := cos_sum_eq N ((x : ℝ) - (x2 : ℝ)) hN
      (sin_half_ne_zero N _ hN hne (by linarith) (by linarith))
      (by
        have := Real.sin_int_mul_pi ((x : Int) - (x2 : Int))
        push_cast at this
        exact this)
    rw [hsum1]
    have hc : Real.cos (((x : ℝ) + (x2 : ℝ) + 1) * Real.pi)
        = -Real.cos (((x : ℝ) - (x2 : ℝ)) * Real.pi) := by
      have e : ((x : ℝ) + (x2 : ℝ) + 1) * Real.pi
          = (2 * (x : ℝ) + 1) * Real.pi - ((x : ℝ) - (x2 : ℝ)) * Real.pi := by ring
      rw [e, Real.cos_sub, (cos_sin_odd_pi x).1, (cos_sin_odd_pi x).2]
      ring
    rw [hc]
    ring

theorem basis_orthogonal (N : Nat) (x x2 : Nat) (hN : 0 < N) (hx : x < N) (hx2 : x2 < N) :
    ∑ u : Fin N,
        DCT.c (⟨Real.cos, Real.sqrt, Real.pi⟩ : DctMath ℝ) u.val
          * DCT.c (⟨Real.cos, Real.sqrt, Real.pi⟩ : DctMath ℝ) u.val
          * Real.cos ((((2 * x + 1) * u.val : Nat) : ℝ) * Real.pi / (2 * (N : ℝ)))
          * Real.cos ((((2 * x2 + 1) * u.val : Nat) : ℝ) * Real.pi / (2 * (N : ℝ)))
      = if x = x2 then (N : ℝ) / 2 else 0 := by
  rw [Fin.sum_univ_eq_sum_range (fun u =>
    DCT.c (⟨Real.cos, Real.sqrt, Real.pi⟩ : DctMath ℝ) u
      * DCT.c (⟨Real.cos, Real.sqrt, Real.pi⟩ : DctMath ℝ) u
      * Real.cos ((((2 * x + 1) * u : Nat) : ℝ) * Real.pi / (2 * (N : ℝ)))
      * Real.cos ((((2 * x2 + 1) * u : Nat) : ℝ) * Real.pi / (2 * (N : ℝ)))) N]
  obtain ⟨M, rfl⟩ : ∃ M, N = M + 1 := ⟨N - 1, by omega⟩
  rw [Finset.sum_range_succ']
  have hsq : (1 / Real.sqrt 2) * (1 / Real.sqrt 2) = (1 / 2 : ℝ) := by
    rw [div_mul_div_comm, one_mul, Real.mul_self_sqrt (by norm_num)]
  have h0 : DCT.c (⟨Real.cos, Real.sqrt, Real.pi⟩ : DctMath ℝ) 0
      * DCT.c (⟨Real.cos, Real.sqrt, Real.pi⟩ : DctMath ℝ) 0
      * Real.cos ((((2 * x + 1) * 0 : Nat) : ℝ) * Real.pi / (2 * ((M + 1 : Nat) : ℝ)))
      * Real.cos ((((2 * x2 + 1) * 0 : Nat) : ℝ) * Real.pi / (2 * ((M + 1 : Nat) : ℝ)))
      = 1 / 2 := by
    simp only [DCT.c, if_true, Nat.mul_zero, Nat.cast_zero, zero_mul, zero_div, Real.cos_zero,
      mul_one]
    exact hsq
  have hk : ∀ k : Nat, DCT.c (⟨Real.cos, Real.sqrt, Real.pi⟩ : DctMath ℝ) (k + 1)
      * DCT.c (⟨Real.cos, Real.sqrt, Real.pi⟩ : DctMath ℝ) (k + 1)
      * Real.cos ((((2 * x + 1) * (k + 1) : Nat) : ℝ) * Real.pi / (2 * ((M + 1 : Nat) : ℝ)))
      * Real.cos ((((2 * x2 + 1) * (k + 1) : Nat) : ℝ) * Real.pi / (2 * ((M + 1 : Nat) : ℝ)))
      = Real.cos ((((2 * x + 1) * (k + 1) : Nat) : ℝ) * Real.pi / (2 * ((M + 1 : Nat) : ℝ)))
        * Real.cos ((((2 * x2 + 1) * (k + 1) : Nat) : ℝ) * Real.pi
            / (2 * ((M + 1 : Nat) : ℝ))) := by
    intro k
    simp only [DCT.c, Nat.succ_ne_zero, if_false, one_mul]
  rw [h0, Finset.sum_congr rfl (fun k _ => hk k)]
  have hs := cos_product_sum (M + 1) x x2 hN hx hx2
  rw [Nat.add_sub_cancel] at hs
  rw [hs]
  split_ifs
  · push_cast
    ring
  · ring

theorem sum_comm4 {ι : Type} [Fintype ι] (T : ι → ι → ι → ι → ℝ) :
    ∑ u : ι, ∑ v : ι, ∑ x : ι, ∑ y : ι, T u v x y
      = ∑ x : ι, ∑ y : ι, ∑ u : ι, ∑ v : ι, T u v x y := by
  calc ∑ u : ι, ∑ v : ι, ∑ x : ι, ∑ y : ι, T u v x y
      = ∑ u : ι, ∑ x : ι, ∑ v : ι, ∑ y : ι, T u v x y :=
        Finset.sum_congr rfl (fun u _ => Finset.sum_comm)
    _ = ∑ x : ι, ∑ u : ι, ∑ v : ι, ∑ y : ι, T u v x y := Finset.sum_comm
    _ = ∑ x : ι, ∑ u : ι, ∑ y : ι, ∑ v : ι, T u v x y :=
        Finset.sum_congr rfl (fun x _ => Finset.sum_congr rfl (fun u _ => Finset.sum_comm))
    _ = ∑ x : ι, ∑ y : ι, ∑ u : ι, ∑ v : ι, T u v x y :=
        Finset.sum_congr rfl (fun x _ => Finset.sum_comm)

theorem transform_sum_rearrange {ι : Type} [Fintype ι] (K : ℝ) (c : ι → ℝ) (f : ι → ι → ℝ)
    (A : ι → ι → ℝ) (a b : ι → ℝ) :
    K * ∑ u : ι, ∑ v : ι,
        c u * c v * (K * c u * c v * ∑ x : ι, ∑ y : ι, f y x * A x u * A y v) * a u * b v
      = K * K * ∑ x : ι, ∑ y : ι,
          f y x * (∑ u : ι, c u * c u * A x u * a u) * (∑ v : ι, c v * c v * A y v * b v) := by
  have hl : ∀ u v : ι,
      c u * c v * (K * c u * c v * ∑ x : ι, ∑ y : ι, f y x * A x u * A y v) * a u * b v
        = ∑ x : ι, ∑ y : ι,
            K * (f y x * (c u * c u * A x u * a u) * (c v * c v * A y v * b v)) := by
    intro u v
    simp only [Finset.mul_sum, Finset.sum_mul]
    refine Finset.sum_congr rfl (fun x _ => Finset.sum_congr rfl (fun y _ => ?_))
    ring
  have hr : ∀ x y : ι,
      f y x * (∑ u : ι, c u * c u * A x u * a u) * (∑ v : ι, c v * c v * A y v * b v)
        = ∑ u : ι, ∑ v : ι, f y x * (c u * c u * A x u * a u) * (c v * c v * A y v * b v) := by
    intro x y
    rw [mul_assoc, Finset.sum_mul_sum, Finset.mul_sum]
    refine Finset.sum_congr rfl (fun u _ => ?_)
    rw [Finset.mul_sum]
    refine Finset.sum_congr rfl (fun v _ => ?_)
    ring
  rw [Finset.sum_congr rfl (fun u _ => Finset.sum_congr rfl (fun v _ => hl u v)),
    sum_comm4 (fun u v x y =>
      K * (f y x * (c u * c u * A x u * a u) * (c v * c v * A y v * b v))),
    Finset.sum_congr rfl (fun x _ => Finset.sum_congr rfl (fun y _ => hr x y)), mul_assoc]
  congr 1
  simp only [Finset.mul_sum]

theorem txIndex_mod_div (Size : TxSize) (row col : Fin (getTxDimension Size)) :
    (txIndex Size row col).val % getTxDimension Size = col.val
      ∧ (txIndex Size row col).val / getTxDimension Size = row.val := by
  have hd := dim_pos Size
  simp only [txIndex]
  constructor
  · rw [Nat.add_comm, Nat.add_mul_mod_self_right, Nat.mod_eq_of_lt col.isLt]
  · rw [Nat.add_comm, Nat.add_mul_div_right _ _ hd, Nat.div_eq_of_lt col.isLt, Nat.zero_add]

theorem inverseTemp_forwardTemp (Size : TxSize) (f : Fin (getTxElementCount Size) → ℝ)
    (i : Fin (getTxElementCount Size)) :
    DCT.inverseTemp (⟨Real.cos, Real.sqrt, Real.pi⟩ : DctMath ℝ) Size
        (DCT.forwardTemp (⟨Real.cos, Real.sqrt, Real.pi⟩ : DctMath ℝ) Size f) i
      = f i := by
  have hN := dim_pos Size
  have hcount := count_eq_dim_sq Size
  rw [sq] at hcount
  have hx : i.val % getTxDimension Size < getTxDimension Size := Nat.mod_lt _ hN
  have hy : i.val / getTxDimension Size < getTxDimension Size := by
    rw [Nat.div_lt_iff_lt_mul hN, ← hcount]
    exact i.isLt
  have hNr : (getTxDimension Size : ℝ) ≠ 0 := by
    have : (0 : ℝ) < (getTxDimension Size : ℝ) := by exact_mod_cast hN
    exact ne_of_gt this
  simp only [DCT.inverseTemp, DCT.forwardTemp, (txIndex_mod_div Size _ _).1,
    (txIndex_mod_div Size _ _).2]
  refine (transform_sum_rearrange (1 / ((getTxDimension Size : ℝ) / 2))
    (fun u : Fin (getTxDimension Size) =>
      DCT.c (⟨Real.cos, Real.sqrt, Real.pi⟩ : DctMath ℝ) u.val)
    (fun y x => f (txIndex Size y x))
    (fun x u => Real.cos ((((2 * x.val + 1) * u.val : Nat) : ℝ) * Real.pi
      / (2 * (getTxDimension Size : ℝ))))
    (fun u => Real.cos ((((2 * (i.val % getTxDimension Size) + 1) * u.val : Nat) : ℝ) * Real.pi
      / (2 * (getTxDimension Size : ℝ))))
    (fun v => Real.cos ((((2 * (i.val / getTxDimension Size) + 1) * v.val : Nat) : ℝ) * Real.pi
      / (2 * (getTxDimension Size : ℝ))))).trans ?_
  have ho1 : ∀ x : Fin (getTxDimension Size),
      ∑ u : Fin (getTxDimension Size),
        DCT.c (⟨Real.cos, Real.sqrt, Real.pi⟩ : DctMath ℝ) u.val
          * DCT.c (⟨Real.cos, Real.sqrt, Real.pi⟩ : DctMath ℝ) u.val
          * Real.cos ((((2 * x.val + 1) * u.val : Nat) : ℝ) * Real.pi
              / (2 * (getTxDimension Size : ℝ)))
          * Real.cos ((((2 * (i.val % getTxDimension Size) + 1) * u.val : Nat) : ℝ) * Real.pi
              / (2 * (getTxDimension Size : ℝ)))
        = if x.val = i.val % getTxDimension Size then (getTxDimension Size : ℝ) / 2 else 0 :=
    fun x => basis_orthogonal _ x.val _ hN x.isLt hx
  have ho2 : ∀ y : Fin (getTxDimension Size),
      ∑ v : Fin (getTxDimension Size),
        DCT.c (⟨Real.cos, Real.sqrt, Real.pi⟩ : DctMath ℝ) v.val
          * DCT.c (⟨Real.cos, Real.sqrt, Real.pi⟩ : DctMath ℝ) v.val
          * Real.cos ((((2 * y.val + 1) * v.val : Nat) : ℝ) * Real.pi
              / (2 * (getTxDimension Size : ℝ)))
          * Real.cos ((((2 * (i.val / getTxDimension Size) + 1) * v.val : Nat) : ℝ) * Real.pi
              / (2 * (getTxDimension Size : ℝ)))
        = if y.val = i.val / getTxDimension Size then (getTxDimension Size : ℝ) / 2 else 0 :=
    fun y => basis_orthogonal _ y.val _ hN y.isLt hy
  simp only [ho1, ho2]
  have hi : txIndex Size ⟨i.val / getTxDimension Size, hy⟩ ⟨i.val % getTxDimension Size, hx⟩
      = i := by
    apply Fin.ext
    simp only [txIndex]
    rw [Nat.mul_comm]
    exact Nat.div_add_mod _ _
  rw [Finset.sum_eq_single (⟨i.val % getTxDimension Size, hx⟩ : Fin (getTxDimension Size)),
    Finset.sum_eq_single (⟨i.val / getTxDimension Size, hy⟩ : Fin (getTxDimension Size))]
  · simp only [if_true, hi]
    field_simp
    ring
  · intro y _ hne
    have : ¬ y.val = i.val / getTxDimension Size := fun h => hne (Fin.ext h)
    simp only [if_neg this, mul_zero]
  · intro h
    exact absurd (Finset.mem_univ _) h
  · intro x _ hne
    have : ¬ x.val = i.val % getTxDimension Size := fun h => hne (Fin.ext h)
    simp only [if_neg this, mul_zero, zero_mul, Finset.sum_const_zero]
  · intro h
    exact absurd (Finset.mem_univ _) h

/-- Claim C28 (the DCT pair is exactly inverse before truncation): with the arithmetic
of `DCT.h` carried out on the real numbers (`std::cos` the cosine, `std::sqrt` the square
root, `PI` the number π) and real-valued blocks, so that the conversion to the
destination type changes nothing, `inverseDCT (forwardDCT x) = x` for every block `x`
of every size, in particular 8x8; the forward transform stores at the linear index
`v * dim + u` the coefficient `(2 / dim) * C(u) * C(v) * Σ_x Σ_y x[y * dim + x] *
cos((2x+1)uπ / (2 dim)) * cos((2y+1)vπ / (2 dim))`, and the inverse transform reads the
coefficient of `(u, v)` from the same index. -/
theorem dct_pair_exact_inverse :
    (∀ (Size : TxSize) (x d1 d2 : Block ℝ Size),
        (inverseDCT (DCT.inverseTemp (⟨Real.cos, Real.sqrt, Real.pi⟩ : DctMath ℝ) Size)
          (forwardDCT (DCT.forwardTemp (⟨Real.cos, Real.sqrt, Real.pi⟩ : DctMath ℝ) Size)
            x d1) d2).data = x.data)
      ∧ (∀ (Size : TxSize) (x d1 : Block ℝ Size) (u v : Fin (getTxDimension Size)),
        (forwardDCT (DCT.forwardTemp (⟨Real.cos, Real.sqrt, Real.pi⟩ : DctMath ℝ) Size)
            x d1).data (txIndex Size v u)
          = (2 / (getTxDimension Size : ℝ))
            * (if u.val = 0 then 1 / Real.sqrt 2 else 1)
            * (if v.val = 0 then 1 / Real.sqrt 2 else 1)
            * ∑ p : Fin (getTxDimension Size), ∑ q : Fin (getTxDimension Size),
                x.data (txIndex Size q p)
                  * Real.cos ((((2 * p.val + 1) * u.val : Nat) : ℝ) * Real.pi
                      / (2 * (getTxDimension Size : ℝ)))
                  * Real.cos ((((2 * q.val + 1) * v.val : Nat) : ℝ) * Real.pi
                      / (2 * (getTxDimension Size : ℝ))))
      ∧ (∀ (Size : TxSize) (c d2 : Block ℝ Size) (p q : Fin (getTxDimension Size)),
        (inverseDCT (DCT.inverseTemp (⟨Real.cos, Real.sqrt, Real.pi⟩ : DctMath ℝ) Size)
            c d2).data (txIndex Size q p)
          = (2 / (getTxDimension Size : ℝ))
            * ∑ u : Fin (getTxDimension Size), ∑ v : Fin (getTxDimension Size),
                (if u.val = 0 then 1 / Real.sqrt 2 else 1)
                  * (if v.val = 0 then 1 / Real.sqrt 2 else 1)
                  * c.data (txIndex Size v u)
                  * Real.cos ((((2 * p.val + 1) * u.val : Nat) : ℝ) * Real.pi
                      / (2 * (getTxDimension Size : ℝ)))
                  * Real.cos ((((2 * q.val + 1) * v.val : Nat) : ℝ) * Real.pi
                      / (2 * (getTxDimension Size : ℝ)))) := by
  have hK : ∀ Size : TxSize, 1 / ((getTxDimension Size : ℝ) / 2)
      = 2 / (getTxDimension Size : ℝ) := by
    intro Size
    rw [one_div_div]
  refine ⟨fun Size x d1 d2 => ?_, fun Size x d1 u v => ?_, fun Size c d2 p q => ?_⟩
  · funext i
    exact inverseTemp_forwardTemp Size x.data i
  · simp only [forwardDCT, DCT.forwardTemp, (txIndex_mod_div Size _ _).1,
      (txIndex_mod_div Size _ _).2, DCT.c, hK]
  · simp only [inverseDCT, DCT.inverseTemp, (txIndex_mod_div Size _ _).1,
      (txIndex_mod_div Size _ _).2, DCT.c, hK]

/-! ## The task pool -/

theorem mem_eraseIdx_or {α : Type} (l : List α) (k : Nat) (a : α) (ha : a ∈ l) :
    a ∈ l.eraseIdx k ∨ l[k]? = some a := by
  induction l generalizing k with
  | nil => exact absurd ha (List.not_mem_nil a)
  | cons b l ih =>
    cases k with
    | zero =>
      rcases List.mem_cons.mp ha with h | h
      · right
        rw [h, List.getElem?_cons_zero]
      · left
        exact h
    | succ k =>
      rcases List.mem_cons.mp ha with h | h
      · left
        rw [h]
        exact List.mem_cons_self _ _
      · rcases ih k h with h2 | h2
        · left
          exact List.mem_cons_of_mem _ h2
        · right
          rw [List.getElem?_cons_succ]
          exact h2

theorem mem_of_mem_eraseIdx {α : Type} (l : List α) (k : Nat) (a : α)
    (ha : a ∈ l.eraseIdx k) : a ∈ l := by
  induction l generalizing k with
  | nil => exact absurd ha (List.not_mem_nil a)
  | cons b l ih =>
    cases k with
    | zero => exact List.mem_cons_of_mem _ ha
    | succ k =>
      rcases List.mem_cons.mp ha with h | h
      · rw [h]
        exact List.mem_cons_self _ _
      · exact List.mem_cons_of_mem _ (ih k h)

theorem poolInvariant_new (workers : Nat) : PoolInvariant (TaskPool.new workers, []) := by
  refine ⟨rfl, fun e he => absurd he (List.not_mem_nil e), fun h hh => ?_⟩
  exact absurd hh (Nat.not_lt_zero h)

theorem poolInvariant_step (count : Nat) (s s1 : TaskPool × List Nat) (e : TestEvent)
    (hinv : PoolInvariant s) (hstep : testThreadPoolStep count s e = some s1) :
    PoolInvariant s1 := by
  obtain ⟨p, results⟩ := s
  obtain ⟨hres, hmem, hhand⟩ := hinv
  simp only at hres hmem hhand
  cases e with
  | submit =>
    simp only [testThreadPoolStep, TaskPool.enqueue] at hstep
    split_ifs at hstep with hlt
    simp only [Option.some.injEq] at hstep
    subst hstep
    have hlen : results.length = p.handles.length := by
      rw [hres, List.length_range]
    refine ⟨?_, ?_, ?_⟩
    · simp only [List.length_append, List.length_singleton, List.range_succ]
      rw [← hres]
    · intro e he
      simp only [List.length_append, List.length_singleton]
      simp only [List.mem_append, List.mem_singleton] at he
      rcases he with (he | he) | he
      · obtain ⟨a, b⟩ := hmem e (List.mem_append_left _ he)
        exact ⟨by omega, b⟩
      · subst he
        simp only [hlen]
        exact ⟨by omega, trivial⟩
      · obtain ⟨a, b⟩ := hmem e (List.mem_append_right _ he)
        exact ⟨by omega, b⟩
    · intro h hh
      simp only [List.length_append, List.length_singleton] at hh
      by_cases hlast : h = p.handles.length
      · right
        subst hlast
        refine ⟨by simp, (p.handles.length,
          fun _ => (results.length : Int) * (results.length : Int)), ?_, rfl⟩
        simp only [List.mem_append, List.mem_singleton, true_or, or_true]
      · have hh2 : h < p.handles.length := by omega
        rw [List.getElem?_append_left hh2]
        rcases hhand h hh2 with h1 | ⟨h1, e, he, he1⟩
        · exact Or.inl h1
        · refine Or.inr ⟨h1, e, ?_, he1⟩
          simp only [List.mem_append, List.mem_singleton] at he ⊢
          rcases he with he | he
          · exact Or.inl (Or.inl he)
          · exact Or.inr he
  | worker ev =>
    simp only [testThreadPoolStep, Option.map_eq_some'] at hstep
    obtain ⟨p1, hp1, rfl⟩ := hstep
    cases ev with
    | pull =>
      simp only [TaskPool.step] at hp1
      split at hp1
      · exact absurd hp1 (by simp)
      · rename_i t rest hq
        split_ifs at hp1 with hidle
        simp only [Option.some.injEq] at hp1
        subst hp1
        have hsame : ∀ e, e ∈ rest ++ (p.running ++ [t]) ↔ e ∈ p.queue ++ p.running := by
          intro e
          rw [hq]
          simp only [List.mem_append, List.mem_cons, List.mem_singleton]
          tauto
        refine ⟨hres, fun e he => hmem e ((hsame e).mp he), fun h hh => ?_⟩
        rcases hhand h hh with h1 | ⟨h1, e, he, he1⟩
        · exact Or.inl h1
        · exact Or.inr ⟨h1, e, (hsame e).mpr he, he1⟩
    | complete slot =>
      simp only [TaskPool.step] at hp1
      split at hp1
      · exact absurd hp1 (by simp)
      · rename_i t ht
        simp only [Option.some.injEq] at hp1
        subst hp1
        have htmem : t ∈ p.queue ++ p.running :=
          List.mem_append_right _ (List.getElem?_mem ht)
        obtain ⟨ht1, ht2⟩ := hmem t htmem
        refine ⟨?_, ?_, ?_⟩
        · simp only [List.length_set]
          exact hres
        · intro e he
          simp only [List.length_set]
          simp only [List.mem_append] at he
          rcases he with he | he
          · exact hmem e (List.mem_append_left _ he)
          · exact hmem e (List.mem_append_right _ (mem_of_mem_eraseIdx _ _ _ he))
        · intro h hh
          simp only [List.length_set] at hh
          by_cases hth : t.1 = h
          · left
            subst hth
            simp only
            rw [List.getElem?_set_self ht1, ht2]
          · simp only
            rw [List.getElem?_set_ne hth]
            rcases hhand h hh with h1 | ⟨h1, e, he, he1⟩
            · exact Or.inl h1
            · refine Or.inr ⟨h1, e, ?_, he1⟩
              simp only [List.mem_append] at he ⊢
              rcases he with he | he
              · exact Or.inl he
              · rcases mem_eraseIdx_or p.running slot e he with h2 | h2
                · exact Or.inr h2
                · rw [ht] at h2
                  simp only [Option.some.injEq] at h2
                  subst h2
                  exact absurd he1 hth

theorem poolInvariant_run (count : Nat) (schedule : List TestEvent) :
    ∀ s s1 : TaskPool × List Nat, PoolInvariant s →
      testThreadPoolRun count schedule s = some s1 → PoolInvariant s1 := by
  induction schedule with
  | nil =>
    intro s s1 hinv hrun
    simp only [testThreadPoolRun, Option.some.injEq] at hrun
    subst hrun
    exact hinv
  | cons e rest ih =>
    intro s s1 hinv hrun
    simp only [testThreadPoolRun] at hrun
    split at hrun
    · rename_i s2 hs2
      exact ih s2 s1 (poolInvariant_step count s s2 e hinv hs2) hrun
    · exact absurd hrun (by simp)

theorem testThreadPoolRun_append (count : Nat) (a b : List TestEvent) :
    ∀ s : TaskPool × List Nat,
      testThreadPoolRun count (a ++ b) s
        = (testThreadPoolRun count a s).bind (testThreadPoolRun count b) := by
  induction a with
  | nil =>
    intro s
    rfl
  | cons e rest ih =>
    intro s
    simp only [List.cons_append, testThreadPoolRun]
    split
    · rename_i s1 _
      exact ih s1
    · rfl

theorem drain_running (count : Nat) (running : List (Nat × (Unit → Int))) :
    ∀ (p : TaskPool) (results : List Nat), p.running = running →
      ∃ schedule p1, testThreadPoolRun count schedule (p, results) = some (p1, results)
        ∧ p1.running = [] ∧ p1.queue = p.queue ∧ p1.workers = p.workers := by
  induction running with
  | nil =>
    intro p results hr
    exact ⟨[], p, rfl, hr, rfl, rfl⟩
  | cons t rest ih =>
    intro p results hr
    obtain ⟨schedule, p1, h1, h2, h3, h4⟩ := ih
      { p with running := rest, handles := p.handles.set t.1 (some (t.2 ())) } results rfl
    refine ⟨TestEvent.worker (PoolEvent.complete 0) :: schedule, p1, ?_, h2, h3, h4⟩
    simp only [testThreadPoolRun, testThreadPoolStep, TaskPool.step, hr, List.getElem?_cons_zero,
      List.eraseIdx_cons_zero, Option.map_some']
    exact h1

theorem drain_queue (count : Nat) (queue : List (Nat × (Unit → Int))) :
    ∀ (p : TaskPool) (results : List Nat), p.queue = queue → p.running = [] → 0 < p.workers →
      ∃ schedule p1, testThreadPoolRun count schedule (p, results) = some (p1, results)
        ∧ p1.running = [] ∧ p1.queue = [] ∧ p1.workers = p.workers := by
  induction queue with
  | nil =>
    intro p results hq hr _
    exact ⟨[], p, rfl, hr, hq, rfl⟩
  | cons t rest ih =>
    intro p results hq hr hw
    obtain ⟨schedule, p1, h1, h2, h3, h4⟩ := ih
      { p with queue := rest, running := [], handles := p.handles.set t.1 (some (t.2 ())) }
      results rfl rfl hw
    refine ⟨TestEvent.worker PoolEvent.pull :: TestEvent.worker (PoolEvent.complete 0)
      :: schedule, p1, ?_, h2, h3, h4⟩
    simp only [testThreadPoolRun, testThreadPoolStep, TaskPool.step, hq, hr, List.length_nil,
      hw, if_true, List.nil_append, List.getElem?_cons_zero, List.eraseIdx_cons_zero,
      Option.map_some']
    exact h1

theorem submit_rest (count : Nat) :
    ∀ (k : Nat) (p : TaskPool) (results : List Nat), p.queue = [] → p.running = [] →
      0 < p.workers → results.length + k = count →
      ∃ schedule final, testThreadPoolRun count schedule (p, results) = some final
        ∧ final.2.length = count ∧ final.1.queue = [] ∧ final.1.running = [] := by
  intro k
  induction k with
  | zero =>
    intro p results hq hr _ hk
    exact ⟨[], (p, results), rfl, by simpa using hk, hq, hr⟩
  | succ k ih =>
    intro p results hq hr hw hk
    obtain ⟨schedule, final, h1, h2, h3, h4⟩ := ih
      { p with queue := [], running := [],
               handles := (p.handles ++ [none]).set p.handles.length
                 (some ((results.length : Int) * (results.length : Int))) }
      (results ++ [p.handles.length]) rfl rfl hw
      (by rw [List.length_append, List.length_singleton]; omega)
    refine ⟨TestEvent.submit :: TestEvent.worker PoolEvent.pull
      :: TestEvent.worker (PoolEvent.complete 0) :: schedule, final, ?_, h2, h3, h4⟩
    have hlt : results.length < count := by omega
    simp only [testThreadPoolRun, testThreadPoolStep, TaskPool.enqueue, TaskPool.step, hq, hr,
      hlt, if_true, List.length_nil, hw, List.nil_append, List.getElem?_cons_zero,
      List.eraseIdx_cons_zero, Option.map_some']
    exact h1

theorem run_length_le (count : Nat) (schedule : List TestEvent) :
    ∀ s s1 : TaskPool × List Nat, s.2.length ≤ count →
      testThreadPoolRun count schedule s = some s1 →
      s1.2.length ≤ count ∧ s1.1.workers = s.1.workers := by
  induction schedule with
  | nil =>
    intro s s1 hle hrun
    simp only [testThreadPoolRun, Option.some.injEq] at hrun
    subst hrun
    exact ⟨hle, rfl⟩
  | cons e rest ih =>
    intro s s1 hle hrun
    simp only [testThreadPoolRun] at hrun
    split at hrun
    · rename_i s2 hs2
      have h2 : s2.2.length ≤ count ∧ s2.1.workers = s.1.workers := by
        cases e with
        | submit =>
          simp only [testThreadPoolStep, TaskPool.enqueue] at hs2
          split_ifs at hs2 with hlt
          simp only [Option.some.injEq] at hs2
          subst hs2
          simp only [List.length_append, List.length_singleton]
          exact ⟨by omega, trivial⟩
        | worker ev =>
          simp only [testThreadPoolStep, Option.map_eq_some'] at hs2
          obtain ⟨p1, hp1, rfl⟩ := hs2
          refine ⟨hle, ?_⟩
          cases ev with
          | pull =>
            simp only [TaskPool.step] at hp1
            split at hp1
            · exact absurd hp1 (by simp)
            · split_ifs at hp1
              simp only [Option.some.injEq] at hp1
              subst hp1
              rfl
          | complete slot =>
            simp only [TaskPool.step] at hp1
            split at hp1
            · exact absurd hp1 (by simp)
            · simp only [Option.some.injEq] at hp1
              subst hp1
              rfl
      obtain ⟨a, b⟩ := ih s2 s1 h2.1 hrun
      exact ⟨a, b.trans h2.2⟩
    · exact absurd hrun (by simp)

theorem poolInvariant_ready (s : TaskPool × List Nat) (hinv : PoolInvariant s) (i : Nat)
    (v : Int) (hv : testThreadPoolResult s i = some v) : v = (i : Int) * (i : Int) := by
  obtain ⟨hres, _, hhand⟩ := hinv
  simp only [testThreadPoolResult, TaskPool.get] at hv
  rw [hres] at hv
  by_cases hi : i < s.1.handles.length
  · rw [List.getElem?_range hi] at hv
    simp only [Option.some_bind] at hv
    rcases hhand i hi with h1 | ⟨h1, _⟩
    · rw [h1] at hv
      have hv2 : some ((i : Int) * (i : Int)) = some v := hv
      simp only [Option.some.injEq] at hv2
      exact hv2.symm
    · rw [h1] at hv
      have hv2 : (none : Option Int) = some v := hv
      exact absurd hv2 (by simp)
  · rw [List.getElem?_eq_none (by rw [List.length_range]; omega)] at hv
    exact absurd hv (by simp)

theorem poolInvariant_complete (count : Nat) (s : TaskPool × List Nat) (hinv : PoolInvariant s)
    (hlen : s.2.length = count) (hq : s.1.queue = []) (hr : s.1.running = []) (i : Nat)
    (hi : i < count) : testThreadPoolResult s i = some ((i : Int) * (i : Int)) := by
  obtain ⟨hres, _, hhand⟩ := hinv
  have hn : s.1.handles.length = count := by
    rw [← hlen, hres, List.length_range]
  simp only [testThreadPoolResult, TaskPool.get]
  rw [hres, List.getElem?_range (by omega)]
  simp only [Option.some_bind]
  rcases hhand i (by omega) with h1 | ⟨_, e, he, _⟩
  · rw [h1]
    rfl
  · rw [hq, hr] at he
    exact absurd he (List.not_mem_nil e)

/-- Claim C23 (task pool correctness), for the pool modelled from the spec: in every run
of `testThreadPool` (any number `count` of tasks, 100 in the test, task `i` returning
`i * i`; any positive number of workers, 4 in the test), whatever the interleaving of the
submissions with the pulls and completions of the workers, a handle that is ready holds
`i * i` for the task `i` it was returned for; once all tasks are submitted and the pool
is idle, `results[i].get()` is `i * i` for every `i < count`; and every run can be
continued to such a state, so that awaiting every handle returns. -/
theorem task_pool_results (workers count : Nat) (schedule : List TestEvent)
    (s : TaskPool × List Nat) (hw : 0 < workers)
    (hrun : testThreadPoolRun count schedule (TaskPool.new workers, []) = some s) :
    (∀ (i : Nat) (v : Int), testThreadPoolResult s i = some v → v = (i : Int) * (i : Int))
      ∧ (s.2.length = count → s.1.queue = [] → s.1.running = [] →
          ∀ i, i < count → testThreadPoolResult s i = some ((i : Int) * (i : Int)))
      ∧ ∃ more final,
          testThreadPoolRun count (schedule ++ more) (TaskPool.new workers, []) = some final
            ∧ final.2.length = count ∧ final.1.queue = [] ∧ final.1.running = []
            ∧ ∀ i, i < count → testThreadPoolResult final i = some ((i : Int) * (i : Int)) := by
  have hinv := poolInvariant_run count schedule _ s (poolInvariant_new workers) hrun
  refine ⟨poolInvariant_ready s hinv, poolInvariant_complete count s hinv, ?_⟩
  obtain ⟨hle, hws⟩ := run_length_le count schedule (TaskPool.new workers, []) s
    (Nat.zero_le count) hrun
  have hws2 : 0 < s.1.workers := by
    rw [hws]
    exact hw
  obtain ⟨p, results⟩ := s
  obtain ⟨a, p1, ha, ha1, ha2, ha3⟩ := drain_running count p.running p results rfl
  obtain ⟨b, p2, hb, hb1, hb2, hb3⟩ := drain_queue count p1.queue p1 results rfl ha1
    (by rw [ha3]; exact hws2)
  obtain ⟨c, final, hc, hc1, hc2, hc3⟩ := submit_rest count (count - results.length) p2 results
    hb2 hb1 (by rw [hb3, ha3]; exact hws2) (by simp only at hle; omega)
  have hall : testThreadPoolRun count (schedule ++ (a ++ (b ++ c))) (TaskPool.new workers, [])
      = some final := by
    rw [testThreadPoolRun_append, hrun, Option.some_bind, testThreadPoolRun_append, ha,
      Option.some_bind, testThreadPoolRun_append, hb, Option.some_bind, hc]
  have hinv2 := poolInvariant_run count _ _ final (poolInvariant_new workers) hall
  exact ⟨a ++ (b ++ c), final, hall, hc1, hc2, hc3,
    poolInvariant_complete count final hinv2 hc1 hc2 hc3⟩

/-- A run with three tasks and four workers in which the tasks complete in the order
1, 2, 0: the handles yield 0, 1 and 4. -/
theorem task_pool_results_witness :
    (0 < 4)
      ∧ ∃ s, testThreadPoolRun 3 outOfOrderSchedule (TaskPool.new 4, []) = some s
        ∧ s.2.length = 3 ∧ s.1.queue = [] ∧ s.1.running = []
        ∧ testThreadPoolResult s 0 = some 0 ∧ testThreadPoolResult s 1 = some 1
        ∧ testThreadPoolResult s 2 = some 4 := by
  have hrun : testThreadPoolRun 3 outOfOrderSchedule (TaskPool.new 4, [])
      = some ({ workers := 4, queue := [], running := [],
                handles := [some ((0 : Int) * 0), some ((1 : Int) * 1), some ((2 : Int) * 2)] },
              [0, 1, 2]) := rfl
  have h := (task_pool_results 4 3 outOfOrderSchedule _ (by decide) hrun).2.1 rfl rfl rfl
  exact ⟨by decide, _, hrun, rfl, rfl, rfl, h 0 (by decide), h 1 (by decide), h 2 (by decide)⟩

end EzCodec
